import Mathlib

/-!
# Random forest visitors and resampling convolution (vigra)

A shallow embedding of `random_forest_new/random_forest_visitors.hxx` (the
visitor base class, the out-of-bag visitor and the statically linked visitor
chain) and of `resampling_convolution.hxx`, followed by the properties proved
about them.

Modelling conventions.

* A C++ object of a class derived from `RFVisitorBase` is a value `Visitor δ`:
  the base sub-object (the `active_` flag) together with the derived members `δ`.
* The visitors owned by the caller live in a heap `Nat → Visitor δ`; an address
  is a natural number.  A chain slot declared `Visitor &` (`CPY = false`) holds
  an address, a slot declared `Visitor` (`CPY = true`) holds the object itself.
* The template parameter `VISITOR` of a node is a tag `V : ι`; the hook bodies
  of all visitor classes are collected in one record `Visitors ι δ T`.  Hooks
  are non-virtual, so the body that runs is chosen by the tag of the slot.
* The template types of the hook arguments (forest, features, labels, weights,
  split, range) are collected in a record `ArgTypes`; the bodies read the
  arguments.
* Every dispatch returns, besides the new state, the list of visitor hook calls
  it made, in program order.
-/

namespace vigra

/-! ## `RFVisitorBase` (source lines 63-152) -/

/-- Base class of all visitors: the single member `active_`. -/
structure RFVisitorBase where
  active_ : Bool
deriving DecidableEq, Repr

/-- Constructor `RFVisitorBase()`: `active_(true)`. -/
def RFVisitorBase.new : RFVisitorBase := { active_ := true }

/-- Default hook `visit_before_training()`: empty body. -/
def RFVisitorBase.visit_before_training (self : RFVisitorBase) : RFVisitorBase := self

/-- Default hook `visit_after_training(v, rf, features, labels)`: empty body. -/
def RFVisitorBase.visit_after_training {VISITORS RF FEATURES LABELS : Type}
    (self : RFVisitorBase) (_v : VISITORS) (_rf : RF) (_features : FEATURES)
    (_labels : LABELS) : RFVisitorBase := self

/-- Default hook `visit_before_tree(weights)`: empty body. -/
def RFVisitorBase.visit_before_tree {WEIGHTS : Type}
    (self : RFVisitorBase) (_weights : WEIGHTS) : RFVisitorBase := self

/-- Default hook `visit_after_tree(rf, features, labels, weights)`: empty body. -/
def RFVisitorBase.visit_after_tree {RF FEATURES LABELS WEIGHTS : Type}
    (self : RFVisitorBase) (_rf : RF) (_features : FEATURES) (_labels : LABELS)
    (_weights : WEIGHTS) : RFVisitorBase := self

/-- Default hook `visit_after_split(features, labels, weights, split, parent,
left_child, right_child)`: empty body. -/
def RFVisitorBase.visit_after_split {FEATURES LABELS WEIGHTS SPLIT RANGE : Type}
    (self : RFVisitorBase) (_features : FEATURES) (_labels : LABELS) (_weights : WEIGHTS)
    (_split : SPLIT) (_parent _left_child _right_child : RANGE) : RFVisitorBase := self

/-- Method `is_active() const`: `return active_;`. -/
def RFVisitorBase.is_active (self : RFVisitorBase) : Bool := self.active_

/-- Method `activate()`: `active_ = true;`. -/
def RFVisitorBase.activate (self : RFVisitorBase) : RFVisitorBase :=
  { self with active_ := true }

/-- Method `deactivate()`: `active_ = false;`. -/
def RFVisitorBase.deactivate (self : RFVisitorBase) : RFVisitorBase :=
  { self with active_ := false }

/-- An object of a class derived from `RFVisitorBase`: the base sub-object and
the members `derived` added by the derived class. -/
structure Visitor (δ : Type) extends RFVisitorBase where
  derived : δ
deriving DecidableEq, Repr

/-- Construction of a derived visitor: the base constructor runs first. -/
def Visitor.new {δ : Type} (d : δ) : Visitor δ :=
  { toRFVisitorBase := RFVisitorBase.new, derived := d }

/-- Inherited `is_active()`. -/
def Visitor.is_active {δ : Type} (self : Visitor δ) : Bool :=
  self.toRFVisitorBase.is_active

/-- Inherited `activate()`. -/
def Visitor.activate {δ : Type} (self : Visitor δ) : Visitor δ :=
  { self with toRFVisitorBase := self.toRFVisitorBase.activate }

/-- Inherited `deactivate()`. -/
def Visitor.deactivate {δ : Type} (self : Visitor δ) : Visitor δ :=
  { self with toRFVisitorBase := self.toRFVisitorBase.deactivate }

/-! ## `OOBError` (source lines 166-206) -/

/-- Class `OOBError : RFVisitorBase` with members `oob_err_` (a `double`, here a
rational), `probs_` (a two-dimensional array) and `in_bag_count_`. -/
structure OOBError extends RFVisitorBase where
  oob_err_ : ℚ
  probs_ : List (List ℚ)
  in_bag_count_ : List Nat
deriving DecidableEq

/-- The call `std::vector::resize(n, val)`: keep the first `n` entries, then pad
with `val` up to length `n`. -/
def vector_resize {α : Type} (xs : List α) (n : Nat) (val : α) : List α :=
  xs.take n ++ List.replicate (n - xs.length) val

/-- The loop `for (i = 0; i < weights.size(); ++i) if (weights[i] > 0)
in_bag_count_[i] = 1;` run over the indices `is`. -/
def OOBError.mark_in_bag {W : Type} [Zero W] [LT W] [DecidableRel (fun (a b : W) => a < b)]
    (weights : List W) (is : List Nat) (in_bag_count_ : List Nat) : List Nat :=
  is.foldl
    (fun acc i =>
      match weights.get? i with
      | some w => if 0 < w then acc.set i 1 else acc
      | none => acc)
    in_bag_count_

/-- Method `OOBError::visit_after_tree(rf, features, labels, weights)`; of `rf`
only `rf.num_nodes()` is used, `features` and `labels` are unused.  The
diagnostic line written to `std::cout` is not part of the state. -/
def OOBError.visit_after_tree {W : Type} [Zero W] [LT W]
    [DecidableRel (fun (a b : W) => a < b)]
    (self : OOBError) (rf_num_nodes : Nat) (weights : List W) : OOBError :=
  let resized := vector_resize self.in_bag_count_ weights.length 0
  { self with
    in_bag_count_ := OOBError.mark_in_bag weights (List.range weights.length) resized
    oob_err_ := (rf_num_nodes : ℚ) }

/-! ## The visitor chain (source lines 214-534) -/

/-- The five hook names of the visitor interface. -/
inductive Hook
  | visit_before_training
  | visit_after_training
  | visit_before_tree
  | visit_after_tree
  | visit_after_split
deriving DecidableEq, Repr

/-- The member `visitor_` of a node, of type
`std::conditional<CPY, Visitor, Visitor &>::type`: a reference to a visitor of
the caller (`CPY = false`) or a visitor held by value (`CPY = true`). -/
inductive Storage (σ : Type)
  | ref (addr : Nat)
  | val (obj : σ)
deriving DecidableEq, Repr

/-- A chain value: the terminator `RFStopVisiting` (itself an `RFVisitorBase`
object) or a node `RFVisitorNode<VISITOR, NEXT, CPY>` with its two members
`visitor_` and `next_` (`next_` is held by value). -/
inductive Chain (ι δ : Type)
  | RFStopVisiting (self : RFVisitorBase)
  | RFVisitorNode (VISITOR : ι) (visitor_ : Storage (Visitor δ)) (next_ : Chain ι δ)
deriving DecidableEq, Repr

/-- The visitors of the caller, by address. -/
abbrev Heap (δ : Type) := Nat → Visitor δ

/-- A pointer to a visitor object: an object of the caller, the member
`visitor_` of the `t`-th element of the vector handed to
`visit_after_training`, or the member `visitor_` of the node that dispatches. -/
inductive Ptr
  | heap (addr : Nat)
  | elem (t : Nat)
  | member
deriving DecidableEq, Repr

/-- What a pointer-taking hook body sees of the memory. -/
abbrev Mem (δ : Type) := Ptr → Option (Visitor δ)

/-- One call of a visitor hook made by a chain: which hook, on a slot of which
visitor class, on which object, and (for `visit_after_training`) the vector of
pointers handed over together with the objects they point to at that moment. -/
structure Call (δ ι : Type) where
  hook : Hook
  VISITOR : ι
  receiver : Ptr
  visitors : List (Ptr × Option (Visitor δ))
deriving DecidableEq, Repr

/-- The template types of the hook arguments. -/
structure ArgTypes where
  RF : Type
  FEATURES : Type
  LABELS : Type
  WEIGHTS : Type
  SPLIT : Type
  RANGE : Type

/-- The hook bodies of the visitor classes, by class tag.  The four hooks
without pointer arguments act on the receiver; `visit_after_training` gets the
receiver `this`, the vector `visitors` of pointers and the memory, and returns
the memory it leaves behind (only what it leaves at `this` and at the entries
of `visitors` is stored back). -/
structure Visitors (ι δ : Type) (T : ArgTypes) where
  visit_before_training : ι → Visitor δ → Visitor δ
  visit_after_training :
    ι → Ptr → List Ptr → T.RF → T.FEATURES → T.LABELS → Mem δ → Mem δ
  visit_before_tree : ι → T.WEIGHTS → Visitor δ → Visitor δ
  visit_after_tree :
    ι → T.RF → T.FEATURES → T.LABELS → T.WEIGHTS → Visitor δ → Visitor δ
  visit_after_split : ι → T.FEATURES → T.LABELS → T.WEIGHTS → T.SPLIT →
    T.RANGE → T.RANGE → T.RANGE → Visitor δ → Visitor δ

/-- A visitor class that overrides nothing: every hook is the one inherited
from `RFVisitorBase`, applied to the base sub-object. -/
def Visitors.inherited (ι δ : Type) (T : ArgTypes) : Visitors ι δ T where
  visit_before_training := fun _ o =>
    { o with toRFVisitorBase := o.toRFVisitorBase.visit_before_training }
  visit_after_training := fun _ _ visitors rf features labels mem p =>
    (mem p).map fun o =>
      { o with toRFVisitorBase :=
          o.toRFVisitorBase.visit_after_training visitors rf features labels }
  visit_before_tree := fun _ weights o =>
    { o with toRFVisitorBase := o.toRFVisitorBase.visit_before_tree weights }
  visit_after_tree := fun _ rf features labels weights o =>
    { o with toRFVisitorBase := o.toRFVisitorBase.visit_after_tree rf features labels weights }
  visit_after_split := fun _ features labels weights sp parent left_child right_child o =>
    { o with toRFVisitorBase :=
        (o.toRFVisitorBase.visit_after_split features labels weights sp parent
          left_child right_child) }

/-- The object a slot denotes. -/
def Storage.get {δ : Type} (s : Storage (Visitor δ)) (h : Heap δ) : Visitor δ :=
  match s with
  | .ref a => h a
  | .val o => o

/-- The address `&visitor_` of the object a slot of the dispatching node denotes. -/
def Storage.this {σ : Type} (s : Storage σ) : Ptr :=
  match s with
  | .ref a => .heap a
  | .val _ => .member

/-- The result of a chain hook: the chain and the heap afterwards and the
visitor hook calls made, in order. -/
structure Dispatch (ι δ : Type) where
  chain : Chain ι δ
  heap : Heap δ
  calls : List (Call δ ι)

/-- The common shape of `visit_before_training`, `visit_before_tree` and
`visit_after_tree` of `RFVisitorNode`:
`if (visitor_.is_active()) visitor_.hook(args); next_.hook(args);`
where `body V` is the hook of class `V` with its arguments supplied and `base`
the inherited hook that the terminator `RFStopVisiting` runs. -/
def RFVisitorNode.forward {ι δ : Type} (hook : Hook) (base : RFVisitorBase → RFVisitorBase)
    (body : ι → Visitor δ → Visitor δ) : Chain ι δ → Heap δ → Dispatch ι δ
  | .RFStopVisiting self, h => ⟨.RFStopVisiting (base self), h, []⟩
  | .RFVisitorNode V (.ref a) next_, h =>
    let active := (h a).is_active
    let h1 := if active then Function.update h a (body V (h a)) else h
    let r := RFVisitorNode.forward hook base body next_ h1
    ⟨.RFVisitorNode V (.ref a) r.chain, r.heap,
      (if active then [⟨hook, V, .heap a, []⟩] else []) ++ r.calls⟩
  | .RFVisitorNode V (.val o) next_, h =>
    let active := o.is_active
    let o1 := if active then body V o else o
    let r := RFVisitorNode.forward hook base body next_ h
    ⟨.RFVisitorNode V (.val o1) r.chain, r.heap,
      (if active then [⟨hook, V, .member, []⟩] else []) ++ r.calls⟩

/-- Method `RFVisitorNode::visit_before_training()`. -/
def RFVisitorNode.visit_before_training {ι δ : Type} {T : ArgTypes} (B : Visitors ι δ T)
    (c : Chain ι δ) (h : Heap δ) : Dispatch ι δ :=
  RFVisitorNode.forward .visit_before_training (fun s => s.visit_before_training)
    B.visit_before_training c h

/-- Method `RFVisitorNode::visit_before_tree(weights)`. -/
def RFVisitorNode.visit_before_tree {ι δ : Type} {T : ArgTypes} (B : Visitors ι δ T)
    (weights : T.WEIGHTS) (c : Chain ι δ) (h : Heap δ) : Dispatch ι δ :=
  RFVisitorNode.forward .visit_before_tree (fun s => s.visit_before_tree weights)
    (fun V => B.visit_before_tree V weights) c h

/-- Method `RFVisitorNode::visit_after_tree(rf, features, labels, weights)`. -/
def RFVisitorNode.visit_after_tree {ι δ : Type} {T : ArgTypes} (B : Visitors ι δ T)
    (rf : T.RF) (features : T.FEATURES) (labels : T.LABELS) (weights : T.WEIGHTS)
    (c : Chain ι δ) (h : Heap δ) : Dispatch ι δ :=
  RFVisitorNode.forward .visit_after_tree
    (fun s => s.visit_after_tree rf features labels weights)
    (fun V => B.visit_after_tree V rf features labels weights) c h

/-- The member functions of `RFVisitorNode` (source lines 261-313), by name. -/
def RFVisitorNode.member_functions : List Hook :=
  [.visit_before_training, .visit_after_training, .visit_before_tree, .visit_after_tree]

/-- The hook member functions of `RFVisitorBase` (source lines 75-122), by name. -/
def RFVisitorBase.member_functions : List Hook :=
  [.visit_before_training, .visit_after_training, .visit_before_tree, .visit_after_tree,
    .visit_after_split]

/-! ### `RFVisitorNode::visit_after_training` (source lines 268-294) -/

/-- Whether a chain value is a node (has the members `visitor_`, `next_` and
the typedefs `Visitor`, `Next`). -/
def Chain.isNode {ι δ : Type} : Chain ι δ → Bool
  | .RFStopVisiting _ => false
  | .RFVisitorNode _ _ _ => true

/-- The member `next_` of a node (by value). -/
def Chain.next_ {ι δ : Type} : Chain ι δ → Chain ι δ
  | .RFStopVisiting self => .RFStopVisiting self
  | .RFVisitorNode _ _ n => n

/-- The pointer `&x.visitor_` for the `t`-th element `x` of the vector: the
address of the visitor the slot refers to, or of the member held by value. -/
def Chain.visitor_ptr {ι δ : Type} (t : Nat) : Chain ι δ → Ptr
  | .RFVisitorNode _ (.ref a) _ => .heap a
  | _ => .elem t

/-- The loop `for (auto & x : v) visitors.push_back(&x.visitor_);`, the first
element of `v` having index `t`. -/
def collect_visitors {ι δ : Type} (t : Nat) : List (Chain ι δ) → List Ptr
  | [] => []
  | x :: v => x.visitor_ptr t :: collect_visitors (t + 1) v

/-- The loop `for (auto & x : v) nexts.push_back(x.next_);`. -/
def collect_nexts {ι δ : Type} (v : List (Chain ι δ)) : List (Chain ι δ) :=
  v.map Chain.next_

/-- The objects in reach while a node runs `visit_after_training`: its own
slot, the vector `v` and the heap. -/
structure Frame (ι δ : Type) where
  visitor_ : Storage (Visitor δ)
  v : List (Chain ι δ)
  heap : Heap δ

/-- Dereference a pointer in a frame. -/
def Frame.read {ι δ : Type} (f : Frame ι δ) : Mem δ
  | .heap a => some (f.heap a)
  | .elem t =>
    match f.v.get? t with
    | some (.RFVisitorNode _ (.val o) _) => some o
    | _ => none
  | .member =>
    match f.visitor_ with
    | .val o => some o
    | .ref _ => none

/-- Assign through a pointer in a frame. -/
def Frame.write {ι δ : Type} (f : Frame ι δ) (p : Ptr) (o : Visitor δ) : Frame ι δ :=
  match p with
  | .heap a => { f with heap := Function.update f.heap a o }
  | .elem t =>
    match f.v.get? t with
    | some (.RFVisitorNode V (.val _) n) => { f with v := f.v.set t (.RFVisitorNode V (.val o) n) }
    | _ => f
  | .member =>
    match f.visitor_ with
    | .val _ => { f with visitor_ := .val o }
    | .ref _ => f

/-- Store back what a hook body left at the pointers `ps`. -/
def Frame.store {ι δ : Type} (f : Frame ι δ) (mem : Mem δ) (ps : List Ptr) : Frame ι δ :=
  ps.foldl
    (fun g p =>
      match mem p with
      | some o => g.write p o
      | none => g)
    f

/-- The result of `visit_after_training`: the chain, the caller's vector `v`
and the heap afterwards, and the visitor hook calls made, in order. -/
structure Joined (ι δ : Type) where
  chain : Chain ι δ
  v : List (Chain ι δ)
  heap : Heap δ
  calls : List (Call δ ι)

/-- Method `RFVisitorNode::visit_after_training(v, rf, features, labels)`.
The typedefs `VisitorNodeType::Visitor` and `VisitorNodeType::Next` exist only
when the element type of `v` is a node type: otherwise the call is ill-formed
(`none`).  On the terminator the inherited empty hook runs. -/
def RFVisitorNode.visit_after_training {ι δ : Type} {T : ArgTypes} (B : Visitors ι δ T)
    (rf : T.RF) (features : T.FEATURES) (labels : T.LABELS) :
    Chain ι δ → List (Chain ι δ) → Heap δ → Option (Joined ι δ)
  | .RFStopVisiting self, v, h =>
    some ⟨.RFStopVisiting (self.visit_after_training v rf features labels), v, h, []⟩
  | .RFVisitorNode V visitor_ next_, v, h =>
    if v.all Chain.isNode then
      let f0 : Frame ι δ := ⟨visitor_, v, h⟩
      let active := (visitor_.get h).is_active
      let visitors := collect_visitors 0 v
      let f1 :=
        if active then
          f0.store (B.visit_after_training V visitor_.this visitors rf features labels f0.read)
            (visitor_.this :: visitors)
        else f0
      let nexts := collect_nexts f1.v
      match RFVisitorNode.visit_after_training B rf features labels next_ nexts f1.heap with
      | none => none
      | some r =>
        some ⟨.RFVisitorNode V f1.visitor_ r.chain, f1.v, r.heap,
          (if active then
            [⟨.visit_after_training, V, visitor_.this, visitors.map fun p => (p, f0.read p)⟩]
          else []) ++ r.calls⟩
    else none

/-! ### Constructors, `create_visitor` and forking (source lines 237-259, 338-534) -/

/-- Constructor `RFVisitorNode(Visitor & visitor, Next next)` of a node with
`CPY = false`: `visitor_(visitor), next_(next)`. -/
def RFVisitorNode.mk {ι δ : Type} (V : ι) (visitor : Nat) (next : Chain ι δ) : Chain ι δ :=
  .RFVisitorNode V (.ref visitor) next

/-- Constructor `explicit RFVisitorNode(Visitor & visitor)` of a node with
`CPY = false`: `visitor_(visitor), next_(RFStopVisiting())`. -/
def RFVisitorNode.mk1 {ι δ : Type} (V : ι) (visitor : Nat) : Chain ι δ :=
  .RFVisitorNode V (.ref visitor) (.RFStopVisiting RFVisitorBase.new)

/-- Converting constructor
`explicit RFVisitorNode(RFVisitorNode<Visitor, Next, !CPY> & other)` and its
`const &` overload (source lines 249-259), instantiated with `CPY = true`: from
a node `other` with `CPY = false`, `visitor_(other.visitor_)` copies the visitor
`other` refers to into the new node and `next_(other.next_)` copies the member
`next_`, whose type `Next` is the same on both sides.  This is the direction
that makes a fork.  The terminator has no such constructor.  Instantiated with
`CPY = false` the same constructor builds, from a node that holds its visitor
by value, a node that refers to that member; a reference to a member of another
node is not an address of the caller's heap, so that direction is outside this
embedding and `none` stands for it as well. -/
def RFVisitorNode.from_other {ι δ : Type} (other : Chain ι δ) (h : Heap δ) :
    Option (Chain ι δ) :=
  match other with
  | .RFVisitorNode V (.ref a) next_ => some (.RFVisitorNode V (.val (h a)) next_)
  | _ => none

/-- Overload `create_visitor(a)`. -/
def create_visitor1 {ι δ : Type} (A : ι) (a : Nat) : Chain ι δ :=
  let n0 := RFVisitorNode.mk1 A a
  n0

/-- Overload `create_visitor(a, b)`. -/
def create_visitor2 {ι δ : Type} (A B : ι) (a b : Nat) : Chain ι δ :=
  let n1 := RFVisitorNode.mk1 B b
  let n0 := RFVisitorNode.mk A a n1
  n0

/-- Overload `create_visitor(a, b, c)`. -/
def create_visitor3 {ι δ : Type} (A B C : ι) (a b c : Nat) : Chain ι δ :=
  let n2 := RFVisitorNode.mk1 C c
  let n1 := RFVisitorNode.mk B b n2
  let n0 := RFVisitorNode.mk A a n1
  n0

/-- Overload `create_visitor(a, b, c, d)`. -/
def create_visitor4 {ι δ : Type} (A B C D : ι) (a b c d : Nat) : Chain ι δ :=
  let n3 := RFVisitorNode.mk1 D d
  let n2 := RFVisitorNode.mk C c n3
  let n1 := RFVisitorNode.mk B b n2
  let n0 := RFVisitorNode.mk A a n1
  n0

/-- Overload `create_visitor(a, b, c, d, e)`. -/
def create_visitor5 {ι δ : Type} (A B C D E : ι) (a b c d e : Nat) : Chain ι δ :=
  let n4 := RFVisitorNode.mk1 E e
  let n3 := RFVisitorNode.mk D d n4
  let n2 := RFVisitorNode.mk C c n3
  let n1 := RFVisitorNode.mk B b n2
  let n0 := RFVisitorNode.mk A a n1
  n0

/-- Overload `create_visitor(a, b, c, d, e, f)`. -/
def create_visitor6 {ι δ : Type} (A B C D E F : ι) (a b c d e f : Nat) : Chain ι δ :=
  let n5 := RFVisitorNode.mk1 F f
  let n4 := RFVisitorNode.mk E e n5
  let n3 := RFVisitorNode.mk D d n4
  let n2 := RFVisitorNode.mk C c n3
  let n1 := RFVisitorNode.mk B b n2
  let n0 := RFVisitorNode.mk A a n1
  n0

/-- Overload `create_visitor(a, b, c, d, e, f, g)`. -/
def create_visitor7 {ι δ : Type} (A B C D E F G : ι) (a b c d e f g : Nat) : Chain ι δ :=
  let n6 := RFVisitorNode.mk1 G g
  let n5 := RFVisitorNode.mk F f n6
  let n4 := RFVisitorNode.mk E e n5
  let n3 := RFVisitorNode.mk D d n4
  let n2 := RFVisitorNode.mk C c n3
  let n1 := RFVisitorNode.mk B b n2
  let n0 := RFVisitorNode.mk A a n1
  n0

/-- Overload `create_visitor(a, b, c, d, e, f, g, h)`. -/
def create_visitor8 {ι δ : Type} (A B C D E F G H : ι) (a b c d e f g h : Nat) :
    Chain ι δ :=
  let n7 := RFVisitorNode.mk1 H h
  let n6 := RFVisitorNode.mk G g n7
  let n5 := RFVisitorNode.mk F f n6
  let n4 := RFVisitorNode.mk E e n5
  let n3 := RFVisitorNode.mk D d n4
  let n2 := RFVisitorNode.mk C c n3
  let n1 := RFVisitorNode.mk B b n2
  let n0 := RFVisitorNode.mk A a n1
  n0

/-- Overload `create_visitor(a, b, c, d, e, f, g, h, i)`. -/
def create_visitor9 {ι δ : Type} (A B C D E F G H I : ι) (a b c d e f g h i : Nat) :
    Chain ι δ :=
  let n8 := RFVisitorNode.mk1 I i
  let n7 := RFVisitorNode.mk H h n8
  let n6 := RFVisitorNode.mk G g n7
  let n5 := RFVisitorNode.mk F f n6
  let n4 := RFVisitorNode.mk E e n5
  let n3 := RFVisitorNode.mk D d n4
  let n2 := RFVisitorNode.mk C c n3
  let n1 := RFVisitorNode.mk B b n2
  let n0 := RFVisitorNode.mk A a n1
  n0

/-- Overload `create_visitor(a, b, c, d, e, f, g, h, i, j)`. -/
def create_visitor10 {ι δ : Type} (A B C D E F G H I J : ι) (a b c d e f g h i j : Nat) :
    Chain ι δ :=
  let n9 := RFVisitorNode.mk1 J j
  let n8 := RFVisitorNode.mk I i n9
  let n7 := RFVisitorNode.mk H h n8
  let n6 := RFVisitorNode.mk G g n7
  let n5 := RFVisitorNode.mk F f n6
  let n4 := RFVisitorNode.mk E e n5
  let n3 := RFVisitorNode.mk D d n4
  let n2 := RFVisitorNode.mk C c n3
  let n1 := RFVisitorNode.mk B b n2
  let n0 := RFVisitorNode.mk A a n1
  n0

/-- Overload resolution of `create_visitor(v1, ..., vN)`: each argument is
given by its static type and its address; there are overloads for one to ten
arguments and no others. -/
def create_visitor {ι δ : Type} : List (ι × Nat) → Option (Chain ι δ)
  | [(A, a)] => some (create_visitor1 A a)
  | [(A, a), (B, b)] => some (create_visitor2 A B a b)
  | [(A, a), (B, b), (C, c)] => some (create_visitor3 A B C a b c)
  | [(A, a), (B, b), (C, c), (D, d)] => some (create_visitor4 A B C D a b c d)
  | [(A, a), (B, b), (C, c), (D, d), (E, e)] => some (create_visitor5 A B C D E a b c d e)
  | [(A, a), (B, b), (C, c), (D, d), (E, e), (F, f)] =>
    some (create_visitor6 A B C D E F a b c d e f)
  | [(A, a), (B, b), (C, c), (D, d), (E, e), (F, f), (G, g)] =>
    some (create_visitor7 A B C D E F G a b c d e f g)
  | [(A, a), (B, b), (C, c), (D, d), (E, e), (F, f), (G, g), (H, h)] =>
    some (create_visitor8 A B C D E F G H a b c d e f g h)
  | [(A, a), (B, b), (C, c), (D, d), (E, e), (F, f), (G, g), (H, h), (I, i)] =>
    some (create_visitor9 A B C D E F G H I a b c d e f g h i)
  | [(A, a), (B, b), (C, c), (D, d), (E, e), (F, f), (G, g), (H, h), (I, i), (J, j)] =>
    some (create_visitor10 A B C D E F G H I J a b c d e f g h i j)
  | _ => none

/-! ### Views of a chain used to state the properties -/

/-- The slots of a chain in traversal order: class tag and storage. -/
def Chain.slots {ι δ : Type} : Chain ι δ → List (ι × Storage (Visitor δ))
  | .RFStopVisiting _ => []
  | .RFVisitorNode V s n => (V, s) :: n.slots

/-- The addresses of the visitors a chain refers to, in traversal order. -/
def Chain.refs {ι δ : Type} : Chain ι δ → List Nat
  | .RFStopVisiting _ => []
  | .RFVisitorNode _ (.ref a) n => a :: n.refs
  | .RFVisitorNode _ (.val _) n => n.refs

/-- The chain `borrowed args`: one node per argument, each referring to its
argument, ended by a fresh terminator. -/
def Chain.borrowed {ι δ : Type} : List (ι × Nat) → Chain ι δ
  | [] => .RFStopVisiting RFVisitorBase.new
  | (V, a) :: rest => .RFVisitorNode V (.ref a) (Chain.borrowed rest)

/-- Whether the visitor a slot denotes is active in heap `h`. -/
def Storage.active {δ : Type} (h : Heap δ) (s : Storage (Visitor δ)) : Bool :=
  (s.get h).is_active

/-- The chain after its first `k` slots. -/
def Chain.drop {ι δ : Type} : Nat → Chain ι δ → Chain ι δ
  | 0, c => c
  | k + 1, c => Chain.drop k c.next_

/-- The visitor object the first slot of a chain denotes, if the chain is a node. -/
def Chain.visitor? {ι δ : Type} (h : Heap δ) : Chain ι δ → Option (Visitor δ)
  | .RFStopVisiting _ => none
  | .RFVisitorNode _ s _ => some (s.get h)

/-- The chain `x` is a per-tree copy of the chain `c`: slot by slot, as far as
`c` reaches, `x` holds its visitor by value or refers to the very object the
slot of `c` refers to. -/
def Chain.Mirrors {ι δ : Type} : Chain ι δ → Chain ι δ → Prop
  | _, .RFStopVisiting _ => True
  | .RFStopVisiting _, .RFVisitorNode _ _ _ => False
  | .RFVisitorNode _ (.val _) n, .RFVisitorNode _ _ m => Chain.Mirrors n m
  | .RFVisitorNode _ (.ref a) n, .RFVisitorNode _ (.ref b) m => a = b ∧ Chain.Mirrors n m
  | .RFVisitorNode _ (.ref _) _, .RFVisitorNode _ (.val _) _ => False

/-- The weight at index `i` exists and is positive. -/
def positive_at {W : Type} [Zero W] [LT W] [DecidableRel (fun (a b : W) => a < b)]
    (weights : List W) (i : Nat) : Bool :=
  match weights[i]? with
  | some w => decide (0 < w)
  | none => false

/-- What the loop `for (auto & x : v) visitors.push_back(&x.visitor_);` hands
over for the vector `v` (first index `t`), paired with the pointees in heap
`h`: for each element the pointer to, and the state of, the visitor its first
slot denotes. -/
def handed {ι δ : Type} (h : Heap δ) (t : Nat) (v : List (Chain ι δ)) :
    List (Ptr × Option (Visitor δ)) :=
  (v.enumFrom t).map (fun tx => (tx.2.visitor_ptr tx.1, tx.2.visitor? h))

/-- The call of `visit_after_training` expected for the slot `(V, s)` at
position `k` of a chain, given the vector `copies`: the visitor is handed, for
each tree `t`, the visitor at position `k` of `copies[t]`. -/
def join_call {ι δ : Type} (h : Heap δ) (copies : List (Chain ι δ))
    (ks : Nat × ι × Storage (Visitor δ)) : Call δ ι :=
  ⟨.visit_after_training, ks.2.1, ks.2.2.this, handed h 0 (copies.map (Chain.drop ks.1))⟩

/-- The template flag `CPY` of a slot: whether the visitor is held by value. -/
def Storage.CPY {σ : Type} : Storage σ → Bool
  | .ref _ => false
  | .val _ => true

/-- The state of the visitor at position `k` of a chain, in heap `h`. -/
def Chain.state_at {ι δ : Type} (c : Chain ι δ) (k : Nat) (h : Heap δ) : Option (Visitor δ) :=
  (c.slots[k]?).map (fun s => s.2.get h)

/-! ### A small concrete instance -/

/-- Argument types of the example: the forest is its number of nodes, the
weights are a list of integers. -/
abbrev Example.T : ArgTypes := ⟨Nat, Unit, Unit, List Int, Unit, Unit⟩

/-- Two example visitor classes with one counter each (`derived`), tagged `0`
and `1`: `visit_before_training` adds one, `visit_before_tree` adds ten in class
`1` and does nothing in class `0`, `visit_after_tree` adds the number of nodes,
`visit_after_training` stores the number of entries it was handed in the
receiver and bumps every entry, and `visit_after_split` sets the counter to
`999`. -/
def Example.counting : Visitors Nat Nat Example.T where
  visit_before_training := fun _ o => { o with derived := o.derived + 1 }
  visit_after_training := fun _ this visitors _ _ _ mem p =>
    if p = this then (mem p).map fun o => { o with derived := visitors.length }
    else if p ∈ visitors then (mem p).map fun o => { o with derived := o.derived + 7 }
    else mem p
  visit_before_tree := fun V _ o => if V = 1 then { o with derived := o.derived + 10 } else o
  visit_after_tree := fun _ rf _ _ _ o => { o with derived := o.derived + rf }
  visit_after_split := fun _ _ _ _ _ _ _ _ o => { o with derived := 999 }

/-- The visitors of the caller in the example: at every address a freshly
constructed visitor with counter `0`. -/
def Example.heap : Heap Nat := fun _ => Visitor.new 0

/-- The chain `create_visitor(a, b)` of the example: `a` of class `0` at address
`0`, `b` of class `1` at address `1`. -/
def Example.chain : Chain Nat Nat := create_visitor2 0 1 0 1

/-- The fork of the example chain taken in the example heap: the first visitor
by value, the second still by reference. -/
def Example.fork : Chain Nat Nat :=
  .RFVisitorNode 0 (.val (Visitor.new 0))
    (.RFVisitorNode 1 (.ref 1) (.RFStopVisiting RFVisitorBase.new))

/-! ## `OOBError::visit_after_training` (source lines 189-201) -/

/-- Method `OOBError::visit_after_training(visitors, rf, features, labels)`.
The body is the loop `for (auto vptr : visitors)` that writes `v.oob_err_` of
every entry to `std::cout`; no member is assigned.  The result is the state of
the visitor afterwards and the values written, in order. -/
def OOBError.visit_after_training {RF FEATURES LABELS : Type} (self : OOBError)
    (visitors : List OOBError) (_rf : RF) (_features : FEATURES) (_labels : LABELS) :
    OOBError × List ℚ :=
  (self, visitors.map (fun v => v.oob_err_))

/-! ### The out-of-bag error as the specification words it (section 4.4) -/

/-- The trees for which sample `i` is out of bag: the in-bag indicator of the
tree at `i` is `0`. -/
def Spec.oob_trees (in_bag : List (List Nat)) (i : Nat) : List Nat :=
  (List.range in_bag.length).filter (fun t => (in_bag.getD t []).getD i 0 = 0)

/-- The number of votes for label `l`. -/
def Spec.votes (ballots : List Nat) (l : Nat) : Nat :=
  ballots.count l

/-- The aggregated vote: the label with the most votes, the smaller label on a
tie; there is none without a ballot. -/
def Spec.majority (ballots : List Nat) : Option Nat :=
  ballots.foldl
    (fun best l =>
      match best with
      | none => some l
      | some b =>
        if Spec.votes ballots b < Spec.votes ballots l ∨
            (Spec.votes ballots b = Spec.votes ballots l ∧ l < b) then some l
        else some b)
    none

/-- The samples that are out of bag for at least one tree. -/
def Spec.voted (in_bag : List (List Nat)) (labels : List Nat) : List Nat :=
  (List.range labels.length).filter (fun i => decide (Spec.oob_trees in_bag i ≠ []))

/-- The out-of-bag error of section 4.4 of the specification for
classification: among the samples that are out of bag for at least one tree,
the fraction whose aggregated prediction over their out-of-bag trees differs
from the true label; `predict t i` is the prediction of tree `t` for sample
`i`.  Without any such sample the result is undefined (`none`). -/
def Spec.oob_error (in_bag : List (List Nat)) (predict : Nat → Nat → Nat)
    (labels : List Nat) : Option ℚ :=
  let voted := Spec.voted in_bag labels
  if voted = [] then none
  else
    some (((voted.filter (fun i =>
        decide (Spec.majority ((Spec.oob_trees in_bag i).map (fun t => predict t i)) ≠
          labels[i]?))).length : ℚ) / (voted.length : ℚ))

/-! ### The four-sample, three-tree example -/

/-- A newly constructed `OOBError` whose uninitialised member `oob_err_` reads
`q`. -/
def OOBError.fresh (q : ℚ) : OOBError :=
  { toRFVisitorBase := RFVisitorBase.new, oob_err_ := q, probs_ := [], in_bag_count_ := [] }

/-- Instance weights of three trees over four samples with the in-bag sets
`{0,1,2}`, `{1,2,3}` and `{0,2,3}`. -/
def Example.oob_weights : List (List Int) :=
  [[1, 1, 1, 0], [0, 1, 1, 1], [1, 0, 1, 1]]

/-- Instance weights of three trees that all hold every sample in bag. -/
def Example.all_in_bag_weights : List (List Int) :=
  [[1, 1, 1, 1], [1, 2, 1, 1], [3, 1, 1, 1]]

/-- The per-tree copies after `visit_after_tree` for the given weights, every
tree having seven nodes. -/
def Example.oob_copies (weights : List (List Int)) : List OOBError :=
  weights.map (fun w => (OOBError.fresh 0).visit_after_tree 7 w)

/-- The true labels of the four samples. -/
def Example.oob_labels : List Nat := [0, 1, 0, 1]

/-- The fixed predictions: every tree predicts label `1` for every sample. -/
def Example.oob_predict : Nat → Nat → Nat := fun _ _ => 1

/-! ### The training protocol of the class comment (source lines 52-61) -/

/-- The per-tree part of the protocol, the trees trained one after the other:
for each tree the original chain is forked, `visit_before_tree` and
`visit_after_tree` are called on the fork with the weights of the tree, and
the fork is kept for the join. -/
def train_trees {ι δ : Type} {T : ArgTypes} (B : Visitors ι δ T) (rf : T.RF)
    (features : T.FEATURES) (labels : T.LABELS) (chain : Chain ι δ) :
    List T.WEIGHTS → Heap δ → Option (List (Chain ι δ) × Heap δ)
  | [], h => some ([], h)
  | w :: ws, h =>
    match RFVisitorNode.from_other chain h with
    | none => none
    | some fork =>
      let r1 := RFVisitorNode.visit_before_tree B w fork h
      let r2 := RFVisitorNode.visit_after_tree B rf features labels w r1.chain r1.heap
      match train_trees B rf features labels chain ws r2.heap with
      | none => none
      | some (copies, h2) => some (r2.chain :: copies, h2)

/-- The protocol as a whole: `visit_before_training` on the original chain,
the trees, then `visit_after_training` on the original chain with the vector
of the forks. -/
def train {ι δ : Type} {T : ArgTypes} (B : Visitors ι δ T) (rf : T.RF)
    (features : T.FEATURES) (labels : T.LABELS) (ws : List T.WEIGHTS) (chain : Chain ι δ)
    (h : Heap δ) : Option (Joined ι δ) :=
  let r0 := RFVisitorNode.visit_before_training B chain h
  match train_trees B rf features labels r0.chain ws r0.heap with
  | none => none
  | some (copies, h1) =>
    RFVisitorNode.visit_after_training B rf features labels r0.chain copies h1

/-! ## `VisitorCopy` (source lines 319-329) -/

/-- A chain type: `RFStopVisiting` or `RFVisitorNode<VISITOR, NEXT, CPY>`. -/
inductive ChainType (ι : Type)
  | RFStopVisiting
  | RFVisitorNode (VISITOR : ι) (NEXT : ChainType ι) (CPY : Bool)
deriving DecidableEq, Repr

/-- The metafunction `VisitorCopy<VISITOR>::type`: the primary template for a
node and the specialisation for `RFStopVisiting`. -/
def VisitorCopy {ι : Type} : ChainType ι → ChainType ι
  | .RFStopVisiting => .RFStopVisiting
  | .RFVisitorNode V N _ => .RFVisitorNode V (VisitorCopy N) true

/-- The visitor types of a chain type, in order. -/
def ChainType.visitors {ι : Type} : ChainType ι → List ι
  | .RFStopVisiting => []
  | .RFVisitorNode V N _ => V :: N.visitors

/-- The `CPY` flags of a chain type, in order. -/
def ChainType.flags {ι : Type} : ChainType ι → List Bool
  | .RFStopVisiting => []
  | .RFVisitorNode _ N CPY => CPY :: N.flags

/-- The static type of a chain value. -/
def Chain.type {ι δ : Type} : Chain ι δ → ChainType ι
  | .RFStopVisiting _ => .RFStopVisiting
  | .RFVisitorNode V s n => .RFVisitorNode V n.type s.CPY


/-- All hook bodies the chain can call are no-ops: they leave the receiver, and
for `visit_after_training` the memory, as they are. -/
def Visitors.NoOp {ι δ : Type} {T : ArgTypes} (B : Visitors ι δ T) : Prop :=
  (∀ V o, B.visit_before_training V o = o) ∧
  (∀ V this visitors rf features labels mem,
    B.visit_after_training V this visitors rf features labels mem = mem) ∧
  (∀ V weights o, B.visit_before_tree V weights o = o) ∧
  (∀ V rf features labels weights o, B.visit_after_tree V rf features labels weights o = o)


/-! # Resampling convolution (`resampling_convolution.hxx`)

Pixel and kernel values live in a semiring `R` (the source computes in
`RealPromote`, a floating-point type, whose rounding is not modelled); the
machine type `int` is `Int`.  A failed `vigra_precondition` and an access
outside a buffer end the computation with a `Failure`. -/

/-- The ways a computation can end without a result: a violated
`vigra_precondition` with its message, or an access outside a buffer. -/
inductive Failure
  | precondition (message : String)
  | out_of_bounds
deriving DecidableEq, Repr

/-- Modelled from the spec: the class `Rational<int>` is not among the sources.
A value is a numerator and a denominator; the class keeps the denominator
non-negative and the fraction in lowest terms, and a zero denominator stands
for plus or minus infinity. -/
structure Rational where
  numerator : Int
  denominator : Int
deriving DecidableEq, Repr

/-- Modelled from the spec: `Rational<int>::is_inf()`, true when the
denominator is zero. -/
def Rational.is_inf (r : Rational) : Bool := decide (r.denominator = 0)

/-- Modelled from the spec: the comparison `r > 0` of `Rational<int>`; the
denominator being non-negative, the sign is the sign of the numerator. -/
def Rational.gt_zero (r : Rational) : Bool := decide (0 < r.numerator)

/-- The rational number a finite `Rational<int>` stands for. -/
def Rational.toRat (r : Rational) : ℚ := (r.numerator : ℚ) / (r.denominator : ℚ)

/-- Modelled from the spec: the constructor `Rational<int>(n, d)`, which
normalises to lowest terms with a non-negative denominator (`d = 0` gives an
infinity with the sign of `n`). -/
def Rational.make (n d : Int) : Rational :=
  if d = 0 then ⟨Int.sign n, 0⟩
  else ⟨((n : ℚ) / (d : ℚ)).num, (((n : ℚ) / (d : ℚ)).den : Int)⟩

/-- Class `resampling_detail::MapTargetToSourceCoordinate` (source lines 35-64):
the members `a`, `b`, `c`. -/
structure MapTargetToSourceCoordinate where
  a : Int
  b : Int
  c : Int
deriving DecidableEq, Repr

/-- Constructor `MapTargetToSourceCoordinate(samplingRatio, offset)`. -/
def MapTargetToSourceCoordinate.new (samplingRatio offset : Rational) :
    MapTargetToSourceCoordinate :=
  { a := samplingRatio.denominator * offset.denominator
    b := samplingRatio.numerator * offset.numerator
    c := samplingRatio.numerator * offset.denominator }

/-- Method `operator()(int i)`: `return (i * a + b) / c;` with the division of
`int`, which truncates toward zero. -/
def MapTargetToSourceCoordinate.call (self : MapTargetToSourceCoordinate) (i : Int) : Int :=
  Int.tdiv (i * self.a + self.b) self.c

/-- Method `toDouble(int i)`: `return double(i * a + b) / c;`, without rounding. -/
def MapTargetToSourceCoordinate.toDouble (self : MapTargetToSourceCoordinate) (i : Int) : ℚ :=
  ((i * self.a + self.b : Int) : ℚ) / (self.c : ℚ)

/-- Method `toRational(int i)`: `return Rational<int>(i * a + b, c);`. -/
def MapTargetToSourceCoordinate.toRational (self : MapTargetToSourceCoordinate) (i : Int) :
    Rational :=
  Rational.make (i * self.a + self.b) self.c

/-- Modelled from the spec: the class `Kernel1D` is not among the sources.  Of
a kernel the code uses `left()`, `right()` and the coefficients around
`center()`: `coeff j` is `center()[j]`, defined for `left <= j <= right`. -/
structure Kernel1D (R : Type) where
  left : Int
  right : Int
  coeff : Int → R

/-- The read `src(s, m)` of the source line at index `m`; outside the line it
is an access out of bounds. -/
def read_source {R : Type} (src : List R) (m : Int) : Except Failure R :=
  match (if 0 ≤ m then src[m.toNat]? else none) with
  | some x => .ok x
  | none => .error .out_of_bounds

/-- The index `mm` of the border branch (source lines 111-115):
`(m < 0) ? -m : (m >= wo) ? wo2 - m : m`. -/
def mirror_index (wo wo2 m : Int) : Int :=
  if m < 0 then -m else if m ≥ wo then wo2 - m else m

/-- The loop of the border branch (source lines 109-117),
`for(int m=lbound; m <= hbound; ++m, --k) sum += *k * src(s, mm);`,
with `count` iterations to go; `k` is the position of the kernel iterator
relative to `center()`. -/
def border_loop {R : Type} [Add R] [Mul R] (src : List R) (wo wo2 : Int) (K : Kernel1D R) :
    Nat → Int → Int → R → Except Failure R
  | 0, _, _, sum => .ok sum
  | count + 1, m, k, sum =>
    match read_source src (mirror_index wo wo2 m) with
    | .error e => .error e
    | .ok x => border_loop src wo wo2 K count (m + 1) (k - 1) (sum + K.coeff k * x)

/-- The loop of the interior branch (source lines 121-127),
`for(; ss <= ssend; ++ss, --k) sum += *k * src(ss);`, with `count` iterations
to go; `ss` is the position of the source iterator relative to `s`. -/
def interior_loop {R : Type} [Add R] [Mul R] (src : List R) (K : Kernel1D R) :
    Nat → Int → Int → R → Except Failure R
  | 0, _, _, sum => .ok sum
  | count + 1, ss, k, sum =>
    match read_source src ss with
    | .error e => .error e
    | .ok x => interior_loop src K count (ss + 1) (k - 1) (sum + K.coeff k * x)

/-- The body of the loop over the target index of `resamplingConvolveLine`
(source lines 96-128) for the kernel `K`: the value `sum` handed to
`dest.set`. -/
def convolve_at {R : Type} [Add R] [Mul R] [Zero R] (src : List R) (K : Kernel1D R)
    (f : Int → Int) (i : Int) : Except Failure R :=
  let wo : Int := src.length
  let wo2 : Int := 2 * wo - 2
  let is := f i
  let lbound := is - K.right
  let hbound := is - K.left
  let k := K.right
  if lbound < 0 ∨ hbound ≥ wo then
    if -lbound < wo ∧ wo2 - hbound ≥ 0 then
      border_loop src wo wo2 K (hbound + 1 - lbound).toNat lbound k 0
    else
      .error (.precondition "resamplingConvolveLine(): kernel or offset larger than image.")
  else
    interior_loop src K (hbound + 1 - lbound).toNat lbound k 0

/-- The loop `for(i=0; i<wn; ++i, ++d, ++kernel)` of `resamplingConvolveLine`
(source lines 90-131) with `count` iterations to go: `i` is the target index
and `kernel` the position of the kernel iterator in `kernels`
(`kernels.length` is `kernels.end()`).  The result is the list of the values
written to the destination. -/
def resamplingConvolveLine_loop {R : Type} [Add R] [Mul R] [Zero R] (src : List R)
    (kernels : List (Kernel1D R)) (f : Int → Int) :
    Nat → Int → Nat → Except Failure (List R)
  | 0, _, _ => .ok []
  | count + 1, i, kernel =>
    let kernel := if kernel = kernels.length then 0 else kernel
    match kernels[kernel]? with
    | none => .error .out_of_bounds
    | some K =>
      match convolve_at src K f i with
      | .error e => .error e
      | .ok sum =>
        match resamplingConvolveLine_loop src kernels f count (i + 1) (kernel + 1) with
        | .error e => .error e
        | .ok rest => .ok (sum :: rest)

/-- Function `resamplingConvolveLine(s, send, src, d, dend, dest, kernels,
mapTargetToSourceCoordinate)` (source lines 68-132): `src` is the source line
(`wo = send - s` is its length), `wn = dend - d` the length of the destination
line, `f` the coordinate functor. -/
def resamplingConvolveLine {R : Type} [Add R] [Mul R] [Zero R] (src : List R) (wn : Nat)
    (kernels : List (Kernel1D R)) (f : Int → Int) : Except Failure (List R) :=
  resamplingConvolveLine_loop src kernels f wn 0 0

/-- Function `createResamplingKernels(kernel, mapCoordinate, kernels)` (source
lines 134-154) for an array of `size` kernels.  `kernel_for offset` stands for
the kernel that lines 144-152 build from the functor `kernel` and the value
`offset = idsrc - isrc`, which is all they depend on. -/
def createResamplingKernels {R : Type} (kernel_for : ℚ → Kernel1D R)
    (mapCoordinate : MapTargetToSourceCoordinate) (size : Nat) : List (Kernel1D R) :=
  (List.range size).map fun idest =>
    let isrc := mapCoordinate.call idest
    let idsrc := mapCoordinate.toDouble idest
    let offset := idsrc - isrc
    kernel_for offset

/-- An image region given by two iterators and an accessor: its width, its
height and the pixel at column `x` and row `y`. -/
structure Image (R : Type) where
  width : Nat
  height : Nat
  px : Nat → Nat → R

/-- The row `y` of an image (`rowIterator()`). -/
def Image.row {R : Type} (im : Image R) (y : Nat) : List R :=
  (List.range im.width).map (fun x => im.px x y)

/-- The column `x` of an image (`columnIterator()`). -/
def Image.column {R : Type} (im : Image R) (x : Nat) : List R :=
  (List.range im.height).map (fun y => im.px x y)

/-- The loop over the lines of an image in `resamplingConvolveX` and
`resamplingConvolveY`: `resamplingConvolveLine` on each line in turn. -/
def convolve_lines {R : Type} [Add R] [Mul R] [Zero R] (wn : Nat)
    (kernels : List (Kernel1D R)) (f : Int → Int) :
    List (List R) → Except Failure (List (List R))
  | [] => .ok []
  | line :: rest =>
    match resamplingConvolveLine line wn kernels f with
    | .error e => .error e
    | .ok d =>
      match convolve_lines wn kernels f rest with
      | .error e => .error e
      | .ok ds => .ok (d :: ds)

/-- Function `resamplingConvolveX(sul, slr, src, dul, dlr, dest, kernel,
samplingRatio, offset)` (source lines 160-187); `wnew = dlr.x - dul.x`.  The
result is the region of the destination that has been written: `wnew` columns
and as many rows as the source has. -/
def resamplingConvolveX {R : Type} [Add R] [Mul R] [Zero R] (src : Image R) (wnew : Nat)
    (kernel_for : ℚ → Kernel1D R) (samplingRatio offset : Rational) :
    Except Failure (Image R) :=
  if ¬ (!samplingRatio.is_inf && samplingRatio.gt_zero) = true then
    .error (.precondition "resamplingConvolveX(): sampling ratio must be > 0 and < infinity")
  else if ¬ (!offset.is_inf) = true then
    .error (.precondition "resamplingConvolveX(): offset must be < infinity")
  else
    let period := Int.lcm samplingRatio.numerator samplingRatio.denominator
    let mapCoordinate := MapTargetToSourceCoordinate.new samplingRatio offset
    let kernels := createResamplingKernels kernel_for mapCoordinate period
    match convolve_lines wnew kernels mapCoordinate.call
        ((List.range src.height).map src.row) with
    | .error e => .error e
    | .ok rows => .ok ⟨wnew, src.height, fun x y => (rows.getD y []).getD x 0⟩

/-- Function `resamplingConvolveY(sul, slr, src, dul, dlr, dest, kernel,
samplingRatio, offset)` (source lines 207-235); `hnew = dlr.y - dul.y`.  The
result is the region of the destination that has been written: as many columns
as the source has and `hnew` rows. -/
def resamplingConvolveY {R : Type} [Add R] [Mul R] [Zero R] (src : Image R) (hnew : Nat)
    (kernel_for : ℚ → Kernel1D R) (samplingRatio offset : Rational) :
    Except Failure (Image R) :=
  if ¬ (!samplingRatio.is_inf && samplingRatio.gt_zero) = true then
    .error (.precondition "resamplingConvolveY(): sampling ratio must be > 0 and < infinity")
  else if ¬ (!offset.is_inf) = true then
    .error (.precondition "resamplingConvolveY(): offset must be < infinity")
  else
    let period := Int.lcm samplingRatio.numerator samplingRatio.denominator
    let mapCoordinate := MapTargetToSourceCoordinate.new samplingRatio offset
    let kernels := createResamplingKernels kernel_for mapCoordinate period
    match convolve_lines hnew kernels mapCoordinate.call
        ((List.range src.width).map src.column) with
    | .error e => .error e
    | .ok columns => .ok ⟨src.width, hnew, fun x y => (columns.getD x []).getD y 0⟩

/-! ### The specification's side of the coordinate map and of the line sum -/

/-- The cast `rational_cast<int>(r)` named in the source comment (line 45):
numerator divided by denominator in `int`. -/
def Spec.rational_cast (q : ℚ) : Int := Int.tdiv q.num q.den

/-- A rational number truncated toward zero. -/
def Spec.truncate (q : ℚ) : Int := if 0 ≤ q then ⌊q⌋ else ⌈q⌉

/-- The mirror reflection of an index at the borders of a line of length `wo`
that does not repeat the border sample. -/
def Spec.refl (wo m : Int) : Int :=
  if m < 0 then -m else if m ≥ wo then 2 * wo - 2 - m else m

/-- The value of target `i` of a resampled line: the sum over the source
indices `m` from `f i - right` to `f i - left` of `K[f i - m] * src[refl m]`. -/
def Spec.line_value {R : Type} [Semiring R] (src : List R) (K : Kernel1D R) (f : Int → Int)
    (i : Int) : R :=
  ∑ m in Finset.Icc (f i - K.right) (f i - K.left),
    K.coeff (f i - m) * src.getD (Spec.refl src.length m).toNat 0

/-! ### A small resampling instance -/

/-- A source line of five integer samples. -/
def Example.line : List Int := [1, 2, 3, 4, 5]

/-- A three-tap kernel with coefficients `1, 2, 1` at `-1, 0, 1`. -/
def Example.kernel : Kernel1D Int :=
  { left := -1, right := 1, coeff := fun j => if j = 0 then 2 else 1 }

/-- A two-tap kernel with coefficients `1, 1` at `0, 1`. -/
def Example.kernel2 : Kernel1D Int :=
  { left := 0, right := 1, coeff := fun _ => 1 }


/-- For the kernel `K` placed at source position `is` on a line of length `wo`:
the support of the kernel, from `lbound = is - right` to `hbound = is - left`,
leaves `[0, wo)`, and `lbound <= -wo` or `hbound > 2*wo - 2`. -/
def Spec.too_large {R : Type} (wo : Int) (K : Kernel1D R) (is : Int) : Prop :=
  (is - K.right < 0 ∨ is - K.left ≥ wo) ∧ (is - K.right ≤ -wo ∨ is - K.left > 2 * wo - 2)

/-- The kernel used for target `i`: the kernels are used periodically. -/
def Spec.kernel_of {R : Type} (kernels : List (Kernel1D R)) (i : Nat) : Option (Kernel1D R) :=
  kernels[i % kernels.length]?

/-- The resampled line: for each target `i` below `wn` the value
`Spec.line_value` for the kernel of `i`. -/
def Spec.line {R : Type} [Semiring R] (src : List R) (wn : Nat) (kernels : List (Kernel1D R))
    (f : Int → Int) : List R :=
  (List.range wn).map fun i =>
    match Spec.kernel_of kernels i with
    | some K => Spec.line_value src K f i
    | none => 0


/-- A source image of five columns and two rows with integer pixels. -/
def Example.image : Image Int :=
  { width := 5, height := 2, px := fun x y => (x : Int) + 10 * (y : Int) }


/-- The sub-pixel phase of target `i`: the value `offset = idsrc - isrc` that
`createResamplingKernels` computes for the index `i` (source lines 141-143),
the same as `toRational(i) - operator()(i)`. -/
def MapTargetToSourceCoordinate.phase (self : MapTargetToSourceCoordinate) (i : Int) : ℚ :=
  self.toDouble i - (self.call i : ℚ)

/-- Function `resamplingConvolveImage(sul, slr, src, dul, dlr, dest, kx,
samplingRatioX, offsetX, ky, samplingRatioY, offsetY)` (source lines 251-273);
`wnew = dlr.x - dul.x` and `hnew = dlr.y - dul.y`.  The temporary image `tmp`
has `wnew` columns and as many rows as the source; the X pass writes all of
it. -/
def resamplingConvolveImage {R : Type} [Add R] [Mul R] [Zero R] (src : Image R)
    (wnew hnew : Nat) (kx : ℚ → Kernel1D R) (samplingRatioX offsetX : Rational)
    (ky : ℚ → Kernel1D R) (samplingRatioY offsetY : Rational) : Except Failure (Image R) :=
  match resamplingConvolveX src wnew kx samplingRatioX offsetX with
  | .error e => .error e
  | .ok tmp => resamplingConvolveY tmp hnew ky samplingRatioY offsetY

/-- Two per-tree copies of the example chain that hold both visitors by value,
with counters `5`, `50` and `6`, `60`. -/
def Example.owned_copies : List (Chain Nat Nat) :=
  [.RFVisitorNode 0 (.val { active_ := true, derived := 5 })
      (.RFVisitorNode 1 (.val { active_ := true, derived := 50 })
        (.RFStopVisiting RFVisitorBase.new)),
    .RFVisitorNode 0 (.val { active_ := true, derived := 6 })
      (.RFVisitorNode 1 (.val { active_ := true, derived := 60 })
        (.RFStopVisiting RFVisitorBase.new))]

/-- What the first visitor's `visit_after_training` leaves in the caller's
vector: the element at index `t`, when it holds its first visitor by value,
gets the object the body left at the pointer to it (`mem (elem t)`). -/
def updated_heads {ι δ : Type} (mem : Mem δ) (t : Nat) : List (Chain ι δ) → List (Chain ι δ)
  | [] => []
  | .RFVisitorNode W (.val o) m :: v =>
    .RFVisitorNode W (.val ((mem (.elem t)).getD o)) m :: updated_heads mem (t + 1) v
  | x :: v => x :: updated_heads mem (t + 1) v

/-- The triangle function of radius `1` (linear interpolation). -/
def Example.tent (x : ℚ) : ℚ :=
  if x < -1 then 0 else if x < 0 then 1 + x else if x ≤ 1 then 1 - x else 0

/-- The kernel that lines 144-151 build from the triangle function of radius
`1` and the phase `offset`: `left = ceil(-radius - offset)`,
`right = floor(radius - offset)` and the coefficient `kernel(i + offset)` at
`i`.  The coefficients sum to one, so `normalize` leaves them as they are. -/
def Example.linear_kernel (offset : ℚ) : Kernel1D ℚ :=
  { left := ⌈-1 - offset⌉, right := ⌊1 - offset⌋,
    coeff := fun i => Example.tent ((i : ℚ) + offset) }

/-- A one-row image with the pixels `10, 20, 30, 40`. -/
def Example.ramp : Image ℚ :=
  { width := 4, height := 1, px := fun x _ => 10 * ((x : ℚ) + 1) }

/-! ### Views used to state what `visit_after_training` does to the state -/

/-- The addresses the first `k` slots of a chain refer to. -/
def Chain.refs_before {ι δ : Type} : Nat → Chain ι δ → List Nat
  | 0, _ => []
  | _ + 1, .RFStopVisiting _ => []
  | k + 1, .RFVisitorNode _ (.ref a) n => a :: Chain.refs_before k n
  | k + 1, .RFVisitorNode _ (.val _) n => Chain.refs_before k n

/-- The heap at the moment the node at position `k` of the chain `c` runs, in
terms of the heap `h0` at entry and the heap `h1` at exit of the call on `c`:
the objects the first `k` slots refer to are already as the call leaves them,
every other object is as at entry. -/
def Chain.heap_at {ι δ : Type} (c : Chain ι δ) (k : Nat) (h0 h1 : Heap δ) : Heap δ :=
  fun b => if b ∈ c.refs_before k then h1 b else h0 b

/-- The memory that the hook `visit_after_training` of the class `V` leaves
when the node at position `k` of the chain `c`, with the slot `s`, calls it for
the vector `v` (source lines 279-284): the receiver is `s.this`, the argument
`visitors` holds the pointers `&x.visitor_` to the visitors at position `k` of
the elements of `v`, and the memory is that of this moment. -/
def aggregate_at {ι δ : Type} {T : ArgTypes} (B : Visitors ι δ T) (rf : T.RF)
    (features : T.FEATURES) (labels : T.LABELS) (c : Chain ι δ) (v : List (Chain ι δ))
    (h0 h1 : Heap δ) (k : Nat) (V : ι) (s : Storage (Visitor δ)) : Mem δ :=
  B.visit_after_training V s.this (collect_visitors 0 (v.map (Chain.drop k))) rf features
    labels (Frame.read ⟨s, v.map (Chain.drop k), c.heap_at k h0 h1⟩)

/-- Two forks of the example chain, of one type (first visitor by value, second
by reference), with counters `5` and `6` in the first visitor. -/
def Example.forks : List (Chain Nat Nat) :=
  [.RFVisitorNode 0 (.val { active_ := true, derived := 5 })
      (.RFVisitorNode 1 (.ref 1) (.RFStopVisiting RFVisitorBase.new)),
    .RFVisitorNode 0 (.val { active_ := true, derived := 6 })
      (.RFVisitorNode 1 (.ref 1) (.RFStopVisiting RFVisitorBase.new))]

/-! ### The line sum in the order of the code -/

/-- The source indices of a kernel support in the order in which the loops of
`resamplingConvolveLine` visit them: `lo, lo + 1, ..., hi`. -/
def Spec.support (lo hi : Int) : List Int :=
  (List.range (hi + 1 - lo).toNat).map (fun (j : Nat) => lo + (j : Int))

/-- The value of target `i` of a resampled line as a sum accumulated from zero:
the terms `K[f i - m] * src[refl m]` are added one after the other for `m`
from `f i - right` up to `f i - left`.  Only the operations `+` and `*` and
the value `0` of the sample type are used. -/
def Spec.ordered_line_value {R : Type} [Add R] [Mul R] [Zero R] (src : List R)
    (K : Kernel1D R) (f : Int → Int) (i : Int) : R :=
  (Spec.support (f i - K.right) (f i - K.left)).foldl
    (fun sum m => sum + K.coeff (f i - m) * src.getD (Spec.refl src.length m).toNat 0) 0

/-! # Theorems -/

/-! ## Properties of `RFVisitorBase` -/

/-- C7: a newly constructed visitor (the base class or a derived class) is
active; from every state `is_active()` returns `false` after `deactivate()` and
`true` after `activate()`; both are idempotent and touch nothing but the flag
(`is_active()` is a pure read). -/
theorem active_flag_contract {δ : Type} (d : δ) (b : RFVisitorBase) (v : Visitor δ) :
    RFVisitorBase.new.is_active = true ∧ (Visitor.new d).is_active = true ∧
    b.deactivate.is_active = false ∧ b.activate.is_active = true ∧
    v.deactivate.is_active = false ∧ v.activate.is_active = true ∧
    b.activate.activate = b.activate ∧ b.deactivate.deactivate = b.deactivate ∧
    v.activate.activate = v.activate ∧ v.deactivate.deactivate = v.deactivate ∧
    v.activate.derived = v.derived ∧ v.deactivate.derived = v.derived ∧
    (Visitor.new d).derived = d := by
  refine ⟨rfl, rfl, rfl, rfl, rfl, rfl, rfl, rfl, rfl, rfl, rfl, rfl, rfl⟩

/-! ## Properties of `OOBError::visit_after_tree` -/

theorem vector_resize_length {α : Type} (xs : List α) (n : Nat) (val : α) :
    (vector_resize xs n val).length = n := by
  unfold vector_resize
  simp only [List.length_append, List.length_take, List.length_replicate]
  omega

theorem vector_resize_getElem? {α : Type} (xs : List α) (n : Nat) (val : α) (i : Nat)
    (hi : i < n) :
    (vector_resize xs n val)[i]? = some ((xs[i]?).getD val) := by
  unfold vector_resize
  by_cases hx : i < xs.length
  · have h1 : i < (xs.take n).length := by rw [List.length_take]; omega
    rw [List.getElem?_append_left h1, List.getElem?_take_of_lt hi, List.getElem?_eq_getElem hx]
    rfl
  · have h2 : (xs.take n).length = xs.length := by rw [List.length_take]; omega
    have h1 : (xs.take n).length ≤ i := by omega
    rw [List.getElem?_append_right h1, h2, List.getElem?_eq_none (Nat.le_of_not_lt hx),
      List.getElem?_replicate, if_pos (by omega)]
    rfl

section mark
variable {W : Type} [Zero W] [LT W] [DecidableRel (fun (a b : W) => a < b)]

theorem mark_in_bag_length (weights : List W) (is : List Nat) (acc : List Nat) :
    (OOBError.mark_in_bag weights is acc).length = acc.length := by
  unfold OOBError.mark_in_bag
  induction is generalizing acc with
  | nil => rfl
  | cons i is ih =>
    rw [List.foldl_cons, ih]
    cases hw : weights.get? i with
    | none => rfl
    | some w =>
      by_cases h0 : 0 < w
      · simp [h0]
      · simp [h0]

theorem mark_in_bag_single (weights : List W) (n : Nat) (m : List Nat) (i : Nat) :
    (OOBError.mark_in_bag weights [n] m)[i]? =
      if i = n ∧ i < m.length ∧ positive_at weights i = true then some 1 else m[i]? := by
  unfold OOBError.mark_in_bag
  simp only [List.foldl_cons, List.foldl_nil, List.get?_eq_getElem?]
  cases hw : weights[n]? with
  | none =>
    have hc : ¬ (i = n ∧ i < m.length ∧ positive_at weights i = true) := by
      rintro ⟨rfl, _, h1⟩
      unfold positive_at at h1
      rw [hw] at h1
      cases h1
    rw [if_neg hc]
  | some w =>
    by_cases h0 : 0 < w
    · simp only [if_pos h0]
      rw [List.getElem?_set]
      by_cases hin : n = i
      · subst hin
        rw [if_pos rfl]
        by_cases hl : n < m.length
        · have hp : positive_at weights n = true := by
            unfold positive_at
            rw [hw]
            exact decide_eq_true h0
          rw [if_pos hl, if_pos ⟨rfl, hl, hp⟩]
        · rw [if_neg hl, if_neg (fun h => hl h.2.1), List.getElem?_eq_none (Nat.le_of_not_lt hl)]
      · rw [if_neg hin, if_neg (fun h => hin h.1.symm)]
    · simp only [if_neg h0]
      have hc : ¬ (i = n ∧ i < m.length ∧ positive_at weights i = true) := by
        rintro ⟨rfl, _, h1⟩
        unfold positive_at at h1
        rw [hw] at h1
        exact h0 (of_decide_eq_true h1)
      rw [if_neg hc]

/-- What the marking loop leaves at index `i` after running over `0, ..., n-1`. -/
theorem mark_in_bag_range (weights : List W) (n : Nat) (acc : List Nat) (i : Nat) :
    (OOBError.mark_in_bag weights (List.range n) acc)[i]? =
      if i < n ∧ i < acc.length ∧ positive_at weights i = true then some 1 else acc[i]? := by
  induction n with
  | zero =>
    have hc : ¬ (i < 0 ∧ i < acc.length ∧ positive_at weights i = true) := fun h => by omega
    rw [if_neg hc]
    rfl
  | succ n ih =>
    have hstep : OOBError.mark_in_bag weights (List.range (n + 1)) acc =
        OOBError.mark_in_bag weights [n] (OOBError.mark_in_bag weights (List.range n) acc) := by
      unfold OOBError.mark_in_bag
      rw [List.range_succ, List.foldl_append]
    rw [hstep, mark_in_bag_single, ih, mark_in_bag_length]
    by_cases hp : i < acc.length ∧ positive_at weights i = true
    · by_cases hin : i = n
      · rw [if_pos ⟨hin, hp⟩, if_pos ⟨by omega, hp⟩]
      · by_cases hlt : i < n
        · rw [if_neg (fun h => hin h.1), if_pos ⟨hlt, hp⟩, if_pos ⟨by omega, hp⟩]
        · rw [if_neg (fun h => hin h.1), if_neg (fun h => hlt h.1), if_neg (fun h => by omega)]
    · rw [if_neg (fun h => hp h.2), if_neg (fun h => hp h.2), if_neg (fun h => hp h.2)]

end mark

/-- C10: on a visitor whose in-bag vector is empty, `visit_after_tree` with
weights `w` leaves `in_bag_count_` with length `|w|`, and entry `i` is `1` when
`w[i] > 0` and `0` otherwise. -/
theorem OOBError.visit_after_tree_fresh {W : Type} [Zero W] [LT W]
    [DecidableRel (fun (a b : W) => a < b)]
    (self : OOBError) (rf_num_nodes : Nat) (w : List W) (h : self.in_bag_count_ = []) :
    (self.visit_after_tree rf_num_nodes w).in_bag_count_.length = w.length ∧
    ∀ (i : Nat) (hi : i < w.length),
      (self.visit_after_tree rf_num_nodes w).in_bag_count_[i]? =
        some (if 0 < w.get ⟨i, hi⟩ then 1 else 0) := by
  unfold OOBError.visit_after_tree
  simp only [h]
  constructor
  · rw [mark_in_bag_length, vector_resize_length]
  · intro i hi
    have hw : w[i]? = some (w.get ⟨i, hi⟩) := List.getElem?_eq_getElem hi
    rw [mark_in_bag_range, vector_resize_length, vector_resize_getElem? _ _ _ _ hi]
    by_cases h0 : 0 < w.get ⟨i, hi⟩
    · have hp : positive_at w i = true := by
        unfold positive_at
        rw [hw]
        exact decide_eq_true h0
      rw [if_pos ⟨hi, hi, hp⟩, if_pos h0]
    · have hc : ¬ (i < w.length ∧ i < w.length ∧ positive_at w i = true) := by
        rintro ⟨_, _, h1⟩
        unfold positive_at at h1
        rw [hw] at h1
        exact h0 (of_decide_eq_true h1)
      rw [if_neg h0, if_neg hc]
      rfl

theorem OOBError.visit_after_tree_fresh_witness :
    (({ active_ := true, oob_err_ := 0, probs_ := [], in_bag_count_ := [] } :
        OOBError).visit_after_tree 5 [(2 : Int), 0, -1, 3]).in_bag_count_.length = 4 ∧
    ∀ (i : Nat) (hi : i < [(2 : Int), 0, -1, 3].length),
      (({ active_ := true, oob_err_ := 0, probs_ := [], in_bag_count_ := [] } :
        OOBError).visit_after_tree 5 [(2 : Int), 0, -1, 3]).in_bag_count_[i]? =
        some (if 0 < [(2 : Int), 0, -1, 3].get ⟨i, hi⟩ then 1 else 0) :=
  OOBError.visit_after_tree_fresh _ 5 [(2 : Int), 0, -1, 3] rfl

/-! ## The forwarding hooks of the chain -/

section forward
variable {ι δ : Type}

/-- Updating the heap at `a` does not touch another address. -/
theorem heap_update_other (h : Heap δ) (a b : Nat) (o : Visitor δ) (hab : b ≠ a) :
    Function.update h a o b = h b :=
  Function.update_noteq hab o h

theorem slots_filter_congr (c : Chain ι δ) (h1 h2 : Heap δ)
    (hagree : ∀ b ∈ c.refs, h1 b = h2 b) :
    c.slots.filter (fun s => s.2.active h1) = c.slots.filter (fun s => s.2.active h2) := by
  induction c with
  | RFStopVisiting self => rfl
  | RFVisitorNode V s n ih =>
    cases s with
    | ref a =>
      have ha : h1 a = h2 a := hagree a (by simp [Chain.refs])
      have ih2 := ih (fun b hb => hagree b (by simp [Chain.refs, hb]))
      have hh : Storage.active h1 (Storage.ref a) = Storage.active h2 (Storage.ref a) := by
        simp only [Storage.active, Storage.get, ha]
      simp only [Chain.slots, List.filter_cons, ih2, hh]
    | val o =>
      have ih2 := ih (fun b hb => hagree b (by simpa [Chain.refs] using hb))
      have hh : Storage.active h1 (Storage.val o) = Storage.active h2 (Storage.val o) := rfl
      simp only [Chain.slots, List.filter_cons, ih2, hh]

/-- The calls of a forwarding hook: one per slot whose visitor is active when
the hook is entered, in chain order. -/
theorem forward_calls (hook : Hook) (base : RFVisitorBase → RFVisitorBase)
    (body : ι → Visitor δ → Visitor δ) (c : Chain ι δ) (h : Heap δ) (hnd : c.refs.Nodup) :
    (RFVisitorNode.forward hook base body c h).calls =
      (c.slots.filter (fun s => s.2.active h)).map
        (fun s => (⟨hook, s.1, s.2.this, []⟩ : Call δ ι)) := by
  induction c generalizing h with
  | RFStopVisiting self => rfl
  | RFVisitorNode V s n ih =>
    cases s with
    | ref a =>
      have hnd2 : a ∉ n.refs ∧ n.refs.Nodup := by simpa [Chain.refs] using hnd
      simp only [RFVisitorNode.forward, Chain.slots, List.filter_cons]
      rw [ih _ hnd2.2]
      have hc : n.slots.filter (fun s => s.2.active
            (if (h a).is_active = true then Function.update h a (body V (h a)) else h)) =
          n.slots.filter (fun s => s.2.active h) := by
        apply slots_filter_congr
        intro b hb
        have hba : b ≠ a := fun e => hnd2.1 (e ▸ hb)
        by_cases hact : (h a).is_active = true
        · rw [if_pos hact, heap_update_other h a b _ hba]
        · rw [if_neg hact]
      rw [hc]
      by_cases hact : (h a).is_active = true
      · simp [Storage.active, Storage.get, Storage.this, hact]
      · simp [Storage.active, Storage.get, Storage.this, hact]
    | val o =>
      have hnd2 : n.refs.Nodup := by simpa [Chain.refs] using hnd
      simp only [RFVisitorNode.forward, Chain.slots, List.filter_cons]
      rw [ih _ hnd2]
      by_cases hact : o.is_active = true
      · simp [Storage.active, Storage.get, Storage.this, hact]
      · simp [Storage.active, Storage.get, Storage.this, hact]

/-- A forwarding hook leaves every object of the heap that the chain does not
refer to as it was. -/
theorem forward_heap_frame (hook : Hook) (base : RFVisitorBase → RFVisitorBase)
    (body : ι → Visitor δ → Visitor δ) (c : Chain ι δ) (h : Heap δ) (b : Nat)
    (hb : b ∉ c.refs) :
    (RFVisitorNode.forward hook base body c h).heap b = h b := by
  induction c generalizing h with
  | RFStopVisiting self => rfl
  | RFVisitorNode V s n ih =>
    cases s with
    | ref a =>
      have hb2 : b ≠ a ∧ b ∉ n.refs := by simpa [Chain.refs] using hb
      simp only [RFVisitorNode.forward]
      rw [ih _ hb2.2]
      by_cases hact : (h a).is_active = true
      · rw [if_pos hact, heap_update_other h a b _ hb2.1]
      · rw [if_neg hact]
    | val o =>
      have hb2 : b ∉ n.refs := by simpa [Chain.refs] using hb
      simp only [RFVisitorNode.forward]
      exact ih _ hb2

/-- A forwarding hook runs the body of the slot's class on the object the slot
refers to when that object is active, and leaves it alone otherwise. -/
theorem forward_heap_at (hook : Hook) (base : RFVisitorBase → RFVisitorBase)
    (body : ι → Visitor δ → Visitor δ) (c : Chain ι δ) (h : Heap δ) (hnd : c.refs.Nodup)
    (V : ι) (a : Nat) (hm : (V, Storage.ref a) ∈ c.slots) :
    (RFVisitorNode.forward hook base body c h).heap a =
      if (h a).is_active then body V (h a) else h a := by
  induction c generalizing h with
  | RFStopVisiting self => simp [Chain.slots] at hm
  | RFVisitorNode W s n ih =>
    cases s with
    | ref a2 =>
      have hnd2 : a2 ∉ n.refs ∧ n.refs.Nodup := by simpa [Chain.refs] using hnd
      simp only [RFVisitorNode.forward]
      simp only [Chain.slots, List.mem_cons, Prod.mk.injEq, Storage.ref.injEq] at hm
      rcases hm with ⟨rfl, rfl⟩ | hm
      · rw [forward_heap_frame _ _ _ _ _ _ hnd2.1]
        by_cases hact : (h a).is_active = true
        · rw [if_pos hact, if_pos hact, Function.update_same]
        · rw [if_neg hact, if_neg hact]
      · have hmem : a ∈ n.refs := by
          clear ih hnd2 hnd
          induction n with
          | RFStopVisiting self => simp [Chain.slots] at hm
          | RFVisitorNode W2 s2 n2 ih2 =>
            cases s2 with
            | ref a3 =>
              simp only [Chain.slots, List.mem_cons, Prod.mk.injEq, Storage.ref.injEq] at hm
              rcases hm with ⟨_, rfl⟩ | hm
              · simp [Chain.refs]
              · simp [Chain.refs, ih2 hm]
            | val o3 =>
              simp only [Chain.slots, List.mem_cons, Prod.mk.injEq] at hm
              rcases hm with ⟨_, hm⟩ | hm
              · cases hm
              · simpa [Chain.refs] using ih2 hm
        have hne : a ≠ a2 := fun e => hnd2.1 (e ▸ hmem)
        rw [ih _ hnd2.2 hm]
        by_cases hact : (h a2).is_active = true
        · rw [if_pos hact, heap_update_other h a2 a _ hne]
        · rw [if_neg hact]
    | val o =>
      have hnd2 : n.refs.Nodup := by simpa [Chain.refs] using hnd
      simp only [RFVisitorNode.forward]
      simp only [Chain.slots, List.mem_cons, Prod.mk.injEq] at hm
      rcases hm with ⟨_, hm⟩ | hm
      · cases hm
      · exact ih _ hnd2 hm

/-- A forwarding hook keeps the structure of the chain: the same class tags in
the same order, references unchanged, and each visitor held by value replaced
by the result of the body when it is active. -/
theorem forward_chain_slots (hook : Hook) (base : RFVisitorBase → RFVisitorBase)
    (body : ι → Visitor δ → Visitor δ) (c : Chain ι δ) (h : Heap δ) :
    (RFVisitorNode.forward hook base body c h).chain.slots =
      c.slots.map (fun s =>
        (s.1, match s.2 with
          | .ref a => Storage.ref a
          | .val o => Storage.val (if o.is_active then body s.1 o else o))) := by
  induction c generalizing h with
  | RFStopVisiting self => rfl
  | RFVisitorNode V s n ih =>
    cases s with
    | ref a => simp only [RFVisitorNode.forward, Chain.slots, List.map_cons, ih]
    | val o => simp only [RFVisitorNode.forward, Chain.slots, List.map_cons, ih]

end forward

/-! ## `visit_after_training` of the chain -/

section join
variable {ι δ : Type} {T : ArgTypes}

theorem Chain.drop_next (k : Nat) (x : Chain ι δ) : (x.drop k).next_ = x.drop (k + 1) := by
  induction k generalizing x with
  | zero => rfl
  | succ k ih => exact ih x.next_

theorem Chain.Mirrors.isNode {x : Chain ι δ} {V : ι} {s : Storage (Visitor δ)}
    {n : Chain ι δ} (hx : x.Mirrors (.RFVisitorNode V s n)) : x.isNode = true := by
  cases x with
  | RFStopVisiting self => simp [Chain.Mirrors] at hx
  | RFVisitorNode W s2 m => rfl

theorem Chain.Mirrors.next {x : Chain ι δ} {V : ι} {s : Storage (Visitor δ)}
    {n : Chain ι δ} (hx : x.Mirrors (.RFVisitorNode V s n)) : x.next_.Mirrors n := by
  cases x with
  | RFStopVisiting self => simp [Chain.Mirrors] at hx
  | RFVisitorNode W s2 m =>
    cases s2 with
    | val o => simpa [Chain.Mirrors, Chain.next_] using hx
    | ref a =>
      cases s with
      | val o => simp [Chain.Mirrors] at hx
      | ref b =>
        simp only [Chain.Mirrors] at hx
        exact hx.2

/-- A per-tree copy refers, in its first slot, to nothing but the object the
first slot of the chain refers to. -/
theorem Chain.Mirrors.ptr {x : Chain ι δ} {V : ι} {s : Storage (Visitor δ)}
    {n : Chain ι δ} (hx : x.Mirrors (.RFVisitorNode V s n)) (t a : Nat)
    (hp : x.visitor_ptr t = .heap a) : s = .ref a := by
  cases x with
  | RFStopVisiting self => simp [Chain.Mirrors] at hx
  | RFVisitorNode W s2 m =>
    cases s2 with
    | val o => simp [Chain.visitor_ptr] at hp
    | ref a2 =>
      cases s with
      | val o => simp [Chain.Mirrors] at hx
      | ref b =>
        simp only [Chain.Mirrors] at hx
        simp only [Chain.visitor_ptr, Ptr.heap.injEq] at hp
        rw [← hx.1, hp]

theorem collect_visitors_heap (v : List (Chain ι δ)) (t a : Nat)
    (hp : Ptr.heap a ∈ collect_visitors t v) : ∃ x ∈ v, ∃ u, x.visitor_ptr u = .heap a := by
  induction v generalizing t with
  | nil => simp [collect_visitors] at hp
  | cons x v ih =>
    simp only [collect_visitors, List.mem_cons] at hp
    rcases hp with hp | hp
    · exact ⟨x, by simp, t, hp.symm⟩
    · obtain ⟨y, hy, u, hu⟩ := ih _ hp
      exact ⟨y, by simp [hy], u, hu⟩

theorem Frame.write_heap_other (f : Frame ι δ) (p : Ptr) (o : Visitor δ) (b : Nat)
    (hp : p ≠ .heap b) : (f.write p o).heap b = f.heap b := by
  cases p with
  | heap a =>
    have : b ≠ a := fun e => hp (by rw [e])
    simp only [Frame.write]
    exact Function.update_noteq this _ _
  | elem t =>
    simp only [Frame.write]
    split <;> rfl
  | member =>
    simp only [Frame.write]
    split <;> rfl

theorem map_next_set (v : List (Chain ι δ)) (t : Nat) (V : ι) (o1 o2 : Visitor δ)
    (n : Chain ι δ) (hv : v.get? t = some (.RFVisitorNode V (.val o1) n)) :
    (v.set t (.RFVisitorNode V (.val o2) n)).map Chain.next_ = v.map Chain.next_ := by
  induction v generalizing t with
  | nil => rfl
  | cons x v ih =>
    cases t with
    | zero =>
      simp only [List.get?_cons_zero, Option.some.injEq] at hv
      subst hv
      rfl
    | succ t =>
      simp only [List.get?_cons_succ] at hv
      simp only [List.set_cons_succ, List.map_cons, ih t hv]

theorem Frame.write_nexts (f : Frame ι δ) (p : Ptr) (o : Visitor δ) :
    collect_nexts (f.write p o).v = collect_nexts f.v := by
  unfold collect_nexts
  cases p with
  | heap a => rfl
  | elem t =>
    simp only [Frame.write]
    split
    · rename_i V o1 n hv
      exact map_next_set f.v t V o1 o n hv
    · rfl
  | member =>
    simp only [Frame.write]
    split <;> rfl

theorem Frame.store_heap_other (f : Frame ι δ) (mem : Mem δ) (ps : List Ptr) (b : Nat)
    (hb : Ptr.heap b ∉ ps) : (f.store mem ps).heap b = f.heap b := by
  unfold Frame.store
  induction ps generalizing f with
  | nil => rfl
  | cons p ps ih =>
    have hb2 : Ptr.heap b ≠ p ∧ Ptr.heap b ∉ ps := by simpa using hb
    rw [List.foldl_cons, ih _ hb2.2]
    cases mem p with
    | none => rfl
    | some o => exact Frame.write_heap_other f p o b (fun e => hb2.1 e.symm)

theorem Frame.store_nexts (f : Frame ι δ) (mem : Mem δ) (ps : List Ptr) :
    collect_nexts (f.store mem ps).v = collect_nexts f.v := by
  unfold Frame.store
  induction ps generalizing f with
  | nil => rfl
  | cons p ps ih =>
    rw [List.foldl_cons, ih]
    cases mem p with
    | none => rfl
    | some o => exact Frame.write_nexts f p o

theorem handed_cons (h : Heap δ) (t : Nat) (x : Chain ι δ) (v : List (Chain ι δ)) :
    handed h t (x :: v) = (x.visitor_ptr t, x.visitor? h) :: handed h (t + 1) v := rfl

/-- Reading the collected pointers in the frame gives the visitors the first
slots of the vector denote. -/
theorem collect_visitors_read (f : Frame ι δ) (v pre : List (Chain ι δ))
    (hv : ∀ x ∈ v, x.isNode = true) (hf : f.v = pre ++ v) :
    (collect_visitors pre.length v).map (fun p => (p, f.read p)) =
      handed f.heap pre.length v := by
  induction v generalizing pre with
  | nil => rfl
  | cons x v ih =>
    have ih2 := ih (pre ++ [x]) (fun y hy => hv y (by simp [hy])) (by simp [hf])
    simp only [List.length_append, List.length_singleton] at ih2
    rw [collect_visitors, List.map_cons, handed_cons, ih2]
    congr 1
    cases x with
    | RFStopVisiting self =>
      have := hv (.RFStopVisiting self) (by simp)
      simp [Chain.isNode] at this
    | RFVisitorNode V s n =>
      cases s with
      | ref a => rfl
      | val o =>
        have hget : f.v.get? pre.length = some (.RFVisitorNode V (.val o) n) := by
          rw [hf, List.get?_eq_getElem?, List.getElem?_append_right (Nat.le_refl _)]
          simp
        simp only [Chain.visitor_ptr, Frame.read, hget, Chain.visitor?, Storage.get]

/-- The pointees handed over depend on the heap only at the object the first
slot of the chain refers to. -/
theorem handed_congr (h1 h2 : Heap δ) (t : Nat) (v : List (Chain ι δ)) (V : ι)
    (s : Storage (Visitor δ)) (n : Chain ι δ)
    (hm : ∀ x ∈ v, x.Mirrors (.RFVisitorNode V s n))
    (hagree : ∀ a, s = .ref a → h1 a = h2 a) :
    handed h1 t v = handed h2 t v := by
  induction v generalizing t with
  | nil => rfl
  | cons x v ih =>
    rw [handed_cons, handed_cons, ih _ (fun y hy => hm y (by simp [hy]))]
    congr 2
    have hx := hm x (by simp)
    cases x with
    | RFStopVisiting self => rfl
    | RFVisitorNode W s2 m =>
      cases s2 with
      | val o => rfl
      | ref a =>
        have hs : s = .ref a := hx.ptr 0 a rfl
        simp only [Chain.visitor?, Storage.get, hagree a hs]

/-- The calls of `visit_after_training`, with the heap `h0` and the vector
`copies` of the outermost call: the node at depth `k` works on the chains
`copies[t]` after their first `k` slots and on a heap that agrees with `h0` on
the objects the rest of the chain refers to. -/
theorem join_calls_from (B : Visitors ι δ T) (rf : T.RF) (features : T.FEATURES)
    (labels : T.LABELS) (c : Chain ι δ) (k : Nat) (copies : List (Chain ι δ))
    (h0 h : Heap δ) (hnd : c.refs.Nodup)
    (hm : ∀ x ∈ copies, (x.drop k).Mirrors c)
    (hagree : ∀ b ∈ c.refs, h b = h0 b) :
    ∃ r, RFVisitorNode.visit_after_training B rf features labels c
          (copies.map (Chain.drop k)) h = some r ∧
      r.calls = ((c.slots.enumFrom k).filter (fun ks => ks.2.2.active h0)).map
        (join_call h0 copies) := by
  induction c generalizing k h with
  | RFStopVisiting self => exact ⟨_, rfl, rfl⟩
  | RFVisitorNode V s n ih =>
    have hmv : ∀ x ∈ copies.map (Chain.drop k), x.Mirrors (.RFVisitorNode V s n) := by
      intro x hx
      obtain ⟨y, hy, rfl⟩ := List.mem_map.mp hx
      exact hm y hy
    have hall : (copies.map (Chain.drop k)).all Chain.isNode = true := by
      rw [List.all_eq_true]
      intro x hx
      exact (hmv x hx).isNode
    have hnd2 : n.refs.Nodup := by
      cases s with
      | ref a => exact (List.nodup_cons.mp hnd).2
      | val o => exact hnd
    have hsub : ∀ b ∈ n.refs, b ∈ (Chain.RFVisitorNode V s n).refs := by
      intro b hb
      cases s with
      | ref a => exact List.mem_cons_of_mem _ hb
      | val o => exact hb
    have hfresh : ∀ b ∈ n.refs, s ≠ .ref b := by
      intro b hb e
      subst e
      exact (List.nodup_cons.mp hnd).1 hb
    have hs : ∀ a, s = .ref a → h a = h0 a := by
      intro a e
      subst e
      exact hagree a (List.mem_cons_self _ _)
    have hact : s.active h = s.active h0 := by
      cases s with
      | ref a => simp only [Storage.active, Storage.get, hs a rfl]
      | val o => rfl
    -- the frame after the visitor of this node has run
    obtain ⟨f1, hf1, hnexts, hheap⟩ : ∃ f1 : Frame ι δ,
        f1 = (if (s.get h).is_active = true then
          (⟨s, copies.map (Chain.drop k), h⟩ : Frame ι δ).store
            (B.visit_after_training V s.this (collect_visitors 0 (copies.map (Chain.drop k)))
              rf features labels (⟨s, copies.map (Chain.drop k), h⟩ : Frame ι δ).read)
            (s.this :: collect_visitors 0 (copies.map (Chain.drop k)))
          else ⟨s, copies.map (Chain.drop k), h⟩) ∧
        collect_nexts f1.v = copies.map (Chain.drop (k + 1)) ∧
        ∀ b ∈ n.refs, f1.heap b = h0 b := by
      refine ⟨_, rfl, ?_, ?_⟩
      · have e : collect_nexts (copies.map (Chain.drop k)) = copies.map (Chain.drop (k + 1)) := by
          unfold collect_nexts
          rw [List.map_map]
          apply List.map_congr_left
          intro x _
          exact Chain.drop_next k x
        by_cases ha : (s.get h).is_active = true
        · rw [if_pos ha, Frame.store_nexts]
          exact e
        · rw [if_neg ha]
          exact e
      · intro b hb
        by_cases ha : (s.get h).is_active = true
        · rw [if_pos ha, Frame.store_heap_other]
          · exact hagree b (hsub b hb)
          · intro hmem
            rcases List.mem_cons.mp hmem with hmem | hmem
            · cases s with
              | ref a =>
                simp only [Storage.this, Ptr.heap.injEq] at hmem
                exact hfresh b hb (by rw [hmem])
              | val o => simp [Storage.this] at hmem
            · obtain ⟨x, hx, u, hu⟩ := collect_visitors_heap _ _ _ hmem
              exact hfresh b hb ((hmv x hx).ptr u b hu)
        · rw [if_neg ha]
          exact hagree b (hsub b hb)
    have hm2 : ∀ x ∈ copies, (x.drop (k + 1)).Mirrors n := by
      intro x hx
      rw [← Chain.drop_next]
      exact (hm x hx).next
    obtain ⟨r, hr, hcalls⟩ := ih (k + 1) f1.heap hnd2 hm2 hheap
    have hcol : (collect_visitors 0 (copies.map (Chain.drop k))).map
          (fun p => (p, (⟨s, copies.map (Chain.drop k), h⟩ : Frame ι δ).read p)) =
        handed h0 0 (copies.map (Chain.drop k)) := by
      have := collect_visitors_read (⟨s, copies.map (Chain.drop k), h⟩ : Frame ι δ)
        (copies.map (Chain.drop k)) [] (fun x hx => (hmv x hx).isNode) rfl
      simp only [List.length_nil] at this
      rw [this]
      exact handed_congr h h0 0 _ V s n hmv hs
    refine ⟨⟨.RFVisitorNode V f1.visitor_ r.chain, f1.v, r.heap,
      (if (s.get h).is_active = true then
        [⟨.visit_after_training, V, s.this, handed h0 0 (copies.map (Chain.drop k))⟩]
      else []) ++ r.calls⟩, ?_, ?_⟩
    · rw [RFVisitorNode.visit_after_training, if_pos hall]
      simp only []
      rw [← hf1, hnexts, hr, hcol]
    · simp only [Chain.slots, List.enumFrom_cons, List.filter_cons, hcalls]
      have hact2 : (s.get h).is_active = s.active h0 := hact
      rw [hact2]
      by_cases ha : s.active h0 = true
      · simp only [ha, if_true, List.map_cons, List.singleton_append, join_call]
      · simp only [ha, if_false, List.nil_append]
        rfl

end join

/-! ## Chains built by `create_visitor` -/

theorem create_visitor_eq {ι δ : Type} (args : List (ι × Nat)) (h1 : 1 ≤ args.length)
    (h2 : args.length ≤ 10) :
    create_visitor args = some (Chain.borrowed args : Chain ι δ) := by
  rcases args with _ | ⟨x0, _ | ⟨x1, _ | ⟨x2, _ | ⟨x3, _ | ⟨x4, _ | ⟨x5, _ | ⟨x6, _ |
    ⟨x7, _ | ⟨x8, _ | ⟨x9, _ | ⟨x10, r⟩⟩⟩⟩⟩⟩⟩⟩⟩⟩⟩
  · simp at h1
  · rfl
  · rfl
  · rfl
  · rfl
  · rfl
  · rfl
  · rfl
  · rfl
  · rfl
  · rfl
  · simp only [List.length_cons] at h2
    omega

section built
variable {ι δ : Type} {T : ArgTypes}

theorem Chain.borrowed_slots (args : List (ι × Nat)) :
    (Chain.borrowed args : Chain ι δ).slots = args.map (fun va => (va.1, Storage.ref va.2)) := by
  induction args with
  | nil => rfl
  | cons va rest ih =>
    obtain ⟨V, a⟩ := va
    simp only [Chain.borrowed, Chain.slots, List.map_cons, ih]

theorem Chain.borrowed_refs (args : List (ι × Nat)) :
    (Chain.borrowed args : Chain ι δ).refs = args.map Prod.snd := by
  induction args with
  | nil => rfl
  | cons va rest ih =>
    obtain ⟨V, a⟩ := va
    simp only [Chain.borrowed, Chain.refs, List.map_cons, ih]

theorem filter_active_all (args : List (ι × Nat)) (h : Heap δ)
    (hact : ∀ a ∈ args.map Prod.snd, (h a).is_active = true) :
    (args.map (fun va => (va.1, (Storage.ref va.2 : Storage (Visitor δ))))).filter
      (fun s => s.2.active h) = args.map (fun va => (va.1, Storage.ref va.2)) := by
  rw [List.filter_eq_self]
  intro s hs
  obtain ⟨va, hva, rfl⟩ := List.mem_map.mp hs
  exact hact va.2 (List.mem_map.mpr ⟨va, hva, rfl⟩)

theorem enumFrom_filter_active_all (args : List (ι × Nat)) (h : Heap δ) (k : Nat)
    (hact : ∀ a ∈ args.map Prod.snd, (h a).is_active = true) :
    ((args.map (fun va => (va.1, (Storage.ref va.2 : Storage (Visitor δ))))).enumFrom k).filter
      (fun ks => ks.2.2.active h) =
      (args.map (fun va => (va.1, (Storage.ref va.2 : Storage (Visitor δ))))).enumFrom k := by
  induction args generalizing k with
  | nil => rfl
  | cons va rest ih =>
    have h1 : (h va.2).is_active = true := hact va.2 (by simp)
    have h2 := ih (k + 1) (fun a ha => hact a (by
      rw [List.map_cons]
      exact List.mem_cons_of_mem _ ha))
    simp only [List.map_cons, List.enumFrom_cons, List.filter_cons, Storage.active, Storage.get,
      h1, if_true]
    exact congrArg _ h2

theorem enumFrom_map_snd_map {α β : Type} (l : List α) (k : Nat) (g : α → β) :
    (l.enumFrom k).map (fun kx => g kx.2) = l.map g := by
  induction l generalizing k with
  | nil => rfl
  | cons x l ih => simp only [List.enumFrom_cons, List.map_cons, ih]

end built

section claims
variable {ι δ : Type} {T : ArgTypes}

/-- The calls of `visit_after_training` on a chain whose references are
pairwise distinct, for a vector of per-tree copies of the chain: one call per
slot whose visitor is active at entry, in chain order, the call of the slot at
position `k` being handed the visitors at position `k` of the copies. -/
theorem join_calls (B : Visitors ι δ T) (rf : T.RF) (features : T.FEATURES)
    (labels : T.LABELS) (c : Chain ι δ) (copies : List (Chain ι δ)) (h : Heap δ)
    (hnd : c.refs.Nodup) (hm : ∀ x ∈ copies, x.Mirrors c) :
    ∃ r, RFVisitorNode.visit_after_training B rf features labels c copies h = some r ∧
      r.calls = (c.slots.enum.filter (fun ks => ks.2.2.active h)).map (join_call h copies) := by
  have e : copies.map (Chain.drop 0) = copies := by
    have : (Chain.drop 0 : Chain ι δ → Chain ι δ) = id := rfl
    rw [this, List.map_id]
  have := join_calls_from B rf features labels c 0 copies h h hnd
    (fun x hx => hm x hx) (fun _ _ => rfl)
  rw [e] at this
  exact this

end claims

section claims2
variable {ι δ : Type} {T : ArgTypes}

theorem enumFrom_filter_map_snd {α β : Type} (l : List α) (k : Nat) (p : α → Bool)
    (g : α → β) :
    ((l.enumFrom k).filter (fun kx => p kx.2)).map (fun kx => g kx.2) =
      (l.filter p).map g := by
  induction l generalizing k with
  | nil => rfl
  | cons x l ih =>
    simp only [List.enumFrom_cons, List.filter_cons]
    cases hp : p x with
    | true => simp only [if_true, List.map_cons, ih]
    | false =>
      have hf : ¬ (false = true) := by decide
      rw [if_neg hf, if_neg hf]
      exact ih (k + 1)

/-- Deactivating the visitor at address `a` removes from the active slots
exactly the slots that refer to `a`. -/
theorem filter_active_deactivate (c : Chain ι δ) (h : Heap δ) (a : Nat) :
    c.slots.filter (fun s => s.2.active (Function.update h a (h a).deactivate)) =
      (c.slots.filter (fun s => s.2.active h)).filter
        (fun s => decide (s.2.this ≠ Ptr.heap a)) := by
  rw [List.filter_filter]
  apply List.filter_congr
  intro s _
  obtain ⟨V, st⟩ := s
  cases st with
  | val o => simp [Storage.active, Storage.get, Storage.this]
  | ref b =>
    by_cases hb : b = a
    · subst hb
      simp [Storage.active, Storage.get, Storage.this, Visitor.deactivate, Visitor.is_active,
        RFVisitorBase.deactivate, RFVisitorBase.is_active]
    · simp [Storage.active, Storage.get, Storage.this, hb, Function.update_noteq hb]

theorem forward_calls_deactivate (hook : Hook) (base : RFVisitorBase → RFVisitorBase)
    (body : ι → Visitor δ → Visitor δ) (c : Chain ι δ) (h : Heap δ) (hnd : c.refs.Nodup)
    (a : Nat) :
    (RFVisitorNode.forward hook base body c (Function.update h a (h a).deactivate)).calls =
      (RFVisitorNode.forward hook base body c h).calls.filter
        (fun call => decide (call.receiver ≠ Ptr.heap a)) := by
  rw [forward_calls hook base body c _ hnd, forward_calls hook base body c h hnd,
    filter_active_deactivate, List.filter_map]
  rfl

/-- The hook, class and receiver of the calls of `visit_after_training`. -/
theorem join_calls_heads (B : Visitors ι δ T) (rf : T.RF) (features : T.FEATURES)
    (labels : T.LABELS) (c : Chain ι δ) (copies : List (Chain ι δ)) (h : Heap δ)
    (hnd : c.refs.Nodup) (hm : ∀ x ∈ copies, x.Mirrors c) :
    ∃ r, RFVisitorNode.visit_after_training B rf features labels c copies h = some r ∧
      r.calls.map (fun call => (call.hook, call.VISITOR, call.receiver)) =
        (c.slots.filter (fun s => s.2.active h)).map
          (fun s => (Hook.visit_after_training, s.1, s.2.this)) := by
  obtain ⟨r, hr, hcalls⟩ := join_calls B rf features labels c copies h hnd hm
  refine ⟨r, hr, ?_⟩
  rw [hcalls, List.map_map]
  exact enumFrom_filter_map_snd c.slots 0 (fun s => s.2.active h)
    (fun s => (Hook.visit_after_training, s.1, s.2.this))

end claims2

section claims3
variable {ι δ : Type} {T : ArgTypes}

theorem Chain.drop_stop (k : Nat) (self : RFVisitorBase) :
    (Chain.RFStopVisiting self : Chain ι δ).drop k = .RFStopVisiting self := by
  induction k with
  | zero => rfl
  | succ k ih => exact ih

/-- The visitor at the head of a chain after its first `k` slots is the visitor
of its slot at position `k`. -/
theorem Chain.drop_visitor? (h : Heap δ) (k : Nat) (x : Chain ι δ) :
    (x.drop k).visitor? h = (x.slots[k]?).map (fun s => s.2.get h) := by
  induction k generalizing x with
  | zero =>
    cases x with
    | RFStopVisiting self => simp [Chain.drop, Chain.visitor?, Chain.slots]
    | RFVisitorNode V s n => simp [Chain.drop, Chain.visitor?, Chain.slots]
  | succ k ih =>
    cases x with
    | RFStopVisiting self =>
      rw [Chain.drop_stop]
      simp [Chain.visitor?, Chain.slots]
    | RFVisitorNode V s n =>
      simp only [Chain.drop, Chain.next_, Chain.slots, List.getElem?_cons_succ]
      exact ih n

theorem handed_snd (h : Heap δ) (t : Nat) (v : List (Chain ι δ)) :
    (handed h t v).map Prod.snd = v.map (fun x => x.visitor? h) := by
  unfold handed
  rw [List.map_map]
  exact enumFrom_map_snd_map v t (fun x => x.visitor? h)

theorem handed_length (h : Heap δ) (t : Nat) (v : List (Chain ι δ)) :
    (handed h t v).length = v.length := by
  unfold handed
  rw [List.length_map, List.enumFrom_length]

theorem Chain.Mirrors.length_le {x c : Chain ι δ} (hx : x.Mirrors c) :
    c.slots.length ≤ x.slots.length := by
  induction c generalizing x with
  | RFStopVisiting self => exact Nat.zero_le _
  | RFVisitorNode V s n ih =>
    have h1 := hx.isNode
    have h2 := ih hx.next
    cases x with
    | RFStopVisiting self => simp [Chain.isNode] at h1
    | RFVisitorNode W s2 m =>
      simp only [Chain.slots, List.length_cons]
      exact Nat.succ_le_succ h2

end claims3

section claims4
variable {ι δ : Type} {T : ArgTypes}

/-- A forwarding hook leaves a chain that holds no visitor by value as it is. -/
theorem forward_chain_borrowed (hook : Hook) (base : RFVisitorBase → RFVisitorBase)
    (hbase : ∀ s, base s = s) (body : ι → Visitor δ → Visitor δ) (args : List (ι × Nat))
    (h : Heap δ) :
    (RFVisitorNode.forward hook base body (Chain.borrowed args) h).chain =
      Chain.borrowed args := by
  induction args generalizing h with
  | nil => simp only [Chain.borrowed, RFVisitorNode.forward, hbase]
  | cons va rest ih =>
    obtain ⟨V, a⟩ := va
    simp only [Chain.borrowed, RFVisitorNode.forward, ih]

theorem forward_heap_built (hook : Hook) (base : RFVisitorBase → RFVisitorBase)
    (body : ι → Visitor δ → Visitor δ) (args : List (ι × Nat)) (h : Heap δ)
    (hnd : (args.map Prod.snd).Nodup) (va : ι × Nat) (hva : va ∈ args) :
    (RFVisitorNode.forward hook base body (Chain.borrowed args) h).heap va.2 =
      if (h va.2).is_active then body va.1 (h va.2) else h va.2 := by
  apply forward_heap_at
  · rw [Chain.borrowed_refs]
    exact hnd
  · rw [Chain.borrowed_slots]
    exact List.mem_map.mpr ⟨va, hva, rfl⟩

end claims4

section claims5
variable {ι δ : Type} {T : ArgTypes}

theorem forward_noop (hook : Hook) (base : RFVisitorBase → RFVisitorBase)
    (hbase : ∀ s, base s = s) (body : ι → Visitor δ → Visitor δ)
    (hbody : ∀ V o, body V o = o)
    (c : Chain ι δ) (h : Heap δ) :
    (RFVisitorNode.forward hook base body c h).chain = c ∧
      (RFVisitorNode.forward hook base body c h).heap = h := by
  induction c generalizing h with
  | RFStopVisiting self => simp only [RFVisitorNode.forward, hbase, and_self]
  | RFVisitorNode V s n ih =>
    cases s with
    | ref a =>
      simp only [RFVisitorNode.forward, hbody, Function.update_eq_self, ite_self]
      exact ⟨by rw [(ih h).1], (ih h).2⟩
    | val o =>
      simp only [RFVisitorNode.forward, hbody, ite_self]
      exact ⟨by rw [(ih h).1], (ih h).2⟩

/-- C8: each of the five default hooks of `RFVisitorBase` returns the visitor
unchanged, active flag included, whatever the arguments; so does every hook of
a class that overrides none of them; the terminator `RFStopVisiting` is such a
visitor, and a dispatch that reaches it, or that runs through a chain of such
visitors, changes nothing and calls nothing on the terminator. -/
theorem default_hooks_are_noops {VISITORS : Type} (B : Visitors ι δ T) (b : RFVisitorBase)
    (v : VISITORS) (rf : T.RF) (features : T.FEATURES) (labels : T.LABELS)
    (weights : T.WEIGHTS) (sp : T.SPLIT) (parent left_child right_child : T.RANGE)
    (V : ι) (o : Visitor δ) (this : Ptr) (visitors : List Ptr) (mem : Mem δ)
    (c : Chain ι δ) (copies : List (Chain ι δ)) (h : Heap δ) :
    (b.visit_before_training = b ∧
      b.visit_after_training v rf features labels = b ∧
      b.visit_before_tree weights = b ∧
      b.visit_after_tree rf features labels weights = b ∧
      b.visit_after_split features labels weights sp parent left_child right_child = b) ∧
    ((Visitors.inherited ι δ T).visit_before_training V o = o ∧
      (Visitors.inherited ι δ T).visit_after_training V this visitors rf features labels mem
        = mem ∧
      (Visitors.inherited ι δ T).visit_before_tree V weights o = o ∧
      (Visitors.inherited ι δ T).visit_after_tree V rf features labels weights o = o ∧
      (Visitors.inherited ι δ T).visit_after_split V features labels weights sp parent
        left_child right_child o = o) ∧
    ((RFVisitorNode.visit_before_training B (.RFStopVisiting b) h).chain = .RFStopVisiting b ∧
      (RFVisitorNode.visit_before_training B (.RFStopVisiting b) h).heap = h ∧
      (RFVisitorNode.visit_before_training B (.RFStopVisiting b) h).calls = [] ∧
      (RFVisitorNode.visit_before_tree B weights (.RFStopVisiting b) h).chain
        = .RFStopVisiting b ∧
      (RFVisitorNode.visit_before_tree B weights (.RFStopVisiting b) h).heap = h ∧
      (RFVisitorNode.visit_before_tree B weights (.RFStopVisiting b) h).calls = [] ∧
      (RFVisitorNode.visit_after_tree B rf features labels weights (.RFStopVisiting b) h).chain
        = .RFStopVisiting b ∧
      (RFVisitorNode.visit_after_tree B rf features labels weights (.RFStopVisiting b) h).heap
        = h ∧
      (RFVisitorNode.visit_after_tree B rf features labels weights (.RFStopVisiting b) h).calls
        = [] ∧
      (RFVisitorNode.visit_after_training B rf features labels (.RFStopVisiting b) copies h).map
          (fun r => (r.chain, r.v, r.calls)) = some (.RFStopVisiting b, copies, []) ∧
      (RFVisitorNode.visit_after_training B rf features labels (.RFStopVisiting b) copies h).map
          (fun r => r.heap) = some h) ∧
    ((RFVisitorNode.visit_before_training (Visitors.inherited ι δ T) c h).chain = c ∧
      (RFVisitorNode.visit_before_training (Visitors.inherited ι δ T) c h).heap = h ∧
      (RFVisitorNode.visit_before_tree (Visitors.inherited ι δ T) weights c h).chain = c ∧
      (RFVisitorNode.visit_before_tree (Visitors.inherited ι δ T) weights c h).heap = h ∧
      (RFVisitorNode.visit_after_tree (Visitors.inherited ι δ T) rf features labels weights
        c h).chain = c ∧
      (RFVisitorNode.visit_after_tree (Visitors.inherited ι δ T) rf features labels weights
        c h).heap = h) := by
  refine ⟨⟨rfl, rfl, rfl, rfl, rfl⟩, ⟨rfl, ?_, rfl, rfl, rfl⟩,
    ⟨rfl, rfl, rfl, rfl, rfl, rfl, rfl, rfl, rfl, rfl, rfl⟩, ?_⟩
  · funext p
    simp only [Visitors.inherited, RFVisitorBase.visit_after_training]
    cases mem p <;> rfl
  · have e1 := forward_noop Hook.visit_before_training
      (fun s : RFVisitorBase => s.visit_before_training) (fun _ => rfl)
      (Visitors.inherited ι δ T).visit_before_training (fun _ _ => rfl) c h
    have e2 := forward_noop Hook.visit_before_tree
      (fun s : RFVisitorBase => s.visit_before_tree weights) (fun _ => rfl)
      (fun V => (Visitors.inherited ι δ T).visit_before_tree V weights) (fun _ _ => rfl) c h
    have e3 := forward_noop Hook.visit_after_tree
      (fun s : RFVisitorBase => s.visit_after_tree rf features labels weights) (fun _ => rfl)
      (fun V => (Visitors.inherited ι δ T).visit_after_tree V rf features labels weights)
      (fun _ _ => rfl) c h
    exact ⟨e1.1, e1.2, e2.1, e2.2, e3.1, e3.2⟩

theorem forward_calls_hook (hook : Hook) (base : RFVisitorBase → RFVisitorBase)
    (body : ι → Visitor δ → Visitor δ) (c : Chain ι δ) (h : Heap δ) :
    ∀ call ∈ (RFVisitorNode.forward hook base body c h).calls, call.hook = hook := by
  induction c generalizing h with
  | RFStopVisiting self => simp [RFVisitorNode.forward]
  | RFVisitorNode V s n ih =>
    cases s with
    | ref a =>
      intro call hcall
      simp only [RFVisitorNode.forward, List.mem_append] at hcall
      rcases hcall with hcall | hcall
      · by_cases ha : (h a).is_active = true
        · simp only [ha, if_true, List.mem_singleton] at hcall
          rw [hcall]
        · simp [ha] at hcall
      · exact ih _ call hcall
    | val o =>
      intro call hcall
      simp only [RFVisitorNode.forward, List.mem_append] at hcall
      rcases hcall with hcall | hcall
      · by_cases ha : o.is_active = true
        · simp only [ha, if_true, List.mem_singleton] at hcall
          rw [hcall]
        · simp [ha] at hcall
      · exact ih _ call hcall

theorem join_calls_hook (B : Visitors ι δ T) (rf : T.RF) (features : T.FEATURES)
    (labels : T.LABELS) (c : Chain ι δ) (v : List (Chain ι δ)) (h : Heap δ) (r : Joined ι δ)
    (hr : RFVisitorNode.visit_after_training B rf features labels c v h = some r) :
    ∀ call ∈ r.calls, call.hook = Hook.visit_after_training := by
  induction c generalizing v h r with
  | RFStopVisiting self =>
    simp only [RFVisitorNode.visit_after_training, Option.some.injEq] at hr
    subst hr
    simp
  | RFVisitorNode V s n ih =>
    rw [RFVisitorNode.visit_after_training] at hr
    split at hr
    · simp only [] at hr
      split at hr
      · cases hr
      · rename_i r2 hr2
        simp only [Option.some.injEq] at hr
        subst hr
        intro call hcall
        simp only [List.mem_append] at hcall
        rcases hcall with hcall | hcall
        · by_cases ha : (s.get h).is_active = true
          · simp only [ha, if_true, List.mem_singleton] at hcall
            rw [hcall]
          · simp [ha] at hcall
        · exact ih _ _ _ hr2 call hcall
    · cases hr

theorem filter_hook_nil (calls : List (Call δ ι)) (hook : Hook)
    (hc : ∀ call ∈ calls, call.hook = hook) (hne : hook ≠ Hook.visit_after_split) :
    calls.filter (fun call => decide (call.hook = Hook.visit_after_split)) = [] := by
  rw [List.filter_eq_nil_iff]
  intro call hcall
  rw [decide_eq_true_eq, hc call hcall]
  exact hne

/-- C9, evaluated on the code: `RFVisitorBase` declares `visit_after_split`,
`RFVisitorNode` has no member of that name, and no member function it does
have ever calls `visit_after_split` of a visitor. -/
theorem chain_has_no_after_split (B : Visitors ι δ T) (c : Chain ι δ) (h : Heap δ)
    (weights : T.WEIGHTS) (rf : T.RF) (features : T.FEATURES) (labels : T.LABELS)
    (copies : List (Chain ι δ)) :
    (decide (Hook.visit_after_split ∈ RFVisitorBase.member_functions) = true ∧
      decide (Hook.visit_after_split ∈ RFVisitorNode.member_functions) = false) ∧
    (RFVisitorNode.visit_before_training B c h).calls.filter
        (fun call => decide (call.hook = Hook.visit_after_split)) = [] ∧
    (RFVisitorNode.visit_before_tree B weights c h).calls.filter
        (fun call => decide (call.hook = Hook.visit_after_split)) = [] ∧
    (RFVisitorNode.visit_after_tree B rf features labels weights c h).calls.filter
        (fun call => decide (call.hook = Hook.visit_after_split)) = [] ∧
    ((RFVisitorNode.visit_after_training B rf features labels c copies h).map
        (fun r => r.calls.filter (fun call => decide (call.hook = Hook.visit_after_split))))
      ∈ [none, some []] := by
  refine ⟨⟨by decide, by decide⟩,
    filter_hook_nil _ _ (forward_calls_hook _ _ _ c h) (by decide),
    filter_hook_nil _ _ (forward_calls_hook _ _ _ c h) (by decide),
    filter_hook_nil _ _ (forward_calls_hook _ _ _ c h) (by decide), ?_⟩
  cases hr : RFVisitorNode.visit_after_training B rf features labels c copies h with
  | none => simp
  | some r =>
    have := filter_hook_nil _ _ (join_calls_hook B rf features labels c copies h r hr)
      (by decide)
    simp [this]

/-- C5, evaluated on the code: the converting constructor copies the visitor of
the first slot and takes the rest of the chain as it is, so from the second
slot on the fork refers to the caller's visitors instead of holding copies;
the number and order of the slots, their classes and (at the moment of forking)
their states agree with the original. -/
theorem fork_owns_first_slot_only (V W : ι) (a b : Nat) (n : Chain ι δ) (h : Heap δ) :
    RFVisitorNode.from_other (.RFVisitorNode V (.ref a) (.RFVisitorNode W (.ref b) n)) h =
      some (.RFVisitorNode V (.val (h a)) (.RFVisitorNode W (.ref b) n)) ∧
    ((RFVisitorNode.from_other (create_visitor2 V W a b : Chain ι δ) h).map
        (fun f => f.slots.map (fun s => s.2.CPY))) = some [true, false] ∧
    ((RFVisitorNode.from_other (create_visitor2 V W a b : Chain ι δ) h).map
        (fun f => f.slots.map (fun s => (s.1, s.2.get h)))) =
      some ((create_visitor2 V W a b : Chain ι δ).slots.map (fun s => (s.1, s.2.get h))) :=
  ⟨rfl, rfl, rfl⟩

end claims5

/-- C4, evaluated on the code: fork the example chain `create_visitor(a, b)`
twice and run `visit_before_tree` on the first fork, which changes the visitor
at its second position only (class `1` adds ten).  The first position is
isolated, but the second visitor of the original chain and of the sibling fork
have changed with it: all three chains refer to the same object. -/
theorem fork_shares_later_visitors :
    RFVisitorNode.from_other Example.chain Example.heap = some Example.fork ∧
    (RFVisitorNode.visit_before_tree Example.counting [1, 0] Example.fork
        Example.heap).chain.state_at 1
        (RFVisitorNode.visit_before_tree Example.counting [1, 0] Example.fork
          Example.heap).heap = some { active_ := true, derived := 10 } ∧
    Example.chain.state_at 1 Example.heap = some { active_ := true, derived := 0 } ∧
    Example.chain.state_at 1
        (RFVisitorNode.visit_before_tree Example.counting [1, 0] Example.fork
          Example.heap).heap = some { active_ := true, derived := 10 } ∧
    Example.fork.state_at 1 Example.heap = some { active_ := true, derived := 0 } ∧
    Example.fork.state_at 1
        (RFVisitorNode.visit_before_tree Example.counting [1, 0] Example.fork
          Example.heap).heap = some { active_ := true, derived := 10 } ∧
    Example.chain.state_at 0
        (RFVisitorNode.visit_before_training Example.counting Example.fork
          Example.heap).heap = Example.chain.state_at 0 Example.heap := by
  refine ⟨rfl, ?_, ?_, ?_, ?_, ?_, ?_⟩ <;> decide

/-! ## `OOBError::visit_after_training` -/

/-- C11, evaluated on the code: for the four samples and three trees with
in-bag sets `{0,1,2}`, `{1,2,3}`, `{0,2,3}` and the fixed predictions, the
out-of-bag error of the specification is `1/3`, but `visit_after_training`
leaves `oob_err_` as it was (here `0`): it never assigns a member. -/
theorem oob_error_not_computed :
    (Example.oob_copies Example.oob_weights).map (fun v => v.in_bag_count_) =
        [[1, 1, 1, 0], [0, 1, 1, 1], [1, 0, 1, 1]] ∧
    Spec.oob_error ((Example.oob_copies Example.oob_weights).map (fun v => v.in_bag_count_))
        Example.oob_predict Example.oob_labels = some (1 / 3) ∧
    ((OOBError.fresh 0).visit_after_training (Example.oob_copies Example.oob_weights)
        Example.oob_predict () Example.oob_labels).1.oob_err_ = 0 ∧
    ((OOBError.fresh 0).visit_after_training (Example.oob_copies Example.oob_weights)
        Example.oob_predict () Example.oob_labels).1 = OOBError.fresh 0 := by
  refine ⟨by decide, ?_, rfl, rfl⟩
  have h1 : (Example.oob_copies Example.oob_weights).map (fun v => v.in_bag_count_) =
      [[1, 1, 1, 0], [0, 1, 1, 1], [1, 0, 1, 1]] := by decide
  rw [h1]
  have h2 : Spec.voted [[1, 1, 1, 0], [0, 1, 1, 1], [1, 0, 1, 1]] Example.oob_labels =
      [0, 1, 3] := by decide
  have h3 : ([0, 1, 3].filter (fun i =>
      decide (Spec.majority ((Spec.oob_trees [[1, 1, 1, 0], [0, 1, 1, 1], [1, 0, 1, 1]] i).map
        (fun t => Example.oob_predict t i)) ≠ Example.oob_labels[i]?))) = [0] := by decide
  unfold Spec.oob_error
  simp only [h2]
  rw [if_neg (by decide), h3]
  norm_num

/-- C12, evaluated on the code: when every sample is in bag for every tree the
out-of-bag error of the specification is undefined, but `visit_after_training`
returns the estimator as it was, the same state as for the three trees of the
example with out-of-bag samples: nothing marks the result as undefined. -/
theorem oob_error_degenerate_not_reported :
    (Example.oob_copies Example.all_in_bag_weights).map (fun v => v.in_bag_count_) =
        [[1, 1, 1, 1], [1, 1, 1, 1], [1, 1, 1, 1]] ∧
    Spec.oob_error ((Example.oob_copies Example.all_in_bag_weights).map
        (fun v => v.in_bag_count_)) Example.oob_predict Example.oob_labels = none ∧
    ((OOBError.fresh 0).visit_after_training (Example.oob_copies Example.all_in_bag_weights)
        Example.oob_predict () Example.oob_labels).1 =
      ((OOBError.fresh 0).visit_after_training (Example.oob_copies Example.oob_weights)
        Example.oob_predict () Example.oob_labels).1 ∧
    ((OOBError.fresh 0).visit_after_training (Example.oob_copies Example.all_in_bag_weights)
        Example.oob_predict () Example.oob_labels).1.oob_err_ = 0 := by
  refine ⟨by decide, ?_, rfl, rfl⟩
  have h1 : (Example.oob_copies Example.all_in_bag_weights).map (fun v => v.in_bag_count_) =
      [[1, 1, 1, 1], [1, 1, 1, 1], [1, 1, 1, 1]] := by decide
  rw [h1]
  have h2 : Spec.voted [[1, 1, 1, 1], [1, 1, 1, 1], [1, 1, 1, 1]] Example.oob_labels = [] := by
    decide
  unfold Spec.oob_error
  simp only [h2]
  rfl

/-! ## `VisitorCopy` -/

/-- C18: for every chain type `C`, `VisitorCopy<C>::type` has the visitor
types of `C` in the same order, ends in `RFStopVisiting` like every chain type,
has `CPY = true` at every slot, and applying `VisitorCopy` twice gives the same
type as applying it once. -/
theorem VisitorCopy_type {ι : Type} (C : ChainType ι) :
    (VisitorCopy C).visitors = C.visitors ∧
    (VisitorCopy C).flags = C.flags.map (fun _ => true) ∧
    (VisitorCopy C).flags.length = C.visitors.length ∧
    VisitorCopy (VisitorCopy C) = VisitorCopy C ∧
    (VisitorCopy (ChainType.RFStopVisiting : ChainType ι) = .RFStopVisiting) := by
  induction C with
  | RFStopVisiting => exact ⟨rfl, rfl, rfl, rfl, rfl⟩
  | RFVisitorNode V N CPY ih =>
    obtain ⟨h1, h2, h3, h4, _⟩ := ih
    refine ⟨?_, ?_, ?_, ?_, rfl⟩
    · simp only [VisitorCopy, ChainType.visitors, h1]
    · simp only [VisitorCopy, ChainType.flags, List.map_cons, h2]
    · simp only [VisitorCopy, ChainType.flags, ChainType.visitors, List.length_cons, h3]
    · simp only [VisitorCopy, h4]


/-! ## Joining: list length and the round trip -/

section roundtrip
variable {ι δ : Type} {T : ArgTypes}

theorem list_set_get? {α : Type} (l : List α) (t : Nat) (x : α) (hx : l.get? t = some x) :
    l.set t x = l := by
  induction l generalizing t with
  | nil => rfl
  | cons y l ih =>
    cases t with
    | zero =>
      simp only [List.get?_cons_zero, Option.some.injEq] at hx
      rw [hx]
      rfl
    | succ t =>
      simp only [List.get?_cons_succ] at hx
      simp only [List.set_cons_succ, ih t hx]

/-- Assigning through a pointer the value it points to changes nothing. -/
theorem Frame.write_read (f : Frame ι δ) (p : Ptr) (o : Visitor δ)
    (hr : f.read p = some o) : f.write p o = f := by
  obtain ⟨s, v, h⟩ := f
  cases p with
  | heap a =>
    simp only [Frame.read, Option.some.injEq] at hr
    simp only [Frame.write, ← hr, Function.update_eq_self]
  | elem t =>
    simp only [Frame.read] at hr
    simp only [Frame.write]
    split at hr
    · rename_i V o2 n hv
      simp only [Option.some.injEq] at hr
      subst hr
      simp only [hv, list_set_get? v t _ hv]
    · cases hr
  | member =>
    simp only [Frame.read] at hr
    simp only [Frame.write]
    cases s with
    | val o2 =>
      simp only [Option.some.injEq] at hr
      rw [hr]
    | ref a => rfl

theorem Frame.store_read (f : Frame ι δ) (ps : List Ptr) : f.store f.read ps = f := by
  unfold Frame.store
  induction ps with
  | nil => rfl
  | cons p ps ih =>
    rw [List.foldl_cons]
    cases hr : f.read p with
    | none => exact ih
    | some o =>
      simp only []
      rw [Frame.write_read f p o hr]
      exact ih

theorem Chain.Mirrors.refl (c : Chain ι δ) : c.Mirrors c := by
  induction c with
  | RFStopVisiting self => simp [Chain.Mirrors]
  | RFVisitorNode V s n ih =>
    cases s with
    | ref a => exact ⟨rfl, ih⟩
    | val o => exact ih

/-- With no-op bodies `visit_after_training` completes and leaves the chain,
the vector and the heap as they are. -/
theorem join_noop (B : Visitors ι δ T) (hB : B.NoOp) (rf : T.RF) (features : T.FEATURES)
    (labels : T.LABELS) (c : Chain ι δ) (v : List (Chain ι δ)) (h : Heap δ)
    (hm : ∀ x ∈ v, x.Mirrors c) :
    ∃ calls, RFVisitorNode.visit_after_training B rf features labels c v h =
      some ⟨c, v, h, calls⟩ := by
  induction c generalizing v with
  | RFStopVisiting self => exact ⟨[], rfl⟩
  | RFVisitorNode V s n ih =>
    have hall : v.all Chain.isNode = true := by
      rw [List.all_eq_true]
      intro x hx
      exact (hm x hx).isNode
    have hm2 : ∀ y ∈ collect_nexts v, y.Mirrors n := by
      intro y hy
      obtain ⟨x, hx, rfl⟩ := List.mem_map.mp hy
      exact (hm x hx).next
    obtain ⟨calls, hcalls⟩ := ih (collect_nexts v) hm2
    refine ⟨(if (s.get h).is_active = true then
        [⟨.visit_after_training, V, s.this,
          (collect_visitors 0 v).map fun p => (p, (⟨s, v, h⟩ : Frame ι δ).read p)⟩]
      else []) ++ calls, ?_⟩
    rw [RFVisitorNode.visit_after_training, if_pos hall]
    simp only [hB.2.1, Frame.store_read, ite_self, hcalls]

theorem train_trees_noop (B : Visitors ι δ T) (hB : B.NoOp) (rf : T.RF)
    (features : T.FEATURES) (labels : T.LABELS) (chain fork : Chain ι δ)
    (ws : List T.WEIGHTS) (h : Heap δ)
    (hf : RFVisitorNode.from_other chain h = some fork) :
    train_trees B rf features labels chain ws h = some (List.replicate ws.length fork, h) := by
  induction ws with
  | nil => rfl
  | cons w ws ih =>
    have e1 := forward_noop Hook.visit_before_tree
      (fun s : RFVisitorBase => s.visit_before_tree w) (fun _ => rfl)
      (fun V => B.visit_before_tree V w) (fun V o => hB.2.2.1 V w o) fork h
    have e2 := forward_noop Hook.visit_after_tree
      (fun s : RFVisitorBase => s.visit_after_tree rf features labels w) (fun _ => rfl)
      (fun V => B.visit_after_tree V rf features labels w)
      (fun V o => hB.2.2.2 V rf features labels w o) fork h
    simp only [train_trees, hf, RFVisitorNode.visit_before_tree, RFVisitorNode.visit_after_tree,
      e1.1, e1.2, e2.1, e2.2, ih, List.length_cons, List.replicate_succ]

theorem inherited_noop : (Visitors.inherited ι δ T).NoOp := by
  refine ⟨fun _ _ => rfl, ?_, fun _ _ _ => rfl, fun _ _ _ _ _ _ => rfl⟩
  intro V this visitors rf features labels mem
  funext p
  simp only [Visitors.inherited, RFVisitorBase.visit_after_training]
  cases mem p <;> rfl

/-- C15: for a chain of one to ten visitors whose hook bodies are all no-ops
and any number of trees, the whole protocol (build, `visit_before_training`,
one fork per tree with `visit_before_tree` and `visit_after_tree`, then
`visit_after_training` on the original chain with the list of the forks)
completes and leaves the original chain, every visitor state and every fork as
they were directly after building and forking. -/
theorem train_noop_roundtrip (B : Visitors ι δ T) (args : List (ι × Nat)) (h : Heap δ)
    (ws : List T.WEIGHTS) (rf : T.RF) (features : T.FEATURES) (labels : T.LABELS)
    (hB : B.NoOp) (hlo : 1 ≤ args.length) (hhi : args.length ≤ 10) :
    ∃ chain fork r, create_visitor args = some chain ∧
      RFVisitorNode.from_other chain h = some fork ∧
      train B rf features labels ws chain h = some r ∧
      r.chain = chain ∧
      r.chain.slots = args.map (fun va => (va.1, Storage.ref va.2)) ∧
      r.heap = h ∧
      r.v = List.replicate ws.length fork ∧
      fork.slots.map (fun s => (s.1, s.2.get h)) =
        chain.slots.map (fun s => (s.1, s.2.get h)) := by
  obtain ⟨va, rest, rfl⟩ : ∃ va rest, args = va :: rest := by
    cases args with
    | nil => simp at hlo
    | cons va rest => exact ⟨va, rest, rfl⟩
  obtain ⟨V, a⟩ := va
  have hf : RFVisitorNode.from_other (Chain.borrowed ((V, a) :: rest) : Chain ι δ) h =
      some (.RFVisitorNode V (.val (h a)) (Chain.borrowed rest)) := rfl
  have e0 := forward_noop Hook.visit_before_training
    (fun s : RFVisitorBase => s.visit_before_training) (fun _ => rfl)
    B.visit_before_training hB.1 (Chain.borrowed ((V, a) :: rest) : Chain ι δ) h
  have hm : ∀ x ∈ List.replicate ws.length
      (Chain.RFVisitorNode V (.val (h a)) (Chain.borrowed rest) : Chain ι δ),
      x.Mirrors (Chain.borrowed ((V, a) :: rest)) := by
    intro x hx
    rw [List.eq_of_mem_replicate hx]
    exact Chain.Mirrors.refl (Chain.borrowed rest)
  obtain ⟨calls, hcalls⟩ := join_noop B hB rf features labels
    (Chain.borrowed ((V, a) :: rest)) _ h hm
  refine ⟨Chain.borrowed ((V, a) :: rest),
    .RFVisitorNode V (.val (h a)) (Chain.borrowed rest),
    ⟨Chain.borrowed ((V, a) :: rest), List.replicate ws.length
      (.RFVisitorNode V (.val (h a)) (Chain.borrowed rest)), h, calls⟩,
    create_visitor_eq _ hlo hhi, hf, ?_, rfl, Chain.borrowed_slots _, rfl, rfl, rfl⟩
  simp only [train, RFVisitorNode.visit_before_training, e0.1, e0.2,
    train_trees_noop B hB rf features labels _ _ ws h hf, hcalls]

theorem train_noop_roundtrip_witness :
    ∃ chain fork r, create_visitor [((0 : Nat), 0), (1, 1)] = some chain ∧
      RFVisitorNode.from_other chain Example.heap = some fork ∧
      train (Visitors.inherited Nat Nat Example.T) 3 () () [[1, 0], [0, 1], [1, 1]] chain
        Example.heap = some r ∧
      r.chain = chain ∧
      r.chain.slots = [((0 : Nat), 0), (1, 1)].map (fun va => (va.1, Storage.ref va.2)) ∧
      r.heap = Example.heap ∧
      r.v = List.replicate [[(1 : Int), 0], [0, 1], [1, 1]].length fork ∧
      fork.slots.map (fun s => (s.1, s.2.get Example.heap)) =
        chain.slots.map (fun s => (s.1, s.2.get Example.heap)) :=
  train_noop_roundtrip (Visitors.inherited Nat Nat Example.T) [(0, 0), (1, 1)] Example.heap
    [[1, 0], [0, 1], [1, 1]] 3 () () inherited_noop (by decide) (by decide)

end roundtrip


/-! ## The coordinate map -/

/-- Division of `int` by a positive divisor is the quotient truncated toward
zero. -/
theorem tdiv_eq_truncate (x c : Int) (hc : 0 < c) :
    Int.tdiv x c = Spec.truncate ((x : ℚ) / (c : ℚ)) := by
  have hcq : (0 : ℚ) < (c : ℚ) := by exact_mod_cast hc
  have hfl : ∀ y : Int, ⌊(y : ℚ) / (c : ℚ)⌋ = y / c := by
    intro y
    have := Rat.floor_intCast_div_natCast y c.toNat
    rw [show ((c.toNat : ℕ) : ℚ) = (c : ℚ) by
      have : ((c.toNat : ℕ) : ℤ) = c := Int.toNat_of_nonneg hc.le
      exact_mod_cast this] at this
    rw [this, Int.toNat_of_nonneg hc.le]
  unfold Spec.truncate
  by_cases hx : 0 ≤ x
  · have hq : (0 : ℚ) ≤ (x : ℚ) / (c : ℚ) := div_nonneg (by exact_mod_cast hx) hcq.le
    rw [if_pos hq, hfl, Int.tdiv_eq_ediv hx hc.le]
  · have hx2 : x < 0 := lt_of_not_ge hx
    have hq : ¬ (0 : ℚ) ≤ (x : ℚ) / (c : ℚ) := by
      rw [not_le]
      exact div_neg_of_neg_of_pos (by exact_mod_cast hx2) hcq
    rw [if_neg hq]
    have e1 : Int.tdiv x c = -(Int.tdiv (-x) c) := by
      rw [Int.neg_tdiv, neg_neg]
    have e2 : ⌈(x : ℚ) / (c : ℚ)⌉ = -⌊((-x : Int) : ℚ) / (c : ℚ)⌋ := by
      rw [Int.cast_neg, neg_div, Int.floor_neg, neg_neg]
    rw [e1, e2, hfl, Int.tdiv_eq_ediv (by omega) hc.le]

theorem rational_cast_eq_truncate (q : ℚ) : Spec.rational_cast q = Spec.truncate q := by
  unfold Spec.rational_cast
  have hd : (0 : Int) < (q.den : Int) := by exact_mod_cast q.den_pos
  rw [tdiv_eq_truncate q.num q.den hd]
  congr 1
  exact_mod_cast Rat.num_div_den q

theorem Rational.make_toRat (n d : Int) (hd : d ≠ 0) :
    (Rational.make n d).toRat = (n : ℚ) / (d : ℚ) := by
  unfold Rational.make Rational.toRat
  rw [if_neg hd]
  exact_mod_cast Rat.num_div_den ((n : ℚ) / (d : ℚ))

/-- C19: for a finite sampling ratio greater than zero and a finite offset
(positive denominators) and every integer `i`, `toRational(i)` is the rational
number `i / samplingRatio + offset`, `operator()(i)` is that number truncated
toward zero, which is `rational_cast<int>` of it, and the divisor `c` is
positive. -/
theorem MapTargetToSourceCoordinate.refines (samplingRatio offset : Rational) (i : Int)
    (hn : 0 < samplingRatio.numerator) (hd : 0 < samplingRatio.denominator)
    (ho : 0 < offset.denominator) :
    ((MapTargetToSourceCoordinate.new samplingRatio offset).toRational i).toRat =
        (i : ℚ) / samplingRatio.toRat + offset.toRat ∧
    (MapTargetToSourceCoordinate.new samplingRatio offset).call i =
        Spec.truncate ((i : ℚ) / samplingRatio.toRat + offset.toRat) ∧
    (MapTargetToSourceCoordinate.new samplingRatio offset).call i =
        Spec.rational_cast ((i : ℚ) / samplingRatio.toRat + offset.toRat) ∧
    (MapTargetToSourceCoordinate.new samplingRatio offset).toDouble i =
        (i : ℚ) / samplingRatio.toRat + offset.toRat ∧
    0 < (MapTargetToSourceCoordinate.new samplingRatio offset).c ∧
    (MapTargetToSourceCoordinate.new samplingRatio offset).c =
        samplingRatio.numerator * offset.denominator := by
  have hc : 0 < samplingRatio.numerator * offset.denominator := Int.mul_pos hn ho
  have hnq : (samplingRatio.numerator : ℚ) ≠ 0 := by exact_mod_cast hn.ne'
  have hdq : (samplingRatio.denominator : ℚ) ≠ 0 := by exact_mod_cast hd.ne'
  have hoq : (offset.denominator : ℚ) ≠ 0 := by exact_mod_cast ho.ne'
  have hval : ((i * (samplingRatio.denominator * offset.denominator) +
        samplingRatio.numerator * offset.numerator : Int) : ℚ) /
        ((samplingRatio.numerator * offset.denominator : Int) : ℚ) =
      (i : ℚ) / samplingRatio.toRat + offset.toRat := by
    unfold Rational.toRat
    push_cast
    field_simp
    ring
  refine ⟨?_, ?_, ?_, hval, hc, rfl⟩
  · simp only [MapTargetToSourceCoordinate.toRational, MapTargetToSourceCoordinate.new]
    rw [Rational.make_toRat _ _ hc.ne', hval]
  · simp only [MapTargetToSourceCoordinate.call, MapTargetToSourceCoordinate.new]
    rw [tdiv_eq_truncate _ _ hc, hval]
  · simp only [MapTargetToSourceCoordinate.call, MapTargetToSourceCoordinate.new]
    rw [rational_cast_eq_truncate, tdiv_eq_truncate _ _ hc, hval]

theorem MapTargetToSourceCoordinate.refines_witness :
    ((MapTargetToSourceCoordinate.new ⟨2, 3⟩ ⟨-7, 2⟩).toRational 1).toRat =
        ((1 : Int) : ℚ) / (⟨2, 3⟩ : Rational).toRat + (⟨-7, 2⟩ : Rational).toRat ∧
    (MapTargetToSourceCoordinate.new ⟨2, 3⟩ ⟨-7, 2⟩).call 1 =
        Spec.truncate (((1 : Int) : ℚ) / (⟨2, 3⟩ : Rational).toRat +
          (⟨-7, 2⟩ : Rational).toRat) ∧
    (MapTargetToSourceCoordinate.new ⟨2, 3⟩ ⟨-7, 2⟩).call 1 =
        Spec.rational_cast (((1 : Int) : ℚ) / (⟨2, 3⟩ : Rational).toRat +
          (⟨-7, 2⟩ : Rational).toRat) ∧
    (MapTargetToSourceCoordinate.new ⟨2, 3⟩ ⟨-7, 2⟩).toDouble 1 =
        ((1 : Int) : ℚ) / (⟨2, 3⟩ : Rational).toRat + (⟨-7, 2⟩ : Rational).toRat ∧
    0 < (MapTargetToSourceCoordinate.new ⟨2, 3⟩ ⟨-7, 2⟩).c ∧
    (MapTargetToSourceCoordinate.new ⟨2, 3⟩ ⟨-7, 2⟩).c =
        (⟨2, 3⟩ : Rational).numerator * (⟨-7, 2⟩ : Rational).denominator :=
  MapTargetToSourceCoordinate.refines ⟨2, 3⟩ ⟨-7, 2⟩ 1 (by decide) (by decide) (by decide)


/-! ## `resamplingConvolveLine` -/

section line
variable {R : Type} [Semiring R]

theorem read_source_ok (src : List R) (m : Int) (h0 : 0 ≤ m) (h1 : m < src.length) :
    read_source src m = .ok (src.getD m.toNat 0) := by
  unfold read_source
  have hlt : m.toNat < src.length := by omega
  rw [if_pos h0, List.getElem?_eq_getElem hlt, List.getD_eq_getElem?_getD,
    List.getElem?_eq_getElem hlt]
  rfl

theorem mirror_index_eq_refl (wo m : Int) : mirror_index wo (2 * wo - 2) m = Spec.refl wo m :=
  rfl

/-- The reflected index stays inside the line when the check of the border
branch has passed. -/
theorem mirror_index_bounds (wo lbound hbound m : Int) (h1 : -lbound < wo)
    (h2 : 2 * wo - 2 - hbound ≥ 0) (hl : lbound ≤ m) (hh : m ≤ hbound) :
    0 ≤ mirror_index wo (2 * wo - 2) m ∧ mirror_index wo (2 * wo - 2) m < wo := by
  unfold mirror_index
  by_cases hm : m < 0
  · rw [if_pos hm]
    omega
  · rw [if_neg hm]
    by_cases hw : m ≥ wo
    · rw [if_pos hw]
      omega
    · rw [if_neg hw]
      omega

theorem border_loop_ok (src : List R) (wo wo2 : Int) (K : Kernel1D R) (count : Nat)
    (m k : Int) (sum : R)
    (hb : ∀ j : Nat, j < count →
      0 ≤ mirror_index wo wo2 (m + j) ∧ mirror_index wo wo2 (m + j) < src.length) :
    border_loop src wo wo2 K count m k sum =
      .ok (sum + ∑ j in Finset.range count,
        K.coeff (k - j) * src.getD (mirror_index wo wo2 (m + j)).toNat 0) := by
  induction count generalizing m k sum with
  | zero => simp [border_loop]
  | succ count ih =>
    have h0 := hb 0 (Nat.succ_pos _)
    simp only [Nat.cast_zero, add_zero] at h0
    rw [border_loop, read_source_ok src _ h0.1 h0.2]
    simp only []
    rw [ih]
    · rw [Finset.sum_range_succ', add_assoc]
      congr 2
      rw [add_comm]
      congr 1
      · apply Finset.sum_congr rfl
        intro j _
        have e1 : k - 1 - (j : Int) = k - ((j + 1 : Nat) : Int) := by push_cast; ring
        have e2 : m + 1 + (j : Int) = m + ((j + 1 : Nat) : Int) := by push_cast; ring
        rw [e1, e2]
      · simp only [Nat.cast_zero, add_zero, sub_zero]
    · intro j hj
      have := hb (j + 1) (Nat.succ_lt_succ hj)
      have e2 : m + 1 + (j : Int) = m + ((j + 1 : Nat) : Int) := by push_cast; ring
      rw [e2]
      exact this

theorem interior_loop_ok (src : List R) (K : Kernel1D R) (count : Nat) (ss k : Int) (sum : R)
    (hb : ∀ j : Nat, j < count → 0 ≤ ss + j ∧ ss + j < src.length) :
    interior_loop src K count ss k sum =
      .ok (sum + ∑ j in Finset.range count,
        K.coeff (k - j) * src.getD (ss + j).toNat 0) := by
  induction count generalizing ss k sum with
  | zero => simp [interior_loop]
  | succ count ih =>
    have h0 := hb 0 (Nat.succ_pos _)
    simp only [Nat.cast_zero, add_zero] at h0
    rw [interior_loop, read_source_ok src _ h0.1 h0.2]
    simp only []
    rw [ih]
    · rw [Finset.sum_range_succ', add_assoc]
      congr 2
      rw [add_comm]
      congr 1
      · apply Finset.sum_congr rfl
        intro j _
        have e1 : k - 1 - (j : Int) = k - ((j + 1 : Nat) : Int) := by push_cast; ring
        have e2 : ss + 1 + (j : Int) = ss + ((j + 1 : Nat) : Int) := by push_cast; ring
        rw [e1, e2]
      · simp only [Nat.cast_zero, add_zero, sub_zero]
    · intro j hj
      have := hb (j + 1) (Nat.succ_lt_succ hj)
      have e2 : ss + 1 + (j : Int) = ss + ((j + 1 : Nat) : Int) := by push_cast; ring
      rw [e2]
      exact this

/-- The sum over the source indices of the kernel support, written over the
iteration count of the loops. -/
theorem line_value_eq_range (src : List R) (K : Kernel1D R) (f : Int → Int) (i : Int) :
    Spec.line_value src K f i =
      ∑ j in Finset.range ((f i - K.left) + 1 - (f i - K.right)).toNat,
        K.coeff (K.right - j) *
          src.getD (Spec.refl src.length ((f i - K.right) + j)).toNat 0 := by
  unfold Spec.line_value
  rw [Int.Icc_eq_finset_map, Finset.sum_map]
  apply Finset.sum_congr rfl
  intro j _
  simp only [Function.Embedding.trans_apply, Nat.castEmbedding_apply, addLeftEmbedding_apply]
  congr 2
  ring

theorem convolve_at_fail (src : List R) (K : Kernel1D R) (f : Int → Int) (i : Int)
    (hf : Spec.too_large (src.length : Int) K (f i)) :
    convolve_at src K f i = .error (.precondition
      "resamplingConvolveLine(): kernel or offset larger than image.") := by
  unfold Spec.too_large at hf
  unfold convolve_at
  simp only []
  rw [if_pos hf.1, if_neg]
  intro hc
  omega

theorem convolve_at_ok (src : List R) (K : Kernel1D R) (f : Int → Int) (i : Int)
    (hf : ¬ Spec.too_large (src.length : Int) K (f i)) :
    convolve_at src K f i = .ok (Spec.line_value src K f i) := by
  unfold Spec.too_large at hf
  rw [line_value_eq_range]
  unfold convolve_at
  simp only []
  by_cases hb : f i - K.right < 0 ∨ f i - K.left ≥ (src.length : Int)
  · have hc : -(f i - K.right) < (src.length : Int) ∧
        2 * (src.length : Int) - 2 - (f i - K.left) ≥ 0 := by
      constructor
      · by_contra hn
        exact hf ⟨hb, Or.inl (by omega)⟩
      · by_contra hn
        exact hf ⟨hb, Or.inr (by omega)⟩
    rw [if_pos hb, if_pos hc, border_loop_ok, zero_add]
    · rfl
    · intro j hj
      apply mirror_index_bounds (src.length : Int) (f i - K.right) (f i - K.left) _ hc.1 hc.2
      · omega
      · omega
  · rw [if_neg hb, interior_loop_ok, zero_add]
    · congr 1
      apply Finset.sum_congr rfl
      intro j hj
      rw [Finset.mem_range] at hj
      have e : Spec.refl (src.length : Int) (f i - K.right + j) = f i - K.right + j := by
        unfold Spec.refl
        rw [if_neg (by omega), if_neg (by omega)]
      rw [e]
    · intro j hj
      omega

/-- Advancing the kernel iterator and wrapping it at the end keeps it at the
kernel of the target index. -/
theorem kernel_iterator_step (n i : Nat) (hn : 0 < n) :
    (if i % n + 1 = n then 0 else i % n + 1) = (i + 1) % n := by
  have hlt : i % n < n := Nat.mod_lt _ hn
  have e : (i + 1) % n = (i % n + 1) % n := (Nat.mod_add_mod i n 1).symm
  rw [e]
  by_cases he : i % n + 1 = n
  · rw [if_pos he, he, Nat.mod_self]
  · rw [if_neg he]
    have hlt2 : i % n + 1 < n := by omega
    exact (Nat.mod_eq_of_lt hlt2).symm

/-- The loop of `resamplingConvolveLine` from target `i` on, the kernel
iterator standing at the kernel of `i`: when no target from `i` on has a kernel
too large for the line, the values written are those of the specification. -/
theorem line_loop_ok (src : List R) (kernels : List (Kernel1D R)) (f : Int → Int)
    (hk : kernels ≠ []) (count i kv : Nat)
    (hkv : (if kv = kernels.length then 0 else kv) = i % kernels.length)
    (hok : ∀ j < count, ∀ K, Spec.kernel_of kernels (i + j) = some K →
      ¬ Spec.too_large (src.length : Int) K (f ((i + j : Nat) : Int))) :
    resamplingConvolveLine_loop src kernels f count (i : Int) kv =
      .ok ((List.range count).map fun j =>
        match Spec.kernel_of kernels (i + j) with
        | some K => Spec.line_value src K f ((i + j : Nat) : Int)
        | none => 0) := by
  have hn : 0 < kernels.length := List.length_pos.mpr hk
  induction count generalizing i kv with
  | zero => rfl
  | succ count ih =>
    have hlt : i % kernels.length < kernels.length := Nat.mod_lt _ hn
    obtain ⟨K, hK⟩ : ∃ K, kernels[i % kernels.length]? = some K :=
      ⟨_, List.getElem?_eq_getElem hlt⟩
    have hK0 : Spec.kernel_of kernels (i + 0) = some K := hK
    have h0 := hok 0 (Nat.succ_pos _) K hK0
    have hnext : (if i % kernels.length + 1 = kernels.length then 0
        else i % kernels.length + 1) = (i + 1) % kernels.length :=
      kernel_iterator_step kernels.length i hn
    have ih2 := ih (i + 1) (i % kernels.length + 1) hnext (by
      intro j hj K2 hK2
      have e : i + 1 + j = i + (j + 1) := by omega
      rw [e] at hK2 ⊢
      exact hok (j + 1) (Nat.succ_lt_succ hj) K2 hK2)
    rw [resamplingConvolveLine_loop]
    simp only [hkv, hK]
    rw [convolve_at_ok src K f i h0]
    simp only []
    have ecast : ((i : Int) + 1) = ((i + 1 : Nat) : Int) := by push_cast; rfl
    rw [ecast, ih2, List.range_succ_eq_map, List.map_cons, List.map_map]
    have hhead : Spec.line_value src K f (i : Int) =
        (match Spec.kernel_of kernels (i + 0) with
          | some K => Spec.line_value src K f ((i + 0 : Nat) : Int)
          | none => 0) := by
      rw [hK0]
      rfl
    have htail : (List.range count).map (fun j =>
          match Spec.kernel_of kernels (i + 1 + j) with
          | some K => Spec.line_value src K f ((i + 1 + j : Nat) : Int)
          | none => 0) =
        (List.range count).map ((fun j =>
          match Spec.kernel_of kernels (i + j) with
          | some K => Spec.line_value src K f ((i + j : Nat) : Int)
          | none => 0) ∘ Nat.succ) := by
      apply List.map_congr_left
      intro j _
      have e : i + 1 + j = i + (j + 1) := by omega
      simp only [Function.comp, e, Nat.succ_eq_add_one]
    exact congrArg Except.ok (congrArg₂ List.cons hhead htail)

/-- The loop of `resamplingConvolveLine` from target `i` on: when some target
from `i` on has a kernel too large for the line, the loop ends with the
precondition violation. -/
theorem line_loop_fail (src : List R) (kernels : List (Kernel1D R)) (f : Int → Int)
    (hk : kernels ≠ []) (count i kv : Nat)
    (hkv : (if kv = kernels.length then 0 else kv) = i % kernels.length)
    (hbad : ∃ j < count, ∃ K, Spec.kernel_of kernels (i + j) = some K ∧
      Spec.too_large (src.length : Int) K (f ((i + j : Nat) : Int))) :
    resamplingConvolveLine_loop src kernels f count (i : Int) kv =
      .error (.precondition
        "resamplingConvolveLine(): kernel or offset larger than image.") := by
  have hn : 0 < kernels.length := List.length_pos.mpr hk
  induction count generalizing i kv with
  | zero =>
    obtain ⟨j, hj, _⟩ := hbad
    omega
  | succ count ih =>
    have hlt : i % kernels.length < kernels.length := Nat.mod_lt _ hn
    obtain ⟨K, hK⟩ : ∃ K, kernels[i % kernels.length]? = some K :=
      ⟨_, List.getElem?_eq_getElem hlt⟩
    have hnext : (if i % kernels.length + 1 = kernels.length then 0
        else i % kernels.length + 1) = (i + 1) % kernels.length :=
      kernel_iterator_step kernels.length i hn
    rw [resamplingConvolveLine_loop]
    simp only [hkv, hK]
    by_cases h0 : Spec.too_large (src.length : Int) K (f (i : Int))
    · rw [convolve_at_fail src K f i h0]
    · rw [convolve_at_ok src K f i h0]
      simp only []
      have ecast : ((i : Int) + 1) = ((i + 1 : Nat) : Int) := by push_cast; rfl
      rw [ecast, ih (i + 1) (i % kernels.length + 1) hnext]
      obtain ⟨j, hj, K2, hK2, hbad2⟩ := hbad
      cases j with
      | zero =>
        exfalso
        have : Spec.kernel_of kernels (i + 0) = some K := hK
        rw [this] at hK2
        cases hK2
        exact h0 hbad2
      | succ j =>
        refine ⟨j, by omega, K2, ?_, ?_⟩
        · have e : i + 1 + j = i + (j + 1) := by omega
          rw [e]
          exact hK2
        · have e : i + 1 + j = i + (j + 1) := by omega
          rw [e]
          exact hbad2

end line


section line_claims
variable {R : Type} [Semiring R]

/-- C20: with at least one kernel, `resamplingConvolveLine` never reads the
source outside `[0, wo)`; the precondition violation "kernel or offset larger
than image" is raised exactly when for some target the kernel support leaves
`[0, wo)` and `lbound <= -wo` or `hbound > 2*wo - 2`; in the border branch the
checked condition puts the reflected index of every `m` in `[lbound, hbound]`
inside `[0, wo)`, and in the interior branch every such `m` is inside itself. -/
theorem resamplingConvolveLine_reads_inside (src : List R) (wn : Nat)
    (kernels : List (Kernel1D R)) (f : Int → Int) (hk : kernels ≠ []) :
    resamplingConvolveLine src wn kernels f ≠ .error .out_of_bounds ∧
    (resamplingConvolveLine src wn kernels f = .error (.precondition
        "resamplingConvolveLine(): kernel or offset larger than image.") ↔
      ∃ i < wn, ∃ K, kernels[i % kernels.length]? = some K ∧
        (f i - K.right < 0 ∨ f i - K.left ≥ (src.length : Int)) ∧
        (f i - K.right ≤ -(src.length : Int) ∨ f i - K.left > 2 * (src.length : Int) - 2)) ∧
    (∀ lbound hbound m : Int, -lbound < (src.length : Int) →
      2 * (src.length : Int) - 2 - hbound ≥ 0 → lbound ≤ m → m ≤ hbound →
      0 ≤ mirror_index src.length (2 * src.length - 2) m ∧
        mirror_index src.length (2 * src.length - 2) m < (src.length : Int)) ∧
    (∀ lbound hbound m : Int, ¬ (lbound < 0 ∨ hbound ≥ (src.length : Int)) →
      lbound ≤ m → m ≤ hbound → 0 ≤ m ∧ m < (src.length : Int)) := by
  have hn : 0 < kernels.length := List.length_pos.mpr hk
  have hkv : (if 0 = kernels.length then 0 else 0) = 0 % kernels.length := by
    rw [if_neg (by omega)]
    exact (Nat.zero_mod _).symm
  have hcases : (∃ i < wn, ∃ K, kernels[i % kernels.length]? = some K ∧
        Spec.too_large (src.length : Int) K (f i)) ∨
      (∀ i < wn, ∀ K, kernels[i % kernels.length]? = some K →
        ¬ Spec.too_large (src.length : Int) K (f i)) := by
    by_cases h : ∃ i < wn, ∃ K, kernels[i % kernels.length]? = some K ∧
        Spec.too_large (src.length : Int) K (f i)
    · exact Or.inl h
    · refine Or.inr ?_
      intro i hi K hK hbad
      exact h ⟨i, hi, K, hK, hbad⟩
  have hfail : (∃ i < wn, ∃ K, kernels[i % kernels.length]? = some K ∧
        Spec.too_large (src.length : Int) K (f i)) →
      resamplingConvolveLine src wn kernels f = .error (.precondition
        "resamplingConvolveLine(): kernel or offset larger than image.") := by
    rintro ⟨i, hi, K, hK, hbad⟩
    apply line_loop_fail src kernels f hk wn 0 0 hkv
    refine ⟨i, hi, K, ?_, ?_⟩
    · rw [Nat.zero_add]
      exact hK
    · rw [Nat.zero_add]
      exact hbad
  have hok : (∀ i < wn, ∀ K, kernels[i % kernels.length]? = some K →
        ¬ Spec.too_large (src.length : Int) K (f i)) →
      ∃ dest, resamplingConvolveLine src wn kernels f = .ok dest := by
    intro h
    refine ⟨_, line_loop_ok src kernels f hk wn 0 0 hkv ?_⟩
    intro j hj K hK
    rw [Nat.zero_add] at hK ⊢
    exact h j hj K hK
  refine ⟨?_, ⟨?_, hfail⟩, ?_, ?_⟩
  · rcases hcases with h | h
    · rw [hfail h]
      intro e
      cases e
    · obtain ⟨dest, hd⟩ := hok h
      rw [hd]
      intro e
      cases e
  · intro he
    rcases hcases with h | h
    · exact h
    · obtain ⟨dest, hd⟩ := hok h
      rw [hd] at he
      cases he
  · intro lbound hbound m h1 h2 hl hh
    exact mirror_index_bounds _ lbound hbound m h1 h2 hl hh
  · intro lbound hbound m hb hl hh
    omega

/-- The ways `resamplingConvolveLine` can end. -/
theorem resamplingConvolveLine_outcomes (src : List R) (wn : Nat)
    (kernels : List (Kernel1D R)) (f : Int → Int) :
    (∃ dest, resamplingConvolveLine src wn kernels f = .ok dest) ∨
    resamplingConvolveLine src wn kernels f = .error (.precondition
      "resamplingConvolveLine(): kernel or offset larger than image.") ∨
    resamplingConvolveLine src wn kernels f = .error .out_of_bounds := by
  by_cases hk : kernels = []
  · subst hk
    cases wn with
    | zero => exact Or.inl ⟨[], rfl⟩
    | succ wn => exact Or.inr (Or.inr rfl)
  · have hkv : (if 0 = kernels.length then 0 else 0) = 0 % kernels.length := by
      have hn : 0 < kernels.length := List.length_pos.mpr hk
      rw [if_neg (by omega)]
      exact (Nat.zero_mod _).symm
    by_cases h : ∃ j < wn, ∃ K, Spec.kernel_of kernels (0 + j) = some K ∧
        Spec.too_large (src.length : Int) K (f ((0 + j : Nat) : Int))
    · exact Or.inr (Or.inl (line_loop_fail src kernels f hk wn 0 0 hkv h))
    · refine Or.inl ⟨_, line_loop_ok src kernels f hk wn 0 0 hkv ?_⟩
      intro j hj K hK hbad
      exact h ⟨j, hj, K, hK, hbad⟩

theorem convolve_lines_outcomes (wn : Nat) (kernels : List (Kernel1D R)) (f : Int → Int)
    (lines : List (List R)) :
    (∃ ds, convolve_lines wn kernels f lines = .ok ds) ∨
    convolve_lines wn kernels f lines = .error (.precondition
      "resamplingConvolveLine(): kernel or offset larger than image.") ∨
    convolve_lines wn kernels f lines = .error .out_of_bounds := by
  induction lines with
  | nil => exact Or.inl ⟨[], rfl⟩
  | cons line rest ih =>
    rcases resamplingConvolveLine_outcomes line wn kernels f with ⟨d, hd⟩ | hd | hd
    · rcases ih with ⟨ds, hds⟩ | hds | hds
      · exact Or.inl ⟨d :: ds, by simp only [convolve_lines, hd, hds]⟩
      · exact Or.inr (Or.inl (by simp only [convolve_lines, hd, hds]))
      · exact Or.inr (Or.inr (by simp only [convolve_lines, hd, hds]))
    · exact Or.inr (Or.inl (by simp only [convolve_lines, hd]))
    · exact Or.inr (Or.inr (by simp only [convolve_lines, hd]))

end line_claims

theorem Example.kernels_fit :
    ∀ i < 7, ∀ K, [Example.kernel, Example.kernel2][i % [Example.kernel,
        Example.kernel2].length]? = some K →
      ¬ Spec.too_large (Example.line.length : Int) K ((fun j : Int => j) i) := by
  intro i hi K hK
  have h2 : [Example.kernel, Example.kernel2].length = 2 := rfl
  rw [h2] at hK
  unfold Spec.too_large
  interval_cases i <;>
    simp only [Nat.reduceMod, List.getElem?_cons_zero, List.getElem?_cons_succ,
      Option.some.injEq] at hK <;>
    subst hK <;>
    simp [Example.kernel, Example.kernel2, Example.line]

theorem resamplingConvolveLine_reads_inside_witness :
    ([Example.kernel, Example.kernel2] ≠ []) ∧
    resamplingConvolveLine Example.line 7 [Example.kernel, Example.kernel2] (fun j => j) ≠
      .error .out_of_bounds :=
  ⟨by simp, (resamplingConvolveLine_reads_inside Example.line 7
    [Example.kernel, Example.kernel2] (fun j => j) (by simp)).1⟩


/-! ## The checks of `resamplingConvolveX` and `resamplingConvolveY` -/

/-- C17: `resamplingConvolveX` and `resamplingConvolveY` end with the
precondition violation on the sampling ratio for every call whose ratio is
infinite or not greater than zero, and with the one on the offset for every
other call whose offset is infinite, whatever the source, the kernel and the
destination size (the checks come before the kernels are built and before any
line is convolved); a call with a finite ratio greater than zero and a finite
offset passes both checks: it goes on to build the kernels and convolve the
lines, and does not end with either of the two violations. -/
theorem resamplingConvolveXY_checks {R : Type} [Semiring R] (src : Image R)
    (wnew : Nat) (kernel_for : ℚ → Kernel1D R) (samplingRatio offset : Rational) :
    ((samplingRatio.is_inf = true ∨ samplingRatio.gt_zero = false) →
      (∀ (src2 : Image R) (n2 : Nat) (k2 : ℚ → Kernel1D R),
        resamplingConvolveX src2 n2 k2 samplingRatio offset = .error (.precondition
          "resamplingConvolveX(): sampling ratio must be > 0 and < infinity") ∧
        resamplingConvolveY src2 n2 k2 samplingRatio offset = .error (.precondition
          "resamplingConvolveY(): sampling ratio must be > 0 and < infinity"))) ∧
    ((samplingRatio.is_inf = false ∧ samplingRatio.gt_zero = true ∧ offset.is_inf = true) →
      (∀ (src2 : Image R) (n2 : Nat) (k2 : ℚ → Kernel1D R),
        resamplingConvolveX src2 n2 k2 samplingRatio offset = .error (.precondition
          "resamplingConvolveX(): offset must be < infinity") ∧
        resamplingConvolveY src2 n2 k2 samplingRatio offset = .error (.precondition
          "resamplingConvolveY(): offset must be < infinity"))) ∧
    ((samplingRatio.is_inf = false ∧ samplingRatio.gt_zero = true ∧ offset.is_inf = false) →
      resamplingConvolveX src wnew kernel_for samplingRatio offset =
        (match convolve_lines wnew
            (createResamplingKernels kernel_for
              (MapTargetToSourceCoordinate.new samplingRatio offset)
              (Int.lcm samplingRatio.numerator samplingRatio.denominator))
            (MapTargetToSourceCoordinate.new samplingRatio offset).call
            ((List.range src.height).map src.row) with
          | .error e => .error e
          | .ok rows => .ok ⟨wnew, src.height, fun x y => (rows.getD y []).getD x 0⟩) ∧
      resamplingConvolveY src wnew kernel_for samplingRatio offset =
        (match convolve_lines wnew
            (createResamplingKernels kernel_for
              (MapTargetToSourceCoordinate.new samplingRatio offset)
              (Int.lcm samplingRatio.numerator samplingRatio.denominator))
            (MapTargetToSourceCoordinate.new samplingRatio offset).call
            ((List.range src.width).map src.column) with
          | .error e => .error e
          | .ok columns => .ok ⟨src.width, wnew, fun x y => (columns.getD x []).getD y 0⟩) ∧
      resamplingConvolveX src wnew kernel_for samplingRatio offset ≠ .error (.precondition
        "resamplingConvolveX(): sampling ratio must be > 0 and < infinity") ∧
      resamplingConvolveX src wnew kernel_for samplingRatio offset ≠ .error (.precondition
        "resamplingConvolveX(): offset must be < infinity") ∧
      resamplingConvolveY src wnew kernel_for samplingRatio offset ≠ .error (.precondition
        "resamplingConvolveY(): sampling ratio must be > 0 and < infinity") ∧
      resamplingConvolveY src wnew kernel_for samplingRatio offset ≠ .error (.precondition
        "resamplingConvolveY(): offset must be < infinity")) := by
  refine ⟨?_, ?_, ?_⟩
  · intro hbad src2 n2 k2
    have hcond : ¬ ((!samplingRatio.is_inf && samplingRatio.gt_zero) = true) := by
      rcases hbad with h | h <;> simp [h]
    simp only [resamplingConvolveX, resamplingConvolveY, if_pos hcond, and_self]
  · rintro ⟨h1, h2, h3⟩ src2 n2 k2
    simp [resamplingConvolveX, resamplingConvolveY, h1, h2, h3]
  · rintro ⟨h1, h2, h3⟩
    have hx : resamplingConvolveX src wnew kernel_for samplingRatio offset =
        (match convolve_lines wnew
            (createResamplingKernels kernel_for
              (MapTargetToSourceCoordinate.new samplingRatio offset)
              (Int.lcm samplingRatio.numerator samplingRatio.denominator))
            (MapTargetToSourceCoordinate.new samplingRatio offset).call
            ((List.range src.height).map src.row) with
          | .error e => .error e
          | .ok rows => .ok ⟨wnew, src.height, fun x y => (rows.getD y []).getD x 0⟩) := by
      simp [resamplingConvolveX, h1, h2, h3]
    have hy : resamplingConvolveY src wnew kernel_for samplingRatio offset =
        (match convolve_lines wnew
            (createResamplingKernels kernel_for
              (MapTargetToSourceCoordinate.new samplingRatio offset)
              (Int.lcm samplingRatio.numerator samplingRatio.denominator))
            (MapTargetToSourceCoordinate.new samplingRatio offset).call
            ((List.range src.width).map src.column) with
          | .error e => .error e
          | .ok columns => .ok ⟨src.width, wnew, fun x y => (columns.getD x []).getD y 0⟩) := by
      simp [resamplingConvolveY, h1, h2, h3]
    refine ⟨hx, hy, ?_, ?_, ?_, ?_⟩
    · rw [hx]
      rcases convolve_lines_outcomes wnew _ _ ((List.range src.height).map src.row) with
        ⟨ds, hd⟩ | hd | hd <;> rw [hd] <;> simp
    · rw [hx]
      rcases convolve_lines_outcomes wnew _ _ ((List.range src.height).map src.row) with
        ⟨ds, hd⟩ | hd | hd <;> rw [hd] <;> simp
    · rw [hy]
      rcases convolve_lines_outcomes wnew _ _ ((List.range src.width).map src.column) with
        ⟨ds, hd⟩ | hd | hd <;> rw [hd] <;> simp
    · rw [hy]
      rcases convolve_lines_outcomes wnew _ _ ((List.range src.width).map src.column) with
        ⟨ds, hd⟩ | hd | hd <;> rw [hd] <;> simp


theorem resamplingConvolveXY_checks_witness :
    resamplingConvolveX Example.image 3 (fun _ => Example.kernel) ⟨1, 0⟩ ⟨0, 1⟩ =
      .error (.precondition
        "resamplingConvolveX(): sampling ratio must be > 0 and < infinity") ∧
    resamplingConvolveY Example.image 3 (fun _ => Example.kernel) ⟨0, 1⟩ ⟨0, 1⟩ =
      .error (.precondition
        "resamplingConvolveY(): sampling ratio must be > 0 and < infinity") ∧
    resamplingConvolveX Example.image 3 (fun _ => Example.kernel) ⟨1, 2⟩ ⟨-1, 0⟩ =
      .error (.precondition "resamplingConvolveX(): offset must be < infinity") ∧
    resamplingConvolveX Example.image 3 (fun _ => Example.kernel) ⟨1, 2⟩ ⟨0, 1⟩ ≠
      .error (.precondition
        "resamplingConvolveX(): sampling ratio must be > 0 and < infinity") :=
  ⟨((resamplingConvolveXY_checks Example.image 3 (fun _ => Example.kernel) ⟨1, 0⟩
      ⟨0, 1⟩).1
      (Or.inl rfl) Example.image 3 (fun _ => Example.kernel)).1,
    ((resamplingConvolveXY_checks Example.image 3 (fun _ => Example.kernel) ⟨0, 1⟩ ⟨0, 1⟩).1
      (Or.inr rfl) Example.image 3 (fun _ => Example.kernel)).2,
    ((resamplingConvolveXY_checks Example.image 3 (fun _ => Example.kernel) ⟨1, 2⟩
      ⟨-1, 0⟩).2.1 ⟨rfl, rfl, rfl⟩ Example.image 3 (fun _ => Example.kernel)).1,
    ((resamplingConvolveXY_checks Example.image 3 (fun _ => Example.kernel) ⟨1, 2⟩
      ⟨0, 1⟩).2.2 ⟨rfl, rfl, rfl⟩).2.2.1⟩


/-! ## In-bag marks accumulate over calls (source lines 170-187) -/

/-- Claim C22.  For every prior state of an `OOBError` visitor and every weight
vector `w`, after `visit_after_tree` the in-bag vector has length `|w|`, and for
every `i < |w|` its entry is `1` exactly when `w[i] > 0` or the entry at `i`
existed before and was `1`.  Hence after a second call with weights `w2` the
entry at `i < |w2|` is `1` exactly when `w2[i] > 0`, or `i < |w|` and `w[i] > 0`
or the original entry was `1`: marks of an earlier call are never reset. -/
theorem OOBError.visit_after_tree_union {W : Type} [Zero W] [LT W]
    [DecidableRel (fun (a b : W) => a < b)] (self : OOBError) (n : Nat) (w : List W) :
    (self.visit_after_tree n w).in_bag_count_.length = w.length ∧
    (∀ i, i < w.length →
      ((self.visit_after_tree n w).in_bag_count_[i]? = some 1 ↔
        positive_at w i = true ∨ self.in_bag_count_[i]? = some 1)) ∧
    (∀ (n2 : Nat) (w2 : List W),
      ((self.visit_after_tree n w).visit_after_tree n2 w2).in_bag_count_.length = w2.length ∧
      ∀ i, i < w2.length →
        (((self.visit_after_tree n w).visit_after_tree n2 w2).in_bag_count_[i]? = some 1 ↔
          positive_at w2 i = true ∨
            (i < w.length ∧ (positive_at w i = true ∨ self.in_bag_count_[i]? = some 1)))) := by
  have hlen : ∀ (o : OOBError) (m : Nat) (u : List W),
      (o.visit_after_tree m u).in_bag_count_.length = u.length := by
    intro o m u
    show (OOBError.mark_in_bag u (List.range u.length)
      (vector_resize o.in_bag_count_ u.length 0)).length = u.length
    rw [mark_in_bag_length, vector_resize_length]
  have hent : ∀ (o : OOBError) (m : Nat) (u : List W) (i : Nat), i < u.length →
      ((o.visit_after_tree m u).in_bag_count_[i]? = some 1 ↔
        positive_at u i = true ∨ o.in_bag_count_[i]? = some 1) := by
    intro o m u i hi
    show (OOBError.mark_in_bag u (List.range u.length)
      (vector_resize o.in_bag_count_ u.length 0))[i]? = some 1 ↔ _
    rw [mark_in_bag_range, vector_resize_length, vector_resize_getElem? _ _ _ _ hi]
    by_cases hp : positive_at u i = true
    · rw [if_pos ⟨hi, hi, hp⟩]
      exact ⟨fun _ => Or.inl hp, fun _ => rfl⟩
    · rw [if_neg (fun h => hp h.2.2)]
      constructor
      · intro h
        right
        cases hx : o.in_bag_count_[i]? with
        | none => rw [hx] at h; simp at h
        | some v => rw [hx] at h; simpa using h
      · intro h
        rcases h with h | h
        · exact absurd h hp
        · rw [h]; rfl
  refine ⟨hlen self n w, hent self n w, fun n2 w2 => ⟨hlen _ n2 w2, fun i hi => ?_⟩⟩
  rw [hent _ n2 w2 i hi]
  constructor
  · intro h
    rcases h with h | h
    · exact Or.inl h
    · have hi1 : i < w.length := by
        have := (List.getElem?_eq_some_iff.mp h).1
        rw [hlen] at this
        exact this
      exact Or.inr ⟨hi1, (hent self n w i hi1).mp h⟩
  · intro h
    rcases h with h | ⟨hi1, h⟩
    · exact Or.inl h
    · exact Or.inr ((hent self n w i hi1).mpr h)

theorem OOBError.visit_after_tree_union_witness :
    (((OOBError.fresh 0).visit_after_tree 3 [(1 : Int), 0, 0]).visit_after_tree 5
        [(0 : Int), 1, 0]).in_bag_count_ = [1, 1, 0] ∧
    ((((OOBError.fresh 0).visit_after_tree 3 [(1 : Int), 0, 0]).visit_after_tree 5
        [(0 : Int), 1, 0]).in_bag_count_[0]? = some 1 ↔
      positive_at [(0 : Int), 1, 0] 0 = true ∨
        (0 < [(1 : Int), 0, 0].length ∧ (positive_at [(1 : Int), 0, 0] 0 = true ∨
          (OOBError.fresh 0).in_bag_count_[0]? = some 1))) :=
  ⟨by decide,
    ((OOBError.visit_after_tree_union (OOBError.fresh 0) 3 [(1 : Int), 0, 0]).2.2 5
      [(0 : Int), 1, 0]).2 0 (by decide)⟩


/-! ## Periodic reuse of the kernels (source lines 89-97, 134-154, 173-178) -/

/-- Adding a multiple of the denominator to a numerator moves the quotient and
its truncation by the same amount. -/
theorem phase_shift (y t c z : Int) (hc : 0 < c) :
    ((y + t * c : Int) : ℚ) / (c : ℚ) - ((z + t : Int) : ℚ) = (y : ℚ) / (c : ℚ) - (z : ℚ) := by
  have hcq : (c : ℚ) ≠ 0 := by exact_mod_cast (ne_of_gt hc)
  push_cast
  field_simp
  ring

/-- Where the source coordinate of target `i mod period` is not negative, the
phase of target `i` is the phase of target `i mod period`, for
`period = lcm(numerator, denominator)` of a positive finite sampling ratio and a
finite offset. -/
theorem MapTargetToSourceCoordinate.phase_periodic (samplingRatio offset : Rational)
    (i : Nat) (hn : 0 < samplingRatio.numerator) (hd : 0 < samplingRatio.denominator)
    (ho : 0 < offset.denominator)
    (hpos : 0 ≤ ((i % Int.lcm samplingRatio.numerator samplingRatio.denominator : Nat) : Int) *
      (MapTargetToSourceCoordinate.new samplingRatio offset).a +
      (MapTargetToSourceCoordinate.new samplingRatio offset).b) :
    (MapTargetToSourceCoordinate.new samplingRatio offset).phase i =
      (MapTargetToSourceCoordinate.new samplingRatio offset).phase
        ((i % Int.lcm samplingRatio.numerator samplingRatio.denominator : Nat) : Int) := by
  obtain ⟨rn, rd⟩ := samplingRatio
  obtain ⟨o_n, od⟩ := offset
  simp only at hn hd ho
  simp only [MapTargetToSourceCoordinate.new] at hpos
  simp only [MapTargetToSourceCoordinate.phase, MapTargetToSourceCoordinate.toDouble,
    MapTargetToSourceCoordinate.call, MapTargetToSourceCoordinate.new]
  generalize hp : Int.lcm rn rd = p at hpos ⊢
  obtain ⟨k, hk⟩ : (rn : Int) ∣ (p : Int) := hp ▸ Int.dvd_lcm_left
  have hk0 : 0 ≤ k := by
    by_contra hneg
    have hneg2 : k < 0 := not_le.mp hneg
    have : rn * k < 0 := mul_neg_of_pos_of_neg hn hneg2
    have hp0 : (0 : Int) ≤ (p : Int) := Int.ofNat_nonneg p
    omega
  have hc : 0 < rn * od := mul_pos hn ho
  obtain ⟨y, hy⟩ : ∃ y : Int, y = ((i % p : Nat) : Int) * (rd * od) + rn * o_n := ⟨_, rfl⟩
  obtain ⟨t, ht⟩ : ∃ t : Int, t = ((i / p : Nat) : Int) * k * rd := ⟨_, rfl⟩
  rw [← hy] at hpos ⊢
  have ht0 : 0 ≤ t := by
    rw [ht]
    exact mul_nonneg (mul_nonneg (Int.ofNat_nonneg _) hk0) (le_of_lt hd)
  have hi : ((i : Nat) : Int) * (rd * od) + rn * o_n = y + t * (rn * od) := by
    have h1 : (i : Int) = ((i % p : Nat) : Int) + (p : Int) * ((i / p : Nat) : Int) := by
      have := Nat.mod_add_div i p
      exact_mod_cast this.symm
    rw [hy, ht]
    conv_lhs => rw [h1, hk]
    ring
  have hcall : Int.tdiv (y + t * (rn * od)) (rn * od) = Int.tdiv y (rn * od) + t := by
    have h2 : 0 ≤ y + t * (rn * od) := add_nonneg hpos (mul_nonneg ht0 (le_of_lt hc))
    rw [Int.tdiv_eq_ediv h2 (le_of_lt hc), Int.tdiv_eq_ediv hpos (le_of_lt hc),
      Int.add_mul_ediv_right _ _ (ne_of_gt hc)]
  rw [hi, hcall]
  exact phase_shift y t (rn * od) _ hc

/-- Claim C21 (the code reuses a kernel of the wrong phase).  For the sampling
ratio `1/1` and the offset `-1/2` the period is `lcm(1, 1) = 1`; target `1` has
the phase `1/2`, target `1 mod 1 = 0` has the phase `-1/2`, because
`operator()` truncates the source coordinate `-1/2` toward zero.  The one
kernel that `createResamplingKernels` builds for linear interpolation has the
taps `1/2, 1/2` at `0, 1`; the kernel of the phase `1/2` has them at `-1, 0`.
`resamplingConvolveX` accepts these arguments and maps the row
`10, 20, 30, 40` to `15, 15, 15, 25`; with the kernel of each target's own
phase the line is `15, 15, 25, 35`, the source interpolated at `i - 1/2`. -/
theorem periodic_kernel_wrong_for_negative_offset :
    Int.lcm (1 : Int) 1 = 1 ∧
    (MapTargetToSourceCoordinate.new ⟨1, 1⟩ ⟨-1, 2⟩).phase 1 = 1 / 2 ∧
    (MapTargetToSourceCoordinate.new ⟨1, 1⟩ ⟨-1, 2⟩).phase ((1 % 1 : Nat) : Int) = -1 / 2 ∧
    (createResamplingKernels Example.linear_kernel
        (MapTargetToSourceCoordinate.new ⟨1, 1⟩ ⟨-1, 2⟩) 1).map
        (fun K => (K.left, K.right, K.coeff 0, K.coeff 1)) = [(0, 1, 1 / 2, 1 / 2)] ∧
    ((Example.linear_kernel (1 / 2)).left, (Example.linear_kernel (1 / 2)).right,
      (Example.linear_kernel (1 / 2)).coeff (-1), (Example.linear_kernel (1 / 2)).coeff 0) =
        (-1, 0, 1 / 2, 1 / 2) ∧
    (resamplingConvolveX Example.ramp 4 Example.linear_kernel ⟨1, 1⟩ ⟨-1, 2⟩).map
        (fun im => im.row 0) = .ok [15, 15, 15, 25] ∧
    resamplingConvolveLine (Example.ramp.row 0) 4
        (createResamplingKernels Example.linear_kernel
          (MapTargetToSourceCoordinate.new ⟨1, 1⟩ ⟨-1, 2⟩) 4)
        (MapTargetToSourceCoordinate.new ⟨1, 1⟩ ⟨-1, 2⟩).call = .ok [15, 15, 25, 35] := by
  refine ⟨by decide, ?_, ?_, ?_, ?_, ?_, ?_⟩
  · have h : Int.tdiv 1 2 = 0 := rfl
    norm_num [MapTargetToSourceCoordinate.phase, MapTargetToSourceCoordinate.toDouble,
      MapTargetToSourceCoordinate.call, MapTargetToSourceCoordinate.new, h]
  · have h : Int.tdiv 1 2 = 0 := rfl
    norm_num [MapTargetToSourceCoordinate.phase, MapTargetToSourceCoordinate.toDouble,
      MapTargetToSourceCoordinate.call, MapTargetToSourceCoordinate.new, h]
  · with_unfolding_all rfl
  · with_unfolding_all rfl
  · with_unfolding_all rfl
  · with_unfolding_all rfl

theorem MapTargetToSourceCoordinate.phase_periodic_example :
    (MapTargetToSourceCoordinate.new ⟨1, 2⟩ ⟨1, 3⟩).phase 5 =
      (MapTargetToSourceCoordinate.new ⟨1, 2⟩ ⟨1, 3⟩).phase ((5 % Int.lcm 1 2 : Nat) : Int) :=
  MapTargetToSourceCoordinate.phase_periodic ⟨1, 2⟩ ⟨1, 3⟩ 5 (by decide) (by decide)
    (by decide) (by decide)


/-! ## The two passes of `resamplingConvolveImage` (source lines 251-273) -/

/-- A list read back entry by entry over its own length. -/
theorem range_map_getD {R : Type} [Zero R] (l : List R) (n : Nat) (hn : l.length = n) :
    (List.range n).map (fun x => l.getD x 0) = l := by
  subst hn
  apply List.ext_getElem?
  intro i
  by_cases hi : i < l.length
  · rw [List.getElem?_map, List.getElem?_range hi, List.getElem?_eq_getElem hi]
    simp only [Option.map_some', List.getD_eq_getElem?_getD, List.getElem?_eq_getElem hi,
      Option.getD_some]
  · rw [List.getElem?_eq_none (by simpa using hi), List.getElem?_eq_none (by simpa using hi)]

section image
variable {R : Type} [Add R] [Mul R] [Zero R]

/-- A line loop that completes has written one value per iteration. -/
theorem line_loop_length (src : List R) (kernels : List (Kernel1D R)) (f : Int → Int) :
    ∀ (count : Nat) (i : Int) (kv : Nat) (dest : List R),
      resamplingConvolveLine_loop src kernels f count i kv = .ok dest → dest.length = count
  | 0, _, _, dest, h => by
    simp only [resamplingConvolveLine_loop, Except.ok.injEq] at h
    rw [← h]
    rfl
  | count + 1, i, kv, dest, h => by
    simp only [resamplingConvolveLine_loop] at h
    split at h
    · exact absurd h (by simp)
    · split at h
      · exact absurd h (by simp)
      · split at h
        · exact absurd h (by simp)
        · rename_i rest hrest
          simp only [Except.ok.injEq] at h
          rw [← h, List.length_cons, line_loop_length src kernels f count _ _ rest hrest]

/-- The loop over the lines, when it completes, has produced for every line, in
order, the result of `resamplingConvolveLine` on that line. -/
theorem convolve_lines_ok (wn : Nat) (kernels : List (Kernel1D R)) (f : Int → Int) :
    ∀ (lines ds : List (List R)), convolve_lines wn kernels f lines = .ok ds →
      ds.length = lines.length ∧
      ∀ (r : Nat) (line : List R), lines[r]? = some line →
        ∃ d, ds[r]? = some d ∧ d.length = wn ∧ resamplingConvolveLine line wn kernels f = .ok d
  | [], ds, h => by
    simp only [convolve_lines, Except.ok.injEq] at h
    subst h
    exact ⟨rfl, fun r line hr => by simp at hr⟩
  | l :: rest, ds, h => by
    simp only [convolve_lines] at h
    split at h
    · exact absurd h (by simp)
    · rename_i d hd
      split at h
      · exact absurd h (by simp)
      · rename_i ds2 hds2
        simp only [Except.ok.injEq] at h
        subst h
        obtain ⟨hlen, hrows⟩ := convolve_lines_ok wn kernels f rest ds2 hds2
        refine ⟨by rw [List.length_cons, List.length_cons, hlen], fun r line hr => ?_⟩
        cases r with
        | zero =>
          simp only [List.getElem?_cons_zero, Option.some.injEq] at hr
          subst hr
          exact ⟨d, List.getElem?_cons_zero, line_loop_length _ _ _ _ _ _ _ hd, hd⟩
        | succ r =>
          simp only [List.getElem?_cons_succ] at hr ⊢
          exact hrows r line hr

/-- A completed X pass: the result has `wnew` columns and the rows of the
source, and its row `r` is `resamplingConvolveLine` of source row `r`. -/
theorem resamplingConvolveX_ok (src : Image R) (wnew : Nat) (kernel_for : ℚ → Kernel1D R)
    (samplingRatio offset : Rational) (tmp : Image R)
    (h : resamplingConvolveX src wnew kernel_for samplingRatio offset = .ok tmp) :
    tmp.width = wnew ∧ tmp.height = src.height ∧
    ∀ r, r < src.height →
      resamplingConvolveLine (src.row r) wnew
        (createResamplingKernels kernel_for
          (MapTargetToSourceCoordinate.new samplingRatio offset)
          (Int.lcm samplingRatio.numerator samplingRatio.denominator))
        (MapTargetToSourceCoordinate.new samplingRatio offset).call = .ok (tmp.row r) := by
  unfold resamplingConvolveX at h
  split at h
  · exact absurd h (by simp)
  · split at h
    · exact absurd h (by simp)
    · simp only at h
      split at h
      · exact absurd h (by simp)
      · rename_i rows hrows
        simp only [Except.ok.injEq] at h
        subst h
        refine ⟨rfl, rfl, fun r hr => ?_⟩
        obtain ⟨_, hall⟩ := convolve_lines_ok _ _ _ _ _ hrows
        obtain ⟨d, hd, hlen, hline⟩ := hall r (src.row r)
          (by rw [List.getElem?_map, List.getElem?_range hr]; rfl)
        rw [hline]
        congr 1
        show d = (List.range wnew).map (fun x => (rows.getD r []).getD x 0)
        rw [List.getD_eq_getElem?_getD, hd, Option.getD_some, range_map_getD d wnew hlen]

/-- A completed Y pass: the result has the columns of the source and `hnew`
rows, and its column `x` is `resamplingConvolveLine` of source column `x`. -/
theorem resamplingConvolveY_ok (src : Image R) (hnew : Nat) (kernel_for : ℚ → Kernel1D R)
    (samplingRatio offset : Rational) (dest : Image R)
    (h : resamplingConvolveY src hnew kernel_for samplingRatio offset = .ok dest) :
    dest.width = src.width ∧ dest.height = hnew ∧
    ∀ x, x < src.width →
      resamplingConvolveLine (src.column x) hnew
        (createResamplingKernels kernel_for
          (MapTargetToSourceCoordinate.new samplingRatio offset)
          (Int.lcm samplingRatio.numerator samplingRatio.denominator))
        (MapTargetToSourceCoordinate.new samplingRatio offset).call = .ok (dest.column x) := by
  unfold resamplingConvolveY at h
  split at h
  · exact absurd h (by simp)
  · split at h
    · exact absurd h (by simp)
    · simp only at h
      split at h
      · exact absurd h (by simp)
      · rename_i columns hcolumns
        simp only [Except.ok.injEq] at h
        subst h
        refine ⟨rfl, rfl, fun x hx => ?_⟩
        obtain ⟨_, hall⟩ := convolve_lines_ok _ _ _ _ _ hcolumns
        obtain ⟨d, hd, hlen, hline⟩ := hall x (src.column x)
          (by rw [List.getElem?_map, List.getElem?_range hx]; rfl)
        rw [hline]
        congr 1
        show d = (List.range hnew).map (fun y => (columns.getD x []).getD y 0)
        rw [List.getD_eq_getElem?_getD, hd, Option.getD_some, range_map_getD d hnew hlen]

end image


section image_claim
variable {R : Type} [Add R] [Mul R] [Zero R]

/-- Claim C24.  `resamplingConvolveImage` is the X pass followed by the Y pass
on the intermediate image.  When the X pass completes, the intermediate image
has the destination's width and the source's height, its row `r` is
`resamplingConvolveLine` of source row `r` with the kernels of `kx`,
`samplingRatioX`, `offsetX`, and it is the same row for every source image with
the same row `r`.  When the Y pass completes, the destination has the width of
the intermediate image and the height `hnew`, its column `x` is
`resamplingConvolveLine` of intermediate column `x` with the kernels of `ky`,
`samplingRatioY`, `offsetY`, and it is the same column for every intermediate
image with the same column `x`. -/
theorem resamplingConvolveImage_two_passes (src : Image R) (wnew hnew : Nat)
    (kx : ℚ → Kernel1D R) (samplingRatioX offsetX : Rational)
    (ky : ℚ → Kernel1D R) (samplingRatioY offsetY : Rational) :
    (resamplingConvolveImage src wnew hnew kx samplingRatioX offsetX ky samplingRatioY
        offsetY =
      match resamplingConvolveX src wnew kx samplingRatioX offsetX with
      | .error e => .error e
      | .ok tmp => resamplingConvolveY tmp hnew ky samplingRatioY offsetY) ∧
    ∀ tmp, resamplingConvolveX src wnew kx samplingRatioX offsetX = .ok tmp →
      tmp.width = wnew ∧ tmp.height = src.height ∧
      (∀ r, r < src.height →
        resamplingConvolveLine (src.row r) wnew
          (createResamplingKernels kx
            (MapTargetToSourceCoordinate.new samplingRatioX offsetX)
            (Int.lcm samplingRatioX.numerator samplingRatioX.denominator))
          (MapTargetToSourceCoordinate.new samplingRatioX offsetX).call = .ok (tmp.row r)) ∧
      (∀ src2 tmp2, resamplingConvolveX src2 wnew kx samplingRatioX offsetX = .ok tmp2 →
        ∀ r, r < src.height → r < src2.height → src2.row r = src.row r →
          tmp2.row r = tmp.row r) ∧
      ∀ dest, resamplingConvolveY tmp hnew ky samplingRatioY offsetY = .ok dest →
        resamplingConvolveImage src wnew hnew kx samplingRatioX offsetX ky samplingRatioY
          offsetY = .ok dest ∧
        dest.width = wnew ∧ dest.height = hnew ∧
        (∀ x, x < wnew →
          resamplingConvolveLine (tmp.column x) hnew
            (createResamplingKernels ky
              (MapTargetToSourceCoordinate.new samplingRatioY offsetY)
              (Int.lcm samplingRatioY.numerator samplingRatioY.denominator))
            (MapTargetToSourceCoordinate.new samplingRatioY offsetY).call =
              .ok (dest.column x)) ∧
        ∀ tmp2 dest2, resamplingConvolveY tmp2 hnew ky samplingRatioY offsetY = .ok dest2 →
          ∀ x, x < tmp.width → x < tmp2.width → tmp2.column x = tmp.column x →
            dest2.column x = dest.column x := by
  refine ⟨rfl, fun tmp htmp => ?_⟩
  obtain ⟨hw, hh, hrows⟩ := resamplingConvolveX_ok src wnew kx samplingRatioX offsetX tmp htmp
  refine ⟨hw, hh, hrows, ?_, fun dest hdest => ?_⟩
  · intro src2 tmp2 htmp2 r hr hr2 hsame
    obtain ⟨_, _, hrows2⟩ :=
      resamplingConvolveX_ok src2 wnew kx samplingRatioX offsetX tmp2 htmp2
    have h1 := hrows r hr
    have h2 := hrows2 r hr2
    rw [hsame, h1] at h2
    exact (Except.ok.inj h2).symm
  · obtain ⟨hdw, hdh, hcols⟩ :=
      resamplingConvolveY_ok tmp hnew ky samplingRatioY offsetY dest hdest
    refine ⟨?_, hdw.trans hw, hdh, fun x hx => hcols x (hw ▸ hx), ?_⟩
    · unfold resamplingConvolveImage
      rw [htmp]
      exact hdest
    · intro tmp2 dest2 hdest2 x hx hx2 hsame
      obtain ⟨_, _, hcols2⟩ :=
        resamplingConvolveY_ok tmp2 hnew ky samplingRatioY offsetY dest2 hdest2
      have h1 := hcols x hx
      have h2 := hcols2 x hx2
      rw [hsame, h1] at h2
      exact (Except.ok.inj h2).symm

end image_claim

theorem resamplingConvolveImage_two_passes_witness :
    ∃ tmp dest : Image Int,
      resamplingConvolveX Example.image 3 (fun _ => Example.kernel) ⟨1, 2⟩ ⟨0, 1⟩ = .ok tmp ∧
      resamplingConvolveY tmp 3 (fun _ => Example.kernel2) ⟨1, 1⟩ ⟨0, 1⟩ = .ok dest ∧
      (List.range 2).map tmp.row = [[2, 8, 14], [42, 48, 54]] ∧
      (List.range 3).map dest.row = [[44, 56, 68], [44, 56, 68], [44, 56, 68]] ∧
      resamplingConvolveImage Example.image 3 3 (fun _ => Example.kernel) ⟨1, 2⟩ ⟨0, 1⟩
        (fun _ => Example.kernel2) ⟨1, 1⟩ ⟨0, 1⟩ = .ok dest ∧
      dest.width = 3 ∧ dest.height = 3 :=
  ⟨_, _, rfl, rfl, rfl, rfl,
    ((((resamplingConvolveImage_two_passes Example.image 3 3 (fun _ => Example.kernel)
      ⟨1, 2⟩ ⟨0, 1⟩ (fun _ => Example.kernel2) ⟨1, 1⟩ ⟨0, 1⟩).2 _ rfl).2.2.2.2 _ rfl).1),
    rfl, rfl⟩


/-! ## What `visit_after_training` leaves in the caller's vector (source lines 268-294) -/

section heads
variable {ι δ : Type} {T : ArgTypes}

theorem list_get?_append_length {α : Type} (pre : List α) (x : α) (rest : List α) :
    (pre ++ x :: rest).get? pre.length = some x := by
  induction pre with
  | nil => rfl
  | cons a pre ih => simpa using ih

theorem list_set_append_length {α : Type} (pre : List α) (x y : α) (rest : List α) :
    (pre ++ x :: rest).set pre.length y = pre ++ y :: rest := by
  induction pre with
  | nil => rfl
  | cons a pre ih => simp only [List.cons_append, List.length_cons, List.set_cons_succ, ih]

theorem Frame.store_cons (f : Frame ι δ) (mem : Mem δ) (p : Ptr) (ps : List Ptr) :
    f.store mem (p :: ps) =
      Frame.store (match mem p with
        | some o => f.write p o
        | none => f) mem ps := rfl

/-- Storing back at the pointers collected from the vector rewrites exactly the
first visitors held by value. -/
theorem Frame.store_heads (mem : Mem δ) :
    ∀ (rest pre : List (Chain ι δ)) (f : Frame ι δ), f.v = pre ++ rest →
      (f.store mem (collect_visitors pre.length rest)).v =
        pre ++ updated_heads mem pre.length rest
  | [], pre, f, hf => by
    simp only [collect_visitors, updated_heads, List.append_nil] at hf ⊢
    exact hf
  | x :: rest, pre, f, hf => by
    have next : ∀ (g : Frame ι δ) (y : Chain ι δ), g.v = pre ++ y :: rest →
        (g.store mem (collect_visitors (pre.length + 1) rest)).v =
          pre ++ y :: updated_heads mem (pre.length + 1) rest := by
      intro g y hg
      have ih := Frame.store_heads mem rest (pre ++ [y]) g (by simp [hg])
      simpa only [List.length_append, List.length_singleton, List.append_assoc,
        List.singleton_append] using ih
    rw [collect_visitors, Frame.store_cons]
    cases x with
    | RFStopVisiting self =>
      have hw : ∀ o, f.write (.elem pre.length) o = f := by
        intro o
        simp only [Frame.write, hf, list_get?_append_length]
      simp only [Chain.visitor_ptr, updated_heads]
      cases mem (.elem pre.length) with
      | none => exact next f _ hf
      | some o =>
        simp only [hw]
        exact next f _ hf
    | RFVisitorNode W s m =>
      cases s with
      | ref a =>
        simp only [Chain.visitor_ptr, updated_heads]
        cases mem (.heap a) with
        | none => exact next f _ hf
        | some o => exact next _ _ hf
      | val o =>
        simp only [Chain.visitor_ptr, updated_heads]
        cases mem (.elem pre.length) with
        | none => exact next f _ hf
        | some o2 =>
          refine next _ _ ?_
          simp only [Frame.write, hf, list_get?_append_length, list_set_append_length,
            Option.getD_some]

/-- Entry `t` of the vector after the store: a first visitor held by value is
replaced by what the body left at the pointer to it, every other element is
the same. -/
theorem updated_heads_getElem? (mem : Mem δ) :
    ∀ (v : List (Chain ι δ)) (k t : Nat) (W : ι) (o : Visitor δ) (m : Chain ι δ),
      v[t]? = some (.RFVisitorNode W (.val o) m) →
      (updated_heads mem k v)[t]? =
        some (.RFVisitorNode W (.val ((mem (.elem (k + t))).getD o)) m)
  | [], _, _, _, _, _, h => by simp at h
  | x :: v, k, 0, W, o, m, h => by
    simp only [List.getElem?_cons_zero, Option.some.injEq] at h
    subst h
    simp only [updated_heads, List.getElem?_cons_zero, Nat.add_zero]
  | x :: v, k, t + 1, W, o, m, h => by
    simp only [List.getElem?_cons_succ] at h
    have ih := updated_heads_getElem? mem v (k + 1) t W o m h
    have e : k + 1 + t = k + (t + 1) := by omega
    rw [e] at ih
    cases x with
    | RFStopVisiting self => simpa only [updated_heads, List.getElem?_cons_succ] using ih
    | RFVisitorNode W2 s m2 =>
      cases s with
      | ref a => simpa only [updated_heads, List.getElem?_cons_succ] using ih
      | val o2 => simpa only [updated_heads, List.getElem?_cons_succ] using ih

theorem updated_heads_length (mem : Mem δ) :
    ∀ (v : List (Chain ι δ)) (k : Nat), (updated_heads mem k v).length = v.length
  | [], _ => rfl
  | .RFStopVisiting _ :: v, k => by
    simp only [updated_heads, List.length_cons, updated_heads_length mem v]
  | .RFVisitorNode _ (.ref _) _ :: v, k => by
    simp only [updated_heads, List.length_cons, updated_heads_length mem v]
  | .RFVisitorNode _ (.val _) _ :: v, k => by
    simp only [updated_heads, List.length_cons, updated_heads_length mem v]

theorem updated_heads_nexts (mem : Mem δ) :
    ∀ (v : List (Chain ι δ)) (k : Nat),
      (updated_heads mem k v).map Chain.next_ = v.map Chain.next_
  | [], _ => rfl
  | .RFStopVisiting _ :: v, k => by
    simp only [updated_heads, List.map_cons, updated_heads_nexts mem v]
  | .RFVisitorNode _ (.ref _) _ :: v, k => by
    simp only [updated_heads, List.map_cons, updated_heads_nexts mem v]
  | .RFVisitorNode _ (.val _) _ :: v, k => by
    simp only [updated_heads, List.map_cons, updated_heads_nexts mem v, Chain.next_]

/-- Writing at the address of the dispatching node's own visitor leaves the
vector as it is. -/
theorem Frame.write_this_v (f : Frame ι δ) (s : Storage (Visitor δ)) (o : Visitor δ) :
    (f.write s.this o).v = f.v := by
  cases s with
  | ref a => rfl
  | val o2 =>
    simp only [Storage.this, Frame.write]
    split <;> rfl

/-- The vector after the call of the first visitor's hook. -/
theorem Frame.store_this_heads (s : Storage (Visitor δ)) (v : List (Chain ι δ))
    (h : Heap δ) (mem : Mem δ) :
    ((⟨s, v, h⟩ : Frame ι δ).store mem (s.this :: collect_visitors 0 v)).v =
      updated_heads mem 0 v := by
  rw [Frame.store_cons]
  have key : ∀ g : Frame ι δ, g.v = v →
      (g.store mem (collect_visitors 0 v)).v = updated_heads mem 0 v := by
    intro g hg
    exact Frame.store_heads mem v [] g hg
  cases mem s.this with
  | none => exact key _ rfl
  | some o => exact key _ (Frame.write_this_v _ s o)

/-- With copies of the chain in the vector, `visit_after_training` returns. -/
theorem join_exists (B : Visitors ι δ T) (rf : T.RF) (features : T.FEATURES)
    (labels : T.LABELS) (c : Chain ι δ) :
    ∀ (v : List (Chain ι δ)) (h : Heap δ), (∀ x ∈ v, x.Mirrors c) →
      ∃ r, RFVisitorNode.visit_after_training B rf features labels c v h = some r := by
  induction c with
  | RFStopVisiting self => exact fun v h _ => ⟨_, rfl⟩
  | RFVisitorNode V s n ih =>
    intro v h hm
    have hall : v.all Chain.isNode = true := by
      rw [List.all_eq_true]
      intro x hx
      exact (hm x hx).isNode
    have hm2 : ∀ y ∈ collect_nexts v, y.Mirrors n := by
      intro y hy
      obtain ⟨x, hx, rfl⟩ := List.mem_map.mp hy
      exact (hm x hx).next
    rw [RFVisitorNode.visit_after_training, if_pos hall]
    simp only []
    by_cases ha : (s.get h).is_active = true
    · simp only [ha, if_true, Frame.store_nexts]
      obtain ⟨r, hr⟩ := ih (collect_nexts v)
        (((⟨s, v, h⟩ : Frame ι δ).store
          (B.visit_after_training V s.this (collect_visitors 0 v) rf features labels
            (⟨s, v, h⟩ : Frame ι δ).read) (s.this :: collect_visitors 0 v)).heap) hm2
      rw [hr]
      exact ⟨_, rfl⟩
    · simp only [ha]
      obtain ⟨r, hr⟩ := ih (collect_nexts v) h hm2
      simp only [Bool.false_eq_true, if_false, hr]
      exact ⟨_, rfl⟩

/-- The vector a completed `visit_after_training` of a node hands back is the
one its own visitor's hook left: what the rest of the chain does to its copies
of the `next_` members does not reach it. -/
theorem join_v (B : Visitors ι δ T) (rf : T.RF) (features : T.FEATURES)
    (labels : T.LABELS) (V : ι) (s : Storage (Visitor δ)) (n : Chain ι δ)
    (v : List (Chain ι δ)) (h : Heap δ) (r : Joined ι δ)
    (hr : RFVisitorNode.visit_after_training B rf features labels (.RFVisitorNode V s n) v h =
      some r) :
    r.v = if (s.get h).is_active = true then
        updated_heads (B.visit_after_training V s.this (collect_visitors 0 v) rf features
          labels (⟨s, v, h⟩ : Frame ι δ).read) 0 v
      else v := by
  rw [RFVisitorNode.visit_after_training] at hr
  split at hr
  · simp only [] at hr
    split at hr
    · exact absurd hr (by simp)
    · rename_i r2 hr2
      simp only [Option.some.injEq] at hr
      rw [← hr]
      simp only []
      by_cases ha : (s.get h).is_active = true
      · simp only [ha, if_true, Frame.store_this_heads]
      · simp only [ha, Bool.false_eq_true, if_false]
  · exact absurd hr (by simp)

end heads


section heads_claim
variable {ι δ : Type} {T : ArgTypes}

/-- The pointers collected from a vector whose elements hold their first
visitor by value all point into the vector. -/
theorem collect_visitors_owned :
    ∀ (v : List (Chain ι δ)) (k : Nat), (∀ x ∈ v, x.refs = []) →
      collect_visitors k v = (List.range' k v.length).map Ptr.elem
  | [], _, _ => rfl
  | x :: v, k, hv => by
    have ih := collect_visitors_owned v (k + 1) (fun y hy => hv y (List.mem_cons_of_mem _ hy))
    have hx := hv x (List.mem_cons_self _ _)
    rw [collect_visitors, ih, List.length_cons, List.range'_succ, List.map_cons]
    congr 1
    cases x with
    | RFStopVisiting self => rfl
    | RFVisitorNode W s m =>
      cases s with
      | ref a => simp [Chain.refs] at hx
      | val o => rfl

/-- A completed `visit_after_training` of a node has run the rest of the chain
on the list of the copied `next_` members. -/
theorem join_rest (B : Visitors ι δ T) (rf : T.RF) (features : T.FEATURES)
    (labels : T.LABELS) (V : ι) (s : Storage (Visitor δ)) (n : Chain ι δ)
    (v : List (Chain ι δ)) (h : Heap δ) (r : Joined ι δ)
    (hr : RFVisitorNode.visit_after_training B rf features labels (.RFVisitorNode V s n) v h =
      some r) :
    ∃ h1 r1, RFVisitorNode.visit_after_training B rf features labels n (v.map Chain.next_) h1 =
        some r1 ∧
      r.chain.next_ = r1.chain ∧ r.heap = r1.heap ∧ ∃ first, r.calls = first ++ r1.calls := by
  rw [RFVisitorNode.visit_after_training] at hr
  split at hr
  · simp only [] at hr
    split at hr
    · exact absurd hr (by simp)
    · rename_i r2 hr2
      simp only [Option.some.injEq] at hr
      have e : ∀ f : Frame ι δ, collect_nexts (if (s.get h).is_active = true then
          f.store (B.visit_after_training V s.this (collect_visitors 0 v) rf features labels
            f.read) (s.this :: collect_visitors 0 v) else f).v = collect_nexts f.v := by
        intro f
        split
        · exact Frame.store_nexts _ _ _
        · rfl
      rw [e] at hr2
      refine ⟨_, r2, hr2, ?_, ?_, ?_⟩
      · rw [← hr]; rfl
      · rw [← hr]
      · rw [← hr]
        exact ⟨_, rfl⟩
  · exact absurd hr (by simp)

/-- Claim C23.  Let every element of the list be a per-tree copy of the chain
that holds all its visitors by value.  Then the pointers handed to the first
slot's visitor point at the elements of the caller's list, the call returns,
and the list it leaves is, when the first visitor is active, the original list
with each element's first visitor replaced by what the first visitor's hook
left at the pointer to it (the original list when it is inactive).  The rest
of the chain ran on the list of the copied `next_` members: the list has its
length and order, every `next_` member is unchanged, and the list is the same
for every other choice of the hook bodies of the other classes. -/
theorem after_training_first_slot_shared (B : Visitors ι δ T) (rf : T.RF)
    (features : T.FEATURES) (labels : T.LABELS) (V : ι) (s : Storage (Visitor δ))
    (n : Chain ι δ) (copies : List (Chain ι δ)) (h : Heap δ)
    (hm : ∀ x ∈ copies, x.Mirrors (.RFVisitorNode V s n))
    (hcpy : ∀ x ∈ copies, x.refs = []) :
    collect_visitors 0 copies = (List.range copies.length).map Ptr.elem ∧
    ∃ r, RFVisitorNode.visit_after_training B rf features labels (.RFVisitorNode V s n)
        copies h = some r ∧
      (r.v = if (s.get h).is_active = true then
          updated_heads (B.visit_after_training V s.this (collect_visitors 0 copies) rf
            features labels (⟨s, copies, h⟩ : Frame ι δ).read) 0 copies
        else copies) ∧
      r.v.length = copies.length ∧
      r.v.map Chain.next_ = copies.map Chain.next_ ∧
      (∀ (t : Nat) (W : ι) (o : Visitor δ) (m : Chain ι δ),
        copies[t]? = some (.RFVisitorNode W (.val o) m) →
        r.v[t]? = some (.RFVisitorNode W
          (.val (if (s.get h).is_active = true then
            ((B.visit_after_training V s.this (collect_visitors 0 copies) rf features labels
              (⟨s, copies, h⟩ : Frame ι δ).read) (.elem t)).getD o
            else o)) m)) ∧
      (∃ h1 r1, RFVisitorNode.visit_after_training B rf features labels n
          (copies.map Chain.next_) h1 = some r1 ∧
        r.chain.next_ = r1.chain ∧ r.heap = r1.heap ∧ ∃ first, r.calls = first ++ r1.calls) ∧
      ∀ B2 : Visitors ι δ T, B2.visit_after_training V = B.visit_after_training V →
        ∃ r2, RFVisitorNode.visit_after_training B2 rf features labels (.RFVisitorNode V s n)
          copies h = some r2 ∧ r2.v = r.v := by
  refine ⟨?_, ?_⟩
  · rw [collect_visitors_owned copies 0 hcpy, List.range_eq_range']
  obtain ⟨r, hr⟩ := join_exists B rf features labels (.RFVisitorNode V s n) copies h hm
  have hv := join_v B rf features labels V s n copies h r hr
  refine ⟨r, hr, hv, ?_, ?_, ?_, join_rest B rf features labels V s n copies h r hr, ?_⟩
  · rw [hv]
    split
    · exact updated_heads_length _ _ _
    · rfl
  · rw [hv]
    split
    · exact updated_heads_nexts _ _ _
    · rfl
  · intro t W o m ht
    rw [hv]
    split
    · have := updated_heads_getElem? (B.visit_after_training V s.this
        (collect_visitors 0 copies) rf features labels (⟨s, copies, h⟩ : Frame ι δ).read)
        copies 0 t W o m ht
      rw [Nat.zero_add] at this
      exact this
    · exact ht
  · intro B2 hB2
    obtain ⟨r2, hr2⟩ := join_exists B2 rf features labels (.RFVisitorNode V s n) copies h hm
    refine ⟨r2, hr2, ?_⟩
    rw [hv, join_v B2 rf features labels V s n copies h r2 hr2, hB2]

end heads_claim

theorem Example.owned_copies_mirror :
    ∀ x ∈ Example.owned_copies,
      x.Mirrors (.RFVisitorNode 0 (.ref 0) (RFVisitorNode.mk1 1 1)) := by
  intro x hx
  simp only [Example.owned_copies, List.mem_cons, List.mem_singleton, List.not_mem_nil,
    or_false] at hx
  rcases hx with rfl | rfl
  · simp [RFVisitorNode.mk1, Chain.Mirrors]
  · simp [RFVisitorNode.mk1, Chain.Mirrors]

theorem Example.owned_copies_refs : ∀ x ∈ Example.owned_copies, x.refs = [] := by
  intro x hx
  simp only [Example.owned_copies, List.mem_cons, List.mem_singleton, List.not_mem_nil,
    or_false] at hx
  rcases hx with rfl | rfl
  · rfl
  · rfl

theorem after_training_first_slot_shared_witness :
    (∃ r, RFVisitorNode.visit_after_training Example.counting 3 () ()
        (.RFVisitorNode 0 (.ref 0) (RFVisitorNode.mk1 1 1)) Example.owned_copies
        Example.heap = some r ∧
      r.v =
        [.RFVisitorNode 0 (.val { active_ := true, derived := 12 })
            (.RFVisitorNode 1 (.val { active_ := true, derived := 50 })
              (.RFStopVisiting RFVisitorBase.new)),
          .RFVisitorNode 0 (.val { active_ := true, derived := 13 })
            (.RFVisitorNode 1 (.val { active_ := true, derived := 60 })
              (.RFStopVisiting RFVisitorBase.new))]) ∧
    collect_visitors 0 Example.owned_copies =
      (List.range Example.owned_copies.length).map Ptr.elem :=
  ⟨⟨_, rfl, rfl⟩,
    (after_training_first_slot_shared Example.counting 3 () () 0 (.ref 0)
      (RFVisitorNode.mk1 1 1) Example.owned_copies Example.heap Example.owned_copies_mirror
      Example.owned_copies_refs).1⟩


/-! ## The state after `visit_after_training` of the chain -/

section join_state
variable {ι δ : Type} {T : ArgTypes}

theorem Chain.refs_before_subset (c : Chain ι δ) :
    ∀ (k : Nat) (b : Nat), b ∈ c.refs_before k → b ∈ c.refs := by
  induction c with
  | RFStopVisiting self =>
    intro k b hb
    cases k <;> simp [Chain.refs_before] at hb
  | RFVisitorNode V s n ih =>
    intro k b hb
    cases k with
    | zero => simp [Chain.refs_before] at hb
    | succ k =>
      cases s with
      | ref a =>
        simp only [Chain.refs_before, List.mem_cons] at hb
        rcases hb with rfl | hb
        · simp [Chain.refs]
        · simp [Chain.refs, ih k b hb]
      | val o =>
        simp only [Chain.refs_before] at hb
        simpa [Chain.refs] using ih k b hb

theorem Chain.heap_at_zero (c : Chain ι δ) (h0 h1 : Heap δ) : c.heap_at 0 h0 h1 = h0 := by
  funext b
  cases c <;> simp [Chain.heap_at, Chain.refs_before]

/-- A slot that refers to an address contributes it to the references. -/
theorem Chain.mem_refs_of_slot (c : Chain ι δ) :
    ∀ (k : Nat) (V : ι) (a : Nat), c.slots[k]? = some (V, Storage.ref a) → a ∈ c.refs := by
  induction c with
  | RFStopVisiting self =>
    intro k V a hk
    simp [Chain.slots] at hk
  | RFVisitorNode W s n ih =>
    intro k V a hk
    cases k with
    | zero =>
      simp only [Chain.slots, List.getElem?_cons_zero, Option.some.injEq,
        Prod.mk.injEq] at hk
      obtain ⟨_, rfl⟩ := hk
      simp [Chain.refs]
    | succ k =>
      simp only [Chain.slots, List.getElem?_cons_succ] at hk
      have := ih k V a hk
      cases s with
      | ref a2 => simp [Chain.refs, this]
      | val o => simpa [Chain.refs] using this

theorem collect_visitors_no_member (v : List (Chain ι δ)) (t : Nat) :
    Ptr.member ∉ collect_visitors t v := by
  induction v generalizing t with
  | nil => simp [collect_visitors]
  | cons x v ih =>
    simp only [collect_visitors, List.mem_cons, not_or]
    refine ⟨?_, ih _⟩
    cases x with
    | RFStopVisiting self => simp [Chain.visitor_ptr]
    | RFVisitorNode V s n =>
      cases s <;> simp [Chain.visitor_ptr]

theorem Frame.write_visitor_other (f : Frame ι δ) (p : Ptr) (o : Visitor δ)
    (hp : p ≠ .member) : (f.write p o).visitor_ = f.visitor_ := by
  cases p with
  | heap a => rfl
  | elem t =>
    simp only [Frame.write]
    split <;> rfl
  | member => exact absurd rfl hp

theorem Frame.store_visitor_other (f : Frame ι δ) (mem : Mem δ) (ps : List Ptr)
    (hps : Ptr.member ∉ ps) : (f.store mem ps).visitor_ = f.visitor_ := by
  unfold Frame.store
  induction ps generalizing f with
  | nil => rfl
  | cons p ps ih =>
    have h2 : Ptr.member ≠ p ∧ Ptr.member ∉ ps := by simpa using hps
    rw [List.foldl_cons, ih _ h2.2]
    cases mem p with
    | none => rfl
    | some o => exact Frame.write_visitor_other f p o (fun e => h2.1 e.symm)

/-- The heap object at `a` after storing back: what the body left there, when
a pointer to it was among those handed over. -/
theorem Frame.store_heap_at (f : Frame ι δ) (mem : Mem δ) (ps : List Ptr) (a : Nat) :
    (f.store mem ps).heap a =
      if Ptr.heap a ∈ ps then (mem (.heap a)).getD (f.heap a) else f.heap a := by
  unfold Frame.store
  induction ps generalizing f with
  | nil => simp
  | cons p ps ih =>
    rw [List.foldl_cons, ih]
    by_cases hp : p = Ptr.heap a
    · subst hp
      cases hm : mem (Ptr.heap a) with
      | none => simp
      | some o => simp [Frame.write]
    · have hother : ∀ o, (f.write p o).heap a = f.heap a :=
        fun o => Frame.write_heap_other f p o a hp
      have hmem : (Ptr.heap a ∈ p :: ps) ↔ Ptr.heap a ∈ ps := by
        simp [List.mem_cons, Ne.symm hp]
      cases hm : mem p with
      | none => simp only [hmem]
      | some o => simp only [hmem, hother]

theorem Frame.store_head (f : Frame ι δ) (mem : Mem δ) (p : Ptr) (ps : List Ptr) :
    f.store mem (p :: ps) =
      Frame.store (match mem p with
        | some o => f.write p o
        | none => f) mem ps := rfl

/-- Storing back at `&visitor_` of the dispatching node and at pointers into
the vector or the heap: the member held by value becomes what the body left at
`this`. -/
theorem Frame.store_member_val (v : List (Chain ι δ)) (h : Heap δ) (mem : Mem δ)
    (ps : List Ptr) (o : Visitor δ) (hps : Ptr.member ∉ ps) :
    ((⟨.val o, v, h⟩ : Frame ι δ).store mem (Ptr.member :: ps)).visitor_ =
      .val ((mem .member).getD o) := by
  rw [Frame.store_head]
  cases hm : mem Ptr.member with
  | none =>
    simp only []
    rw [Frame.store_visitor_other _ _ _ hps]
    rfl
  | some o2 =>
    simp only []
    rw [Frame.store_visitor_other _ _ _ hps]
    rfl

end join_state


section join_state2
variable {ι δ : Type} {T : ArgTypes}

/-- The frame after a node has called the hook of its visitor, or has skipped
the call because the visitor is inactive (source lines 279-284). -/
theorem join_step (B : Visitors ι δ T) (rf : T.RF) (features : T.FEATURES)
    (labels : T.LABELS) (V : ι) (s : Storage (Visitor δ)) (n : Chain ι δ)
    (v : List (Chain ι δ)) (h : Heap δ)
    (hm : ∀ x ∈ v, x.Mirrors (.RFVisitorNode V s n)) (f1 : Frame ι δ)
    (hf1 : f1 = (if (s.get h).is_active = true then
        (⟨s, v, h⟩ : Frame ι δ).store
          (B.visit_after_training V s.this (collect_visitors 0 v) rf features labels
            (⟨s, v, h⟩ : Frame ι δ).read) (s.this :: collect_visitors 0 v)
        else ⟨s, v, h⟩)) :
    collect_nexts f1.v = v.map Chain.next_ ∧
    (∀ b, s ≠ .ref b → f1.heap b = h b) ∧
    f1.visitor_.this = s.this ∧
    ∀ g : Heap δ, (∀ a, s = .ref a → g a = f1.heap a) →
      f1.visitor_.get g = if (s.get h).is_active = true then
        ((B.visit_after_training V s.this (collect_visitors 0 v) rf features labels
          (⟨s, v, h⟩ : Frame ι δ).read) s.this).getD (s.get h)
        else s.get h := by
  by_cases ha : (s.get h).is_active = true
  · rw [if_pos ha] at hf1
    subst hf1
    simp only [ha, if_true]
    refine ⟨Frame.store_nexts _ _ _, ?_, ?_, ?_⟩
    · intro b hb
      rw [Frame.store_heap_other]
      intro hmem
      rcases List.mem_cons.mp hmem with hmem | hmem
      · cases s with
        | ref a =>
          simp only [Storage.this, Ptr.heap.injEq] at hmem
          exact hb (by rw [hmem])
        | val o => simp [Storage.this] at hmem
      · obtain ⟨x, hx, u, hu⟩ := collect_visitors_heap _ _ _ hmem
        exact hb ((hm x hx).ptr u b hu)
    · cases s with
      | ref a =>
        rw [Frame.store_visitor_other]
        simp only [Storage.this, List.mem_cons, not_or]
        exact ⟨by simp, collect_visitors_no_member _ _⟩
      | val o =>
        simp only [Storage.this]
        rw [Frame.store_member_val _ _ _ _ _ (collect_visitors_no_member _ _)]
    · intro g hg
      cases s with
      | ref a =>
        have hv : (Frame.store (⟨Storage.ref a, v, h⟩ : Frame ι δ)
            (B.visit_after_training V (Storage.ref a : Storage (Visitor δ)).this
              (collect_visitors 0 v) rf features labels
              (⟨Storage.ref a, v, h⟩ : Frame ι δ).read)
            ((Storage.ref a : Storage (Visitor δ)).this :: collect_visitors 0 v)).visitor_ =
            Storage.ref a := by
          rw [Frame.store_visitor_other]
          simp only [Storage.this, List.mem_cons, not_or]
          exact ⟨by simp, collect_visitors_no_member _ _⟩
        rw [hv]
        simp only [Storage.get]
        rw [hg a rfl, Frame.store_heap_at]
        simp [Storage.this]
      | val o =>
        simp only [Storage.this]
        rw [Frame.store_member_val _ _ _ _ _ (collect_visitors_no_member _ _)]
        rfl
  · rw [if_neg ha] at hf1
    subst hf1
    refine ⟨rfl, fun _ _ => rfl, rfl, fun g hg => ?_⟩
    rw [if_neg ha]
    cases s with
    | ref a => exact hg a rfl
    | val o => rfl

theorem Chain.heap_at_succ (V : ι) (s : Storage (Visitor δ)) (n : Chain ι δ) (k : Nat)
    (h h1 hf : Heap δ) (hfr : ∀ b, s ≠ .ref b → hf b = h b)
    (hs : ∀ a, s = .ref a → h1 a = hf a ∧ a ∉ n.refs) :
    n.heap_at k hf h1 = (Chain.RFVisitorNode V s n).heap_at (k + 1) h h1 := by
  funext b
  unfold Chain.heap_at
  cases s with
  | val o =>
    simp only [Chain.refs_before]
    rw [hfr b (by simp)]
  | ref a =>
    simp only [Chain.refs_before, List.mem_cons]
    by_cases hb : b = a
    · subst hb
      have hnot : b ∉ n.refs_before k :=
        fun hmem => (hs b rfl).2 (Chain.refs_before_subset n k b hmem)
      simp only [hnot, if_false, true_or, if_true]
      exact ((hs b rfl).1).symm
    · have hne : Storage.ref a ≠ (Storage.ref b : Storage (Visitor δ)) := by
        intro e
        exact hb (Storage.ref.inj e).symm
      simp only [hb, false_or]
      rw [hfr b hne]

/-- The state after `visit_after_training` on a chain whose references are
pairwise distinct, for a vector of per-tree copies: the call returns, objects
the chain does not refer to are untouched, and the visitor of every slot is,
when it was active at entry, what its own hook `visit_after_training` left at
`this` (the hook having been called with the pointers to the visitors at the
same position of the copies), and otherwise as it was. -/
theorem join_state (B : Visitors ι δ T) (rf : T.RF) (features : T.FEATURES)
    (labels : T.LABELS) (c : Chain ι δ) :
    ∀ (v : List (Chain ι δ)) (h : Heap δ), c.refs.Nodup → (∀ x ∈ v, x.Mirrors c) →
      ∃ r, RFVisitorNode.visit_after_training B rf features labels c v h = some r ∧
        (∀ b, b ∉ c.refs → r.heap b = h b) ∧
        r.chain.slots.length = c.slots.length ∧
        ∀ (k : Nat) (V : ι) (s : Storage (Visitor δ)), c.slots[k]? = some (V, s) →
          ∃ s1, r.chain.slots[k]? = some (V, s1) ∧ s1.this = s.this ∧
            s1.get r.heap = if s.active h = true then
              ((aggregate_at B rf features labels c v h r.heap k V s) s.this).getD (s.get h)
              else s.get h := by
  induction c with
  | RFStopVisiting self =>
    intro v h _ _
    exact ⟨_, rfl, fun _ _ => rfl, rfl, fun k V s hk => by simp [Chain.slots] at hk⟩
  | RFVisitorNode V s n ih =>
    intro v h hnd hm
    have hall : v.all Chain.isNode = true := by
      rw [List.all_eq_true]
      intro x hx
      exact (hm x hx).isNode
    have hnd2 : n.refs.Nodup := by
      cases s with
      | ref a => exact (List.nodup_cons.mp hnd).2
      | val o => exact hnd
    have hfresh : ∀ b, s = .ref b → b ∉ n.refs := by
      intro b e
      subst e
      exact (List.nodup_cons.mp hnd).1
    obtain ⟨f1, hf1⟩ : ∃ f1 : Frame ι δ, f1 = (if (s.get h).is_active = true then
        (⟨s, v, h⟩ : Frame ι δ).store
          (B.visit_after_training V s.this (collect_visitors 0 v) rf features labels
            (⟨s, v, h⟩ : Frame ι δ).read) (s.this :: collect_visitors 0 v)
        else ⟨s, v, h⟩) := ⟨_, rfl⟩
    obtain ⟨hnx, hfr, hthis, hget⟩ := join_step B rf features labels V s n v h hm f1 hf1
    have hm2 : ∀ y ∈ collect_nexts f1.v, y.Mirrors n := by
      rw [hnx]
      intro y hy
      obtain ⟨x, hx, rfl⟩ := List.mem_map.mp hy
      exact (hm x hx).next
    obtain ⟨r1, hr1, hframe1, hlen1, hslots1⟩ := ih (collect_nexts f1.v) f1.heap hnd2 hm2
    have hown : ∀ a, s = .ref a → r1.heap a = f1.heap a :=
      fun a e => hframe1 a (hfresh a e)
    refine ⟨⟨.RFVisitorNode V f1.visitor_ r1.chain, f1.v, r1.heap,
      (if (s.get h).is_active = true then
        [⟨.visit_after_training, V, s.this,
          (collect_visitors 0 v).map fun p => (p, (⟨s, v, h⟩ : Frame ι δ).read p)⟩]
      else []) ++ r1.calls⟩, ?_, ?_, ?_, ?_⟩
    · rw [RFVisitorNode.visit_after_training, if_pos hall]
      simp only []
      rw [← hf1, hr1]
    · intro b hb
      have hb1 : s ≠ .ref b := by
        intro e
        subst e
        exact hb (by simp [Chain.refs])
      have hb2 : b ∉ n.refs := by
        intro hmem
        apply hb
        cases s with
        | ref a => exact List.mem_cons_of_mem _ hmem
        | val o => exact hmem
      show r1.heap b = h b
      rw [hframe1 b hb2, hfr b hb1]
    · simp only [Chain.slots, List.length_cons, hlen1]
    · intro k W s2 hk
      cases k with
      | zero =>
        simp only [Chain.slots, List.getElem?_cons_zero, Option.some.injEq,
          Prod.mk.injEq] at hk
        obtain ⟨rfl, rfl⟩ := hk
        refine ⟨f1.visitor_, by simp [Chain.slots], hthis, ?_⟩
        have e0 : v.map (Chain.drop 0) = v := by
          have : (Chain.drop 0 : Chain ι δ → Chain ι δ) = id := rfl
          rw [this, List.map_id]
        show f1.visitor_.get r1.heap = _
        rw [hget r1.heap hown]
        simp only [aggregate_at, e0, Chain.heap_at_zero, Storage.active]
      | succ k =>
        simp only [Chain.slots, List.getElem?_cons_succ] at hk
        obtain ⟨s1, hs1, hthis1, hget1⟩ := hslots1 k W s2 hk
        refine ⟨s1, by simpa [Chain.slots] using hs1, hthis1, ?_⟩
        show s1.get r1.heap = _
        rw [hget1]
        have hsame : s2.get f1.heap = s2.get h := by
          cases s2 with
          | val o => rfl
          | ref a2 =>
            have ha2 : a2 ∈ n.refs := Chain.mem_refs_of_slot n k W a2 hk
            have hne : s ≠ .ref a2 := fun e => hfresh a2 e ha2
            simp only [Storage.get]
            exact hfr a2 hne
        have hmap : (collect_nexts f1.v).map (Chain.drop k) = v.map (Chain.drop (k + 1)) := by
          rw [hnx, List.map_map]
          rfl
        have hheap : n.heap_at k f1.heap r1.heap =
            (Chain.RFVisitorNode V s n).heap_at (k + 1) h r1.heap :=
          Chain.heap_at_succ V s n k h r1.heap f1.heap hfr
            (fun a e => ⟨hown a e, hfresh a e⟩)
        simp only [aggregate_at, Storage.active, hsame, hmap, hheap]

/-- A per-tree copy of a chain, after its first `k` slots, is a per-tree copy
of the chain after its first `k` slots. -/
theorem Chain.Mirrors.drop {x c : Chain ι δ} (hx : x.Mirrors c) :
    ∀ k : Nat, (x.drop k).Mirrors (c.drop k) := by
  intro k
  induction k generalizing x c with
  | zero => exact hx
  | succ k ih =>
    cases c with
    | RFStopVisiting self =>
      rw [Chain.drop_stop]
      cases x.drop (k + 1) <;> simp [Chain.Mirrors]
    | RFVisitorNode V s n => exact ih hx.next

/-- The slot at position `k` is the first slot of the chain after its first
`k` slots. -/
theorem Chain.drop_of_slot (c : Chain ι δ) :
    ∀ (k : Nat) (V : ι) (s : Storage (Visitor δ)), c.slots[k]? = some (V, s) →
      ∃ n, c.drop k = .RFVisitorNode V s n := by
  induction c with
  | RFStopVisiting self =>
    intro k V s hk
    simp [Chain.slots] at hk
  | RFVisitorNode W s2 n ih =>
    intro k V s hk
    cases k with
    | zero =>
      simp only [Chain.slots, List.getElem?_cons_zero, Option.some.injEq,
        Prod.mk.injEq] at hk
      obtain ⟨rfl, rfl⟩ := hk
      exact ⟨n, rfl⟩
    | succ k =>
      simp only [Chain.slots, List.getElem?_cons_succ] at hk
      exact ih k V s hk

/-- With pairwise distinct references, the object the slot at position `k`
refers to is none of those the slots before it refer to. -/
theorem Chain.not_mem_refs_before (c : Chain ι δ) :
    ∀ (k : Nat) (V : ι) (a : Nat), c.refs.Nodup → c.slots[k]? = some (V, Storage.ref a) →
      a ∉ c.refs_before k := by
  induction c with
  | RFStopVisiting self =>
    intro k V a _ hk
    simp [Chain.slots] at hk
  | RFVisitorNode W s2 n ih =>
    intro k V a hnd hk
    cases k with
    | zero => simp [Chain.refs_before]
    | succ k =>
      simp only [Chain.slots, List.getElem?_cons_succ] at hk
      have hmem : a ∈ n.refs := Chain.mem_refs_of_slot n k V a hk
      cases s2 with
      | ref a2 =>
        have hnd2 := List.nodup_cons.mp hnd
        simp only [Chain.refs_before, List.mem_cons, not_or]
        exact ⟨fun e => hnd2.1 (e ▸ hmem), ih k V a hnd2.2 hk⟩
      | val o =>
        simp only [Chain.refs_before]
        exact ih k V a hnd hk

/-- What the hook of the slot at position `k` finds behind the pointers it is
handed: for each tree, in order, the visitor at position `k` of the copy of
that tree, and nothing else. -/
theorem handed_at_slot (c : Chain ι δ) (copies : List (Chain ι δ)) (h h1 : Heap δ)
    (hnd : c.refs.Nodup) (hm : ∀ x ∈ copies, x.Mirrors c) (k : Nat) (V : ι)
    (s : Storage (Visitor δ)) (hk : c.slots[k]? = some (V, s)) :
    (collect_visitors 0 (copies.map (Chain.drop k))).length = copies.length ∧
    (collect_visitors 0 (copies.map (Chain.drop k))).map
        (Frame.read ⟨s, copies.map (Chain.drop k), c.heap_at k h h1⟩) =
      copies.map (fun x => x.state_at k h) := by
  obtain ⟨n, hn⟩ := Chain.drop_of_slot c k V s hk
  have hmv : ∀ x ∈ copies.map (Chain.drop k), x.Mirrors (.RFVisitorNode V s n) := by
    intro x hx
    obtain ⟨y, hy, rfl⟩ := List.mem_map.mp hx
    rw [← hn]
    exact (hm y hy).drop k
  have hagree : ∀ a, s = .ref a → c.heap_at k h h1 a = h a := by
    intro a e
    subst e
    unfold Chain.heap_at
    rw [if_neg (Chain.not_mem_refs_before c k V a hnd hk)]
  have hread := collect_visitors_read
    (⟨s, copies.map (Chain.drop k), c.heap_at k h h1⟩ : Frame ι δ)
    (copies.map (Chain.drop k)) [] (fun x hx => (hmv x hx).isNode) rfl
  simp only [List.length_nil] at hread
  rw [handed_congr _ h 0 _ V s n hmv hagree] at hread
  constructor
  · have := congrArg List.length hread
    rw [List.length_map, handed_length, List.length_map] at this
    exact this
  · have := congrArg (List.map Prod.snd) hread
    rw [List.map_map, handed_snd, List.map_map] at this
    refine this.trans ?_
    apply List.map_congr_left
    intro x _
    exact Chain.drop_visitor? h k x

end join_state2


/-! ## Dispatch through the chain: calls and state -/

section dispatch
variable {ι δ : Type} {T : ArgTypes}

/-- An address among the references of a chain is referred to by one of its
slots. -/
theorem Chain.slot_of_mem_refs (c : Chain ι δ) :
    ∀ a : Nat, a ∈ c.refs → ∃ (k : Nat) (V : ι), c.slots[k]? = some (V, Storage.ref a) := by
  induction c with
  | RFStopVisiting self =>
    intro a ha
    simp [Chain.refs] at ha
  | RFVisitorNode W s n ih =>
    intro a ha
    cases s with
    | ref a2 =>
      simp only [Chain.refs, List.mem_cons] at ha
      rcases ha with rfl | ha
      · exact ⟨0, W, by simp [Chain.slots]⟩
      · obtain ⟨k, V, hk⟩ := ih a ha
        exact ⟨k + 1, V, by simpa [Chain.slots] using hk⟩
    | val o =>
      simp only [Chain.refs] at ha
      obtain ⟨k, V, hk⟩ := ih a ha
      exact ⟨k + 1, V, by simpa [Chain.slots] using hk⟩

theorem Storage.eq_ref_of_this {s : Storage (Visitor δ)} {a : Nat}
    (hs : s.this = Ptr.heap a) : s = .ref a := by
  cases s with
  | ref b =>
    simp only [Storage.this, Ptr.heap.injEq] at hs
    rw [hs]
  | val o => simp [Storage.this] at hs

/-- The calls and the state after `visit_after_training` on a chain whose
references are pairwise distinct, for a vector of per-tree copies. -/
theorem join_run (B : Visitors ι δ T) (rf : T.RF) (features : T.FEATURES)
    (labels : T.LABELS) (c : Chain ι δ) (copies : List (Chain ι δ)) (h : Heap δ)
    (hnd : c.refs.Nodup) (hm : ∀ x ∈ copies, x.Mirrors c) :
    ∃ r, RFVisitorNode.visit_after_training B rf features labels c copies h = some r ∧
      r.calls = (c.slots.enum.filter (fun ks => ks.2.2.active h)).map (join_call h copies) ∧
      (∀ b, b ∉ c.refs → r.heap b = h b) ∧
      r.chain.slots.length = c.slots.length ∧
      ∀ (k : Nat) (V : ι) (s : Storage (Visitor δ)), c.slots[k]? = some (V, s) →
        ∃ s1, r.chain.slots[k]? = some (V, s1) ∧ s1.this = s.this ∧
          s1.get r.heap = if s.active h = true then
            ((aggregate_at B rf features labels c copies h r.heap k V s) s.this).getD
              (s.get h)
            else s.get h := by
  obtain ⟨r, hr, hcalls⟩ := join_calls B rf features labels c copies h hnd hm
  obtain ⟨r2, hr2, hframe, hlen, hslots⟩ := join_state B rf features labels c copies h hnd hm
  have e : r2 = r := Option.some.inj (hr2.symm.trans hr)
  subst e
  exact ⟨r2, hr, hcalls, hframe, hlen, hslots⟩

/-- The state after `visit_after_training` on a chain that refers to all its
visitors: the chain has the same slots, and the caller's visitor of every slot
is what its own hook left at `this`. -/
theorem join_state_borrowed (B : Visitors ι δ T) (rf : T.RF) (features : T.FEATURES)
    (labels : T.LABELS) (args : List (ι × Nat)) (copies : List (Chain ι δ)) (h : Heap δ)
    (hnd : (args.map Prod.snd).Nodup)
    (hm : ∀ x ∈ copies, x.Mirrors (Chain.borrowed args)) :
    ∃ r, RFVisitorNode.visit_after_training B rf features labels (Chain.borrowed args)
        copies h = some r ∧
      r.chain.slots = (Chain.borrowed args : Chain ι δ).slots ∧
      (∀ b, b ∉ args.map Prod.snd → r.heap b = h b) ∧
      ∀ (k : Nat) (va : ι × Nat), args[k]? = some va →
        r.heap va.2 = if (h va.2).is_active = true then
          ((aggregate_at B rf features labels (Chain.borrowed args) copies h r.heap k va.1
            (.ref va.2)) (.heap va.2)).getD (h va.2)
          else h va.2 := by
  have hnd2 : (Chain.borrowed args : Chain ι δ).refs.Nodup := by
    rw [Chain.borrowed_refs]
    exact hnd
  obtain ⟨r, hr, hframe, hlen, hslots⟩ :=
    join_state B rf features labels (Chain.borrowed args) copies h hnd2 hm
  have hslot : ∀ (k : Nat) (va : ι × Nat), args[k]? = some va →
      (Chain.borrowed args : Chain ι δ).slots[k]? = some (va.1, Storage.ref va.2) := by
    intro k va hk
    rw [Chain.borrowed_slots, List.getElem?_map, hk]
    rfl
  refine ⟨r, hr, ?_, ?_, ?_⟩
  · apply List.ext_getElem?
    intro k
    cases hk : args[k]? with
    | none =>
      have h1 : (Chain.borrowed args : Chain ι δ).slots[k]? = none := by
        rw [Chain.borrowed_slots, List.getElem?_map, hk]
        rfl
      rw [h1]
      rw [List.getElem?_eq_none_iff] at h1 ⊢
      rw [hlen]
      exact h1
    | some va =>
      obtain ⟨s1, hs1, hthis, _⟩ := hslots k va.1 (.ref va.2) (hslot k va hk)
      rw [hs1, hslot k va hk, Storage.eq_ref_of_this hthis]
  · intro b hb
    apply hframe
    rw [Chain.borrowed_refs]
    exact hb
  · intro k va hk
    obtain ⟨s1, hs1, hthis, hget⟩ := hslots k va.1 (.ref va.2) (hslot k va hk)
    rw [Storage.eq_ref_of_this hthis] at hget
    exact hget

end dispatch


section dispatch_claims
variable {ι δ : Type} {T : ArgTypes}

/-- C1: for one to ten pairwise distinct visitors `v1, ..., vN`, all active,
`create_visitor(v1, ..., vN)` yields a chain each of whose hooks calls the hook
of the same name of `v1, ..., vN`, once each, in the order of the arguments.
For each of `visit_before_training`, `visit_before_tree`, `visit_after_tree`
(listed with the hook body they dispatch to) the calls are those of `v1, ...,
vN` in order, every `vk` is afterwards the result of the body of its class
applied once to its state at entry, and nothing else has changed.  For
`visit_after_training` the calls are those of `v1, ..., vN` in order, and every
`vk` is afterwards what the hook of its class, called on it with the visitors
at position `k` of the copies, has left of it. -/
theorem create_visitor_dispatch_order (B : Visitors ι δ T) (args : List (ι × Nat))
    (h : Heap δ) (weights : T.WEIGHTS) (rf : T.RF) (features : T.FEATURES) (labels : T.LABELS)
    (hlo : 1 ≤ args.length) (hhi : args.length ≤ 10)
    (hnd : (args.map Prod.snd).Nodup)
    (hact : ∀ a ∈ args.map Prod.snd, (h a).is_active = true) :
    ∃ chain : Chain ι δ, create_visitor args = some chain ∧
      (∀ d ∈ [(Hook.visit_before_training, B.visit_before_training,
            RFVisitorNode.visit_before_training B),
          (Hook.visit_before_tree, (fun V => B.visit_before_tree V weights),
            RFVisitorNode.visit_before_tree B weights),
          (Hook.visit_after_tree, (fun V => B.visit_after_tree V rf features labels weights),
            RFVisitorNode.visit_after_tree B rf features labels weights)],
        (d.2.2 chain h).calls = args.map (fun va => ⟨d.1, va.1, .heap va.2, []⟩) ∧
        (d.2.2 chain h).chain = chain ∧
        (∀ va ∈ args, (d.2.2 chain h).heap va.2 = d.2.1 va.1 (h va.2)) ∧
        ∀ b, b ∉ args.map Prod.snd → (d.2.2 chain h).heap b = h b) ∧
      ∀ copies : List (Chain ι δ), (∀ x ∈ copies, x.Mirrors chain) →
        ∃ r, RFVisitorNode.visit_after_training B rf features labels chain copies h = some r ∧
          r.calls.map (fun c => (c.hook, c.VISITOR, c.receiver)) =
            args.map (fun va => (Hook.visit_after_training, va.1, Ptr.heap va.2)) ∧
          r.chain.slots = chain.slots ∧
          (∀ (k : Nat) (va : ι × Nat), args[k]? = some va →
            r.heap va.2 =
              ((B.visit_after_training va.1 (.heap va.2)
                (collect_visitors 0 (copies.map (Chain.drop k))) rf features labels
                (Frame.read ⟨.ref va.2, copies.map (Chain.drop k),
                  chain.heap_at k h r.heap⟩)) (.heap va.2)).getD (h va.2)) ∧
          ∀ b, b ∉ args.map Prod.snd → r.heap b = h b := by
  have hnd2 : (Chain.borrowed args : Chain ι δ).refs.Nodup := by
    rw [Chain.borrowed_refs]
    exact hnd
  have hfw : ∀ (hook : Hook) (base : RFVisitorBase → RFVisitorBase)
      (hbase : ∀ s, base s = s) (body : ι → Visitor δ → Visitor δ),
      (RFVisitorNode.forward hook base body (Chain.borrowed args) h).calls =
        args.map (fun va => ⟨hook, va.1, .heap va.2, []⟩) ∧
      (RFVisitorNode.forward hook base body (Chain.borrowed args) h).chain =
        Chain.borrowed args ∧
      (∀ va ∈ args, (RFVisitorNode.forward hook base body (Chain.borrowed args) h).heap va.2 =
        body va.1 (h va.2)) ∧
      ∀ b, b ∉ args.map Prod.snd →
        (RFVisitorNode.forward hook base body (Chain.borrowed args) h).heap b = h b := by
    intro hook base hbase body
    refine ⟨?_, forward_chain_borrowed hook base hbase body args h, ?_, ?_⟩
    · rw [forward_calls hook base body _ h hnd2, Chain.borrowed_slots,
        filter_active_all args h hact, List.map_map]
      rfl
    · intro va hva
      rw [forward_heap_built hook base body args h hnd va hva,
        if_pos (hact va.2 (List.mem_map.mpr ⟨va, hva, rfl⟩))]
    · intro b hb
      apply forward_heap_frame
      rw [Chain.borrowed_refs]
      exact hb
  refine ⟨Chain.borrowed args, create_visitor_eq args hlo hhi, ?_, ?_⟩
  · intro d hd
    simp only [List.mem_cons, List.mem_singleton, List.not_mem_nil, or_false] at hd
    rcases hd with rfl | rfl | rfl
    · exact hfw _ _ (fun _ => rfl) _
    · exact hfw _ _ (fun _ => rfl) _
    · exact hfw _ _ (fun _ => rfl) _
  · intro copies hm
    obtain ⟨r, hr, hcalls⟩ := join_calls B rf features labels _ copies h hnd2 hm
    obtain ⟨r2, hr2, hslots, hframe, hstate⟩ :=
      join_state_borrowed B rf features labels args copies h hnd hm
    have e : r2 = r := Option.some.inj (hr2.symm.trans hr)
    subst e
    refine ⟨r2, hr, ?_, hslots, ?_, hframe⟩
    · rw [hcalls, Chain.borrowed_slots, List.enum,
        enumFrom_filter_active_all args h 0 hact, List.map_map]
      have : ((fun c : Call δ ι => (c.hook, c.VISITOR, c.receiver)) ∘ join_call h copies) =
          fun ks => (fun s : ι × Storage (Visitor δ) =>
            (Hook.visit_after_training, s.1, s.2.this)) ks.2 := rfl
      rw [this]
      refine (enumFrom_map_snd_map _ 0
        (fun s : ι × Storage (Visitor δ) =>
          (Hook.visit_after_training, s.1, s.2.this))).trans ?_
      rw [List.map_map]
      rfl
    · intro k va hk
      have hmem : va ∈ args := List.getElem?_mem hk
      rw [hstate k va hk, if_pos (hact va.2 (List.mem_map.mpr ⟨va, hmem, rfl⟩))]
      rfl

theorem create_visitor_dispatch_order_witness :
    ∃ chain : Chain Nat Nat, create_visitor [(0, 0), (1, 1)] = some chain ∧
      (RFVisitorNode.visit_before_tree Example.counting [1, 0] chain Example.heap).calls =
        [⟨.visit_before_tree, 0, .heap 0, []⟩, ⟨.visit_before_tree, 1, .heap 1, []⟩] ∧
      (RFVisitorNode.visit_before_tree Example.counting [1, 0] chain Example.heap).heap 1 =
        Example.counting.visit_before_tree 1 [1, 0] (Example.heap 1) ∧
      ∃ r, RFVisitorNode.visit_after_training Example.counting 3 () () chain Example.forks
          Example.heap = some r ∧
        r.calls.map (fun c => (c.hook, c.VISITOR, c.receiver)) =
          [(Hook.visit_after_training, 0, Ptr.heap 0),
            (Hook.visit_after_training, 1, Ptr.heap 1)] ∧
        (r.heap 0).derived = 2 ∧ (r.heap 1).derived = 2 := by
  obtain ⟨chain, hc, hfw, hj⟩ := create_visitor_dispatch_order Example.counting
    [(0, 0), (1, 1)] Example.heap [1, 0] 3 () () (by decide) (by decide) (by decide)
    (by decide)
  have hchain : chain = Example.chain := Option.some.inj (hc.symm.trans rfl)
  subst hchain
  obtain ⟨r, hr, hcalls, _, _, _⟩ := hj Example.forks (by
    intro x hx
    simp only [Example.forks, List.mem_cons, List.mem_singleton, List.not_mem_nil,
      or_false] at hx
    rcases hx with rfl | rfl <;>
      simp [Example.chain, create_visitor2, RFVisitorNode.mk, RFVisitorNode.mk1,
        Chain.Mirrors])
  have hv := (hfw (Hook.visit_before_tree,
    (fun V => Example.counting.visit_before_tree V [1, 0]),
    RFVisitorNode.visit_before_tree Example.counting [1, 0]) (by simp))
  refine ⟨Example.chain, rfl, hv.1, hv.2.2.1 (1, 1) (by simp), r, hr, hcalls, ?_, ?_⟩
  · have e : RFVisitorNode.visit_after_training Example.counting 3 () () Example.chain
        Example.forks Example.heap = some r := hr
    have e2 := (Option.some.inj (e.symm.trans rfl))
    rw [e2]
    rfl
  · have e : RFVisitorNode.visit_after_training Example.counting 3 () () Example.chain
        Example.forks Example.heap = some r := hr
    have e2 := (Option.some.inj (e.symm.trans rfl))
    rw [e2]
    rfl

/-- C2: on a chain whose references are pairwise distinct, for every
configuration of the active flags, each chain hook calls the hook of exactly
the visitors that are active at entry, in chain order, and no hook of an
inactive visitor.  For each of `visit_before_training`, `visit_before_tree`,
`visit_after_tree` (listed with the hook body they dispatch to): the calls are
those of the active slots in order; a visitor held by value or referred to is
afterwards the result of the body of its class when it was active, and is as it
was when it was inactive; nothing else changes; and after deactivating the
visitor at address `a` the calls on it are gone and it is left as it is, while
the calls on, and the results for, all other visitors are the same.  For
`visit_after_training` the same holds with the hook of the class called on the
visitors at the same position of the copies. -/
theorem chain_dispatch_active (B : Visitors ι δ T) (c : Chain ι δ) (h : Heap δ)
    (weights : T.WEIGHTS) (rf : T.RF) (features : T.FEATURES) (labels : T.LABELS)
    (hnd : c.refs.Nodup) :
    (∀ d ∈ [(Hook.visit_before_training, B.visit_before_training,
          RFVisitorNode.visit_before_training B),
        (Hook.visit_before_tree, (fun V => B.visit_before_tree V weights),
          RFVisitorNode.visit_before_tree B weights),
        (Hook.visit_after_tree, (fun V => B.visit_after_tree V rf features labels weights),
          RFVisitorNode.visit_after_tree B rf features labels weights)],
      (d.2.2 c h).calls =
        (c.slots.filter (fun s => s.2.active h)).map (fun s => ⟨d.1, s.1, s.2.this, []⟩) ∧
      (d.2.2 c h).chain.slots =
        c.slots.map (fun s =>
          (s.1, match s.2 with
            | .ref a => Storage.ref a
            | .val o => Storage.val (if o.is_active then d.2.1 s.1 o else o))) ∧
      (∀ V a, (V, Storage.ref a) ∈ c.slots →
        (d.2.2 c h).heap a = if (h a).is_active then d.2.1 V (h a) else h a) ∧
      (∀ b, b ∉ c.refs → (d.2.2 c h).heap b = h b) ∧
      ∀ a : Nat,
        (d.2.2 c (Function.update h a (h a).deactivate)).calls =
          (d.2.2 c h).calls.filter (fun call => decide (call.receiver ≠ Ptr.heap a)) ∧
        (a ∈ c.refs →
          (d.2.2 c (Function.update h a (h a).deactivate)).heap a = (h a).deactivate) ∧
        (∀ b, b ≠ a →
          (d.2.2 c (Function.update h a (h a).deactivate)).heap b = (d.2.2 c h).heap b) ∧
        (d.2.2 c (Function.update h a (h a).deactivate)).chain.slots =
          (d.2.2 c h).chain.slots) ∧
    ∀ copies : List (Chain ι δ), (∀ x ∈ copies, x.Mirrors c) →
      ∃ r, RFVisitorNode.visit_after_training B rf features labels c copies h = some r ∧
        r.calls.map (fun call => (call.hook, call.VISITOR, call.receiver)) =
          (c.slots.filter (fun s => s.2.active h)).map
            (fun s => (Hook.visit_after_training, s.1, s.2.this)) ∧
        (∀ b, b ∉ c.refs → r.heap b = h b) ∧
        r.chain.slots.length = c.slots.length ∧
        (∀ (k : Nat) (V : ι) (s : Storage (Visitor δ)), c.slots[k]? = some (V, s) →
          ∃ s1, r.chain.slots[k]? = some (V, s1) ∧ s1.this = s.this ∧
            s1.get r.heap = if s.active h = true then
              ((B.visit_after_training V s.this
                (collect_visitors 0 (copies.map (Chain.drop k))) rf features labels
                (Frame.read ⟨s, copies.map (Chain.drop k), c.heap_at k h r.heap⟩))
                  s.this).getD (s.get h)
              else s.get h) ∧
        ∀ a : Nat,
          ∃ r2, RFVisitorNode.visit_after_training B rf features labels c copies
              (Function.update h a (h a).deactivate) = some r2 ∧
            r2.calls.map (fun call => (call.hook, call.VISITOR, call.receiver)) =
              (r.calls.map (fun call => (call.hook, call.VISITOR, call.receiver))).filter
                (fun call => decide (call.2.2 ≠ Ptr.heap a)) ∧
            (a ∈ c.refs → r2.heap a = (h a).deactivate) := by
  have hslot_mem : ∀ a, a ∈ c.refs → ∃ V, (V, Storage.ref a) ∈ c.slots := by
    intro a ha
    obtain ⟨k, V, hk⟩ := Chain.slot_of_mem_refs c a ha
    exact ⟨V, List.getElem?_mem hk⟩
  have hdeact : ∀ a, ((Function.update h a (h a).deactivate) a).is_active = false := by
    intro a
    rw [Function.update_same]
    rfl
  have hfw : ∀ (hook : Hook) (base : RFVisitorBase → RFVisitorBase)
      (body : ι → Visitor δ → Visitor δ),
      (RFVisitorNode.forward hook base body c h).calls =
        (c.slots.filter (fun s => s.2.active h)).map (fun s => ⟨hook, s.1, s.2.this, []⟩) ∧
      (RFVisitorNode.forward hook base body c h).chain.slots =
        c.slots.map (fun s =>
          (s.1, match s.2 with
            | .ref a => Storage.ref a
            | .val o => Storage.val (if o.is_active then body s.1 o else o))) ∧
      (∀ V a, (V, Storage.ref a) ∈ c.slots →
        (RFVisitorNode.forward hook base body c h).heap a =
          if (h a).is_active then body V (h a) else h a) ∧
      (∀ b, b ∉ c.refs → (RFVisitorNode.forward hook base body c h).heap b = h b) ∧
      ∀ a : Nat,
        (RFVisitorNode.forward hook base body c (Function.update h a (h a).deactivate)).calls =
          (RFVisitorNode.forward hook base body c h).calls.filter
            (fun call => decide (call.receiver ≠ Ptr.heap a)) ∧
        (a ∈ c.refs →
          (RFVisitorNode.forward hook base body c
            (Function.update h a (h a).deactivate)).heap a = (h a).deactivate) ∧
        (∀ b, b ≠ a →
          (RFVisitorNode.forward hook base body c
            (Function.update h a (h a).deactivate)).heap b =
          (RFVisitorNode.forward hook base body c h).heap b) ∧
        (RFVisitorNode.forward hook base body c
            (Function.update h a (h a).deactivate)).chain.slots =
          (RFVisitorNode.forward hook base body c h).chain.slots := by
    intro hook base body
    refine ⟨forward_calls hook base body c h hnd, forward_chain_slots hook base body c h,
      fun V a hm => forward_heap_at hook base body c h hnd V a hm,
      fun b hb => forward_heap_frame hook base body c h b hb, fun a => ⟨?_, ?_, ?_, ?_⟩⟩
    · exact forward_calls_deactivate hook base body c h hnd a
    · intro ha
      obtain ⟨V, hV⟩ := hslot_mem a ha
      rw [forward_heap_at hook base body c _ hnd V a hV, hdeact a]
      simp only [Bool.false_eq_true, if_false, Function.update_same]
    · intro b hb
      by_cases hmem : b ∈ c.refs
      · obtain ⟨V, hV⟩ := hslot_mem b hmem
        rw [forward_heap_at hook base body c _ hnd V b hV,
          forward_heap_at hook base body c h hnd V b hV, heap_update_other h a b _ hb]
      · rw [forward_heap_frame hook base body c _ b hmem,
          forward_heap_frame hook base body c h b hmem, heap_update_other h a b _ hb]
    · rw [forward_chain_slots, forward_chain_slots]
  refine ⟨?_, ?_⟩
  · intro d hd
    simp only [List.mem_cons, List.mem_singleton, List.not_mem_nil, or_false] at hd
    rcases hd with rfl | rfl | rfl
    · exact hfw _ _ _
    · exact hfw _ _ _
    · exact hfw _ _ _
  · intro copies hm
    obtain ⟨r, hr, hcalls⟩ := join_calls_heads B rf features labels c copies h hnd hm
    obtain ⟨r1, hr1, hframe, hlen, hslots⟩ :=
      join_state B rf features labels c copies h hnd hm
    have e : r1 = r := Option.some.inj (hr1.symm.trans hr)
    subst e
    refine ⟨r1, hr, hcalls, hframe, hlen, hslots, fun a => ?_⟩
    obtain ⟨r2, hr2, hcalls2⟩ := join_calls_heads B rf features labels c copies
      (Function.update h a (h a).deactivate) hnd hm
    obtain ⟨r3, hr3, _, _, hslots3⟩ := join_state B rf features labels c copies
      (Function.update h a (h a).deactivate) hnd hm
    have e : r3 = r2 := Option.some.inj (hr3.symm.trans hr2)
    subst e
    refine ⟨r3, hr2, ?_, ?_⟩
    · rw [hcalls, hcalls2, filter_active_deactivate, List.filter_map]
      rfl
    · intro ha
      obtain ⟨k, V, hk⟩ := Chain.slot_of_mem_refs c a ha
      obtain ⟨s1, _, hthis, hget⟩ := hslots3 k V (.ref a) hk
      rw [Storage.eq_ref_of_this hthis] at hget
      have hin : (Storage.ref a : Storage (Visitor δ)).active
          (Function.update h a (h a).deactivate) = false := hdeact a
      rw [hin] at hget
      simp only [Bool.false_eq_true, if_false, Storage.get, Function.update_same] at hget
      exact hget

theorem chain_dispatch_active_witness :
    (RFVisitorNode.visit_after_tree Example.counting 3 () () [1, 0] Example.chain
        (Function.update Example.heap 0 (Example.heap 0).deactivate)).calls =
      [⟨.visit_after_tree, 1, .heap 1, []⟩] ∧
    (RFVisitorNode.visit_after_tree Example.counting 3 () () [1, 0] Example.chain
        (Function.update Example.heap 0 (Example.heap 0).deactivate)).heap 0 =
      (Example.heap 0).deactivate ∧
    (RFVisitorNode.visit_after_tree Example.counting 3 () () [1, 0] Example.chain
        (Function.update Example.heap 0 (Example.heap 0).deactivate)).heap 1 =
      (RFVisitorNode.visit_after_tree Example.counting 3 () () [1, 0] Example.chain
        Example.heap).heap 1 ∧
    ((RFVisitorNode.visit_after_tree Example.counting 3 () () [1, 0] Example.chain
        Example.heap).heap 1).derived = 3 := by
  have hd := ((chain_dispatch_active Example.counting Example.chain Example.heap [1, 0] 3 ()
    () (by decide)).1 (Hook.visit_after_tree,
      (fun V => Example.counting.visit_after_tree V 3 () () [1, 0]),
      RFVisitorNode.visit_after_tree Example.counting 3 () () [1, 0]) (by simp)).2.2.2.2 0
  exact ⟨hd.1.trans (by decide), hd.2.1 (by decide), hd.2.2.1 1 (by decide), by decide⟩

/-- C3: for a chain whose references are pairwise distinct and a vector
`copies` of `T` per-tree copies, `visit_after_training` hands the visitor of
every active slot, at position `k`, a vector of exactly `T` entries, the `t`-th
being the visitor at position `k` of `copies[t]`, whatever the active flags of
the slots before `k`.  For every slot `(V, s)` at position `k`: the vector of
pointers built for it has `T` entries; read at the moment of the call, the
`t`-th pointer gives the state of the visitor at position `k` of `copies[t]`;
and when the slot is active its visitor is afterwards what the hook of class
`V`, called with exactly this vector and memory, has left at `this`. -/
theorem after_training_hands_own_states (B : Visitors ι δ T) (rf : T.RF)
    (features : T.FEATURES) (labels : T.LABELS) (c : Chain ι δ) (copies : List (Chain ι δ))
    (h : Heap δ) (hnd : c.refs.Nodup) (hm : ∀ x ∈ copies, x.Mirrors c) :
    ∃ r, RFVisitorNode.visit_after_training B rf features labels c copies h = some r ∧
      r.calls.map (fun call => (call.VISITOR, call.receiver, call.visitors.map Prod.snd)) =
        (c.slots.enum.filter (fun ks => ks.2.2.active h)).map
          (fun ks => (ks.2.1, ks.2.2.this,
            copies.map (fun x => (x.slots[ks.1]?).map (fun s => s.2.get h)))) ∧
      r.calls.map (fun call => call.visitors.length) =
        (c.slots.filter (fun s => s.2.active h)).map (fun _ => copies.length) ∧
      copies.map (fun x => decide (c.slots.length ≤ x.slots.length)) =
        copies.map (fun _ => true) ∧
      ∀ (k : Nat) (V : ι) (s : Storage (Visitor δ)), c.slots[k]? = some (V, s) →
        (collect_visitors 0 (copies.map (Chain.drop k))).length = copies.length ∧
        (collect_visitors 0 (copies.map (Chain.drop k))).map
            (Frame.read ⟨s, copies.map (Chain.drop k), c.heap_at k h r.heap⟩) =
          copies.map (fun x => x.state_at k h) ∧
        ∃ s1, r.chain.slots[k]? = some (V, s1) ∧ s1.this = s.this ∧
          s1.get r.heap = if s.active h = true then
            ((B.visit_after_training V s.this
              (collect_visitors 0 (copies.map (Chain.drop k))) rf features labels
              (Frame.read ⟨s, copies.map (Chain.drop k), c.heap_at k h r.heap⟩))
                s.this).getD (s.get h)
            else s.get h := by
  obtain ⟨r, hr, hcalls, _, _, hslots⟩ := join_run B rf features labels c copies h hnd hm
  refine ⟨r, hr, ?_, ?_, ?_, ?_⟩
  · rw [hcalls, List.map_map]
    apply List.map_congr_left
    intro ks _
    simp only [Function.comp, join_call, handed_snd, List.map_map]
    congr 2
    apply List.map_congr_left
    intro x _
    exact Chain.drop_visitor? h ks.1 x
  · rw [hcalls, List.map_map]
    have : ((fun call : Call δ ι => call.visitors.length) ∘ join_call h copies) =
        fun ks => (fun _ : ι × Storage (Visitor δ) => copies.length) ks.2 := by
      funext ks
      simp only [Function.comp, join_call, handed_length, List.length_map]
    rw [this]
    exact enumFrom_filter_map_snd c.slots 0 (fun s => s.2.active h) (fun _ => copies.length)
  · apply List.map_congr_left
    intro x hx
    exact decide_eq_true (hm x hx).length_le
  · intro k V s hk
    obtain ⟨hlen, hread⟩ := handed_at_slot c copies h r.heap hnd hm k V s hk
    exact ⟨hlen, hread, hslots k V s hk⟩

theorem Example.forks_mirror : ∀ x ∈ Example.forks, x.Mirrors Example.chain := by
  intro x hx
  simp only [Example.forks, List.mem_cons, List.mem_singleton, List.not_mem_nil,
    or_false] at hx
  rcases hx with rfl | rfl
  · simp [Example.chain, create_visitor2, RFVisitorNode.mk, RFVisitorNode.mk1, Chain.Mirrors]
  · simp [Example.chain, create_visitor2, RFVisitorNode.mk, RFVisitorNode.mk1, Chain.Mirrors]

theorem after_training_hands_own_states_witness :
    ∃ r, RFVisitorNode.visit_after_training Example.counting 3 () () Example.chain
        Example.forks (Function.update Example.heap 0 (Example.heap 0).deactivate) = some r ∧
      (collect_visitors 0 (Example.forks.map (Chain.drop 1))).map
          (Frame.read ⟨.ref 1, Example.forks.map (Chain.drop 1),
            Example.chain.heap_at 1
              (Function.update Example.heap 0 (Example.heap 0).deactivate) r.heap⟩) =
        [some (Visitor.new 0), some (Visitor.new 0)] ∧
      (collect_visitors 0 (Example.forks.map (Chain.drop 0))).map
          (Frame.read ⟨.ref 0, Example.forks.map (Chain.drop 0),
            Example.chain.heap_at 0
              (Function.update Example.heap 0 (Example.heap 0).deactivate) r.heap⟩) =
        [some { active_ := true, derived := 5 }, some { active_ := true, derived := 6 }] ∧
      (r.heap 1).derived = 2 ∧ r.heap 0 = (Example.heap 0).deactivate := by
  obtain ⟨r, hr, _, _, _, hslots⟩ := after_training_hands_own_states Example.counting 3 ()
    () Example.chain Example.forks
    (Function.update Example.heap 0 (Example.heap 0).deactivate) (by decide)
    Example.forks_mirror
  have e := Option.some.inj (hr.symm.trans rfl)
  refine ⟨r, hr, (hslots 1 1 (.ref 1) rfl).2.1.trans (by decide),
    (hslots 0 0 (.ref 0) rfl).2.1.trans (by decide), ?_, ?_⟩
  · rw [e]
    rfl
  · rw [e]
    rfl

/-- C6: every slot of the chain built by `create_visitor(v1, ..., vN)` refers
to the caller's visitor and holds no copy.  For each of the three forwarding
hooks (listed with the hook body they dispatch to) and for every state of the
caller's visitors the chain is unchanged by the dispatch and the state change
the hook makes to visitor `k` is found on the caller's `vk`; for
`visit_after_training` the chain keeps its slots and what the hook of `vk`
leaves at `this` is found on the caller's `vk`.  A change `g` the caller makes
to `vk` after building is what the next dispatch of each of the four hooks
works on; in particular after `vk.deactivate()` no call is made on `vk`. -/
theorem create_visitor_borrows (B : Visitors ι δ T) (args : List (ι × Nat)) (h : Heap δ)
    (weights : T.WEIGHTS) (rf : T.RF) (features : T.FEATURES) (labels : T.LABELS)
    (hlo : 1 ≤ args.length) (hhi : args.length ≤ 10) (hnd : (args.map Prod.snd).Nodup) :
    ∃ chain : Chain ι δ, create_visitor args = some chain ∧
      chain.slots = args.map (fun va => (va.1, Storage.ref va.2)) ∧
      (∀ d ∈ [(Hook.visit_before_training, B.visit_before_training,
            RFVisitorNode.visit_before_training B),
          (Hook.visit_before_tree, (fun V => B.visit_before_tree V weights),
            RFVisitorNode.visit_before_tree B weights),
          (Hook.visit_after_tree, (fun V => B.visit_after_tree V rf features labels weights),
            RFVisitorNode.visit_after_tree B rf features labels weights)],
        (d.2.2 chain h).chain = chain ∧
        (∀ va ∈ args, (d.2.2 chain h).heap va.2 =
          if (h va.2).is_active then d.2.1 va.1 (h va.2) else h va.2) ∧
        (∀ va ∈ args, ∀ g : Visitor δ → Visitor δ,
          (d.2.2 chain (Function.update h va.2 (g (h va.2)))).heap va.2 =
            if (g (h va.2)).is_active then d.2.1 va.1 (g (h va.2)) else g (h va.2)) ∧
        ∀ va ∈ args,
          (d.2.2 chain (Function.update h va.2 (h va.2).deactivate)).calls =
            (d.2.2 chain h).calls.filter
              (fun call => decide (call.receiver ≠ Ptr.heap va.2))) ∧
      ∀ copies : List (Chain ι δ), (∀ x ∈ copies, x.Mirrors chain) →
        (∃ r, RFVisitorNode.visit_after_training B rf features labels chain copies h =
            some r ∧
          r.chain.slots = chain.slots ∧
          ∀ (k : Nat) (va : ι × Nat), args[k]? = some va →
            r.heap va.2 = if (h va.2).is_active = true then
              ((B.visit_after_training va.1 (.heap va.2)
                (collect_visitors 0 (copies.map (Chain.drop k))) rf features labels
                (Frame.read ⟨.ref va.2, copies.map (Chain.drop k),
                  chain.heap_at k h r.heap⟩)) (.heap va.2)).getD (h va.2)
              else h va.2) ∧
        ∀ (k : Nat) (va : ι × Nat), args[k]? = some va → ∀ g : Visitor δ → Visitor δ,
          ∃ r, RFVisitorNode.visit_after_training B rf features labels chain copies
              (Function.update h va.2 (g (h va.2))) = some r ∧
            r.chain.slots = chain.slots ∧
            r.heap va.2 = if (g (h va.2)).is_active = true then
              ((B.visit_after_training va.1 (.heap va.2)
                (collect_visitors 0 (copies.map (Chain.drop k))) rf features labels
                (Frame.read ⟨.ref va.2, copies.map (Chain.drop k),
                  chain.heap_at k (Function.update h va.2 (g (h va.2))) r.heap⟩))
                  (.heap va.2)).getD (g (h va.2))
              else g (h va.2) := by
  have hnd2 : (Chain.borrowed args : Chain ι δ).refs.Nodup := by
    rw [Chain.borrowed_refs]
    exact hnd
  have hfw : ∀ (hook : Hook) (base : RFVisitorBase → RFVisitorBase)
      (hbase : ∀ s, base s = s) (body : ι → Visitor δ → Visitor δ),
      (RFVisitorNode.forward hook base body (Chain.borrowed args) h).chain =
        Chain.borrowed args ∧
      (∀ va ∈ args, (RFVisitorNode.forward hook base body (Chain.borrowed args) h).heap va.2 =
        if (h va.2).is_active then body va.1 (h va.2) else h va.2) ∧
      (∀ va ∈ args, ∀ g : Visitor δ → Visitor δ,
        (RFVisitorNode.forward hook base body (Chain.borrowed args)
            (Function.update h va.2 (g (h va.2)))).heap va.2 =
          if (g (h va.2)).is_active then body va.1 (g (h va.2)) else g (h va.2)) ∧
      ∀ va ∈ args,
        (RFVisitorNode.forward hook base body (Chain.borrowed args)
            (Function.update h va.2 (h va.2).deactivate)).calls =
          (RFVisitorNode.forward hook base body (Chain.borrowed args) h).calls.filter
            (fun call => decide (call.receiver ≠ Ptr.heap va.2)) := by
    intro hook base hbase body
    refine ⟨forward_chain_borrowed hook base hbase body args h,
      fun va hva => forward_heap_built hook base body args h hnd va hva, ?_, ?_⟩
    · intro va hva g
      have := forward_heap_built hook base body args
        (Function.update h va.2 (g (h va.2))) hnd va hva
      rw [Function.update_same] at this
      exact this
    · intro va _
      exact forward_calls_deactivate hook base body _ h hnd2 va.2
  refine ⟨Chain.borrowed args, create_visitor_eq args hlo hhi, Chain.borrowed_slots args,
    ?_, ?_⟩
  · intro d hd
    simp only [List.mem_cons, List.mem_singleton, List.not_mem_nil, or_false] at hd
    rcases hd with rfl | rfl | rfl
    · exact hfw _ _ (fun _ => rfl) _
    · exact hfw _ _ (fun _ => rfl) _
    · exact hfw _ _ (fun _ => rfl) _
  · intro copies hm
    refine ⟨?_, ?_⟩
    · obtain ⟨r, hr, hslots, _, hstate⟩ :=
        join_state_borrowed B rf features labels args copies h hnd hm
      exact ⟨r, hr, hslots, hstate⟩
    · intro k va hk g
      obtain ⟨r, hr, hslots, _, hstate⟩ := join_state_borrowed B rf features labels args
        copies (Function.update h va.2 (g (h va.2))) hnd hm
      refine ⟨r, hr, hslots, ?_⟩
      have := hstate k va hk
      rw [Function.update_same] at this
      exact this

theorem create_visitor_borrows_witness :
    ∃ chain : Chain Nat Nat, create_visitor [(0, 0), (1, 1)] = some chain ∧
      chain.slots = [(0, Storage.ref 0), (1, Storage.ref 1)] ∧
      ((RFVisitorNode.visit_after_tree Example.counting 3 () () [1, 0] chain
        Example.heap).heap 1).derived = 3 ∧
      ∃ r, RFVisitorNode.visit_after_training Example.counting 3 () () chain Example.forks
          (Function.update Example.heap 1
            ((fun o : Visitor Nat => { o with derived := 40 }) (Example.heap 1))) = some r ∧
        r.chain.slots = chain.slots ∧ (r.heap 1).derived = 2 := by
  obtain ⟨chain, hc, hslots, _, hj⟩ := create_visitor_borrows Example.counting
    [(0, 0), (1, 1)] Example.heap [1, 0] 3 () () (by decide) (by decide) (by decide)
  have hchain : chain = Example.chain := Option.some.inj (hc.symm.trans rfl)
  subst hchain
  obtain ⟨r, hr, hrs, _⟩ := (hj Example.forks Example.forks_mirror).2 1 (1, 1) rfl
    (fun o : Visitor Nat => { o with derived := 40 })
  have e := Option.some.inj (hr.symm.trans rfl)
  refine ⟨Example.chain, rfl, hslots, by decide, r, hr, hrs, ?_⟩
  rw [e]
  rfl

/-- C14, the claim refuted on the code: one fork of the example chain has been
taken, yet `visit_after_training` accepts the empty list and a list with the
fork twice, and runs the aggregation hook of both visitors on it, with `0` and
`2` entries: the hook of the example stores the number of entries it was handed
in its visitor, and that number is found on the caller's visitors afterwards. -/
theorem after_training_accepts_mismatched_list :
    RFVisitorNode.from_other Example.chain Example.heap = some Example.fork ∧
    (RFVisitorNode.visit_after_training Example.counting 3 () () Example.chain []
        Example.heap).map
      (fun r => r.calls.map (fun call => (call.VISITOR, call.receiver, call.visitors.length)))
      = some [(0, Ptr.heap 0, 0), (1, Ptr.heap 1, 0)] ∧
    (RFVisitorNode.visit_after_training Example.counting 3 () () Example.chain
        [Example.fork, Example.fork] Example.heap).map
      (fun r => r.calls.map (fun call => (call.VISITOR, call.receiver, call.visitors.length)))
      = some [(0, Ptr.heap 0, 2), (1, Ptr.heap 1, 2)] ∧
    (RFVisitorNode.visit_after_training Example.counting 3 () () Example.chain
        [Example.fork, Example.fork] Example.heap).map
      (fun r => ((r.heap 0).derived, (r.heap 1).derived)) = some (2, 2) ∧
    (RFVisitorNode.visit_after_training Example.counting 3 () () Example.chain []
        (fun _ => Visitor.new 9)).map
      (fun r => ((r.heap 0).derived, (r.heap 1).derived)) = some (0, 0) := by
  refine ⟨rfl, ?_, ?_, ?_, ?_⟩ <;> decide

/-- C14 as amended: `visit_after_training` keeps no record of the forks and
checks nothing about the list: for every list of per-tree copies, of any
length, the call completes and runs the aggregation hook of every active
visitor, in chain order, handing it exactly as many entries as the list has.
The calls are those of the active slots in order, each with as many entries as
the list has; the vector of pointers built for the slot at position `k` has as
many entries as the list; and the visitor of every active slot is afterwards
what the hook of its class, called with this vector, has left at `this`. -/
theorem after_training_checks_no_length (B : Visitors ι δ T) (rf : T.RF)
    (features : T.FEATURES) (labels : T.LABELS) (c : Chain ι δ) (copies : List (Chain ι δ))
    (h : Heap δ) (hnd : c.refs.Nodup) (hm : ∀ x ∈ copies, x.Mirrors c) :
    ∃ r, RFVisitorNode.visit_after_training B rf features labels c copies h = some r ∧
      r.calls.map (fun call => (call.VISITOR, call.receiver, call.visitors.length)) =
        (c.slots.filter (fun s => s.2.active h)).map
          (fun s => (s.1, s.2.this, copies.length)) ∧
      ∀ (k : Nat) (V : ι) (s : Storage (Visitor δ)), c.slots[k]? = some (V, s) →
        (collect_visitors 0 (copies.map (Chain.drop k))).length = copies.length ∧
        ∃ s1, r.chain.slots[k]? = some (V, s1) ∧ s1.this = s.this ∧
          s1.get r.heap = if s.active h = true then
            ((B.visit_after_training V s.this
              (collect_visitors 0 (copies.map (Chain.drop k))) rf features labels
              (Frame.read ⟨s, copies.map (Chain.drop k), c.heap_at k h r.heap⟩))
                s.this).getD (s.get h)
            else s.get h := by
  obtain ⟨r, hr, hcalls, _, _, hslots⟩ := join_run B rf features labels c copies h hnd hm
  refine ⟨r, hr, ?_, ?_⟩
  · rw [hcalls, List.map_map]
    have : ((fun call : Call δ ι => (call.VISITOR, call.receiver, call.visitors.length)) ∘
        join_call h copies) =
        fun ks => (fun s : ι × Storage (Visitor δ) => (s.1, s.2.this, copies.length)) ks.2 := by
      funext ks
      simp only [Function.comp, join_call, handed_length, List.length_map]
    rw [this]
    exact enumFrom_filter_map_snd c.slots 0 (fun s => s.2.active h)
      (fun s => (s.1, s.2.this, copies.length))
  · intro k V s hk
    exact ⟨(handed_at_slot c copies h r.heap hnd hm k V s hk).1, hslots k V s hk⟩

theorem Example.fork_mirror :
    ∀ x ∈ [Example.fork, Example.fork], x.Mirrors Example.chain := by
  intro x hx
  simp only [List.mem_cons, List.mem_singleton, List.not_mem_nil, or_false, or_self] at hx
  subst hx
  simp [Example.fork, Example.chain, create_visitor2, RFVisitorNode.mk, RFVisitorNode.mk1,
    Chain.Mirrors]

theorem after_training_checks_no_length_witness :
    ∃ r, RFVisitorNode.visit_after_training Example.counting 3 () () Example.chain
        [Example.fork, Example.fork] Example.heap = some r ∧
      r.calls.map (fun call => (call.VISITOR, call.receiver, call.visitors.length)) =
        [(0, Ptr.heap 0, 2), (1, Ptr.heap 1, 2)] ∧
      (collect_visitors 0 ([Example.fork, Example.fork].map (Chain.drop 1))).length = 2 ∧
      (r.heap 0).derived = 2 ∧ (r.heap 1).derived = 2 := by
  obtain ⟨r, hr, hcalls, hslots⟩ := after_training_checks_no_length Example.counting 3 () ()
    Example.chain [Example.fork, Example.fork] Example.heap (by decide) Example.fork_mirror
  have e := Option.some.inj (hr.symm.trans rfl)
  refine ⟨r, hr, hcalls.trans (by decide), (hslots 1 1 (.ref 1) rfl).1, ?_, ?_⟩
  · rw [e]
    rfl
  · rw [e]
    rfl

end dispatch_claims


/-! ## The reduction over the per-tree copies is missing -/

section ordered
variable {R : Type} [Add R] [Mul R] [Zero R]

omit [Add R] [Mul R] in
theorem read_source_getD (src : List R) (m : Int) (h0 : 0 ≤ m) (h1 : m < src.length) :
    read_source src m = .ok (src.getD m.toNat 0) := by
  unfold read_source
  have hlt : m.toNat < src.length := by omega
  rw [if_pos h0, List.getElem?_eq_getElem hlt, List.getD_eq_getElem?_getD,
    List.getElem?_eq_getElem hlt]
  rfl

/-- A left fold over `0, 1, ..., n`: the first step, then the fold over the
shifted indices. -/
theorem foldl_range_succ {α : Type} (g : α → Nat → α) (a : α) (n : Nat) :
    (List.range (n + 1)).foldl g a = (List.range n).foldl (fun s j => g s (j + 1)) (g a 0) := by
  rw [List.range_succ_eq_map, List.foldl_cons, List.foldl_map]

theorem border_loop_ordered (src : List R) (wo wo2 : Int) (K : Kernel1D R) (count : Nat)
    (m k : Int) (sum : R)
    (hb : ∀ j : Nat, j < count →
      0 ≤ mirror_index wo wo2 (m + j) ∧ mirror_index wo wo2 (m + j) < src.length) :
    border_loop src wo wo2 K count m k sum =
      .ok ((List.range count).foldl
        (fun s (j : Nat) => s + K.coeff (k - (j : Int)) *
          src.getD (mirror_index wo wo2 (m + (j : Int))).toNat 0) sum) := by
  induction count generalizing m k sum with
  | zero => rfl
  | succ count ih =>
    have h0 := hb 0 (Nat.succ_pos _)
    simp only [Nat.cast_zero, add_zero] at h0
    rw [border_loop, read_source_getD src _ h0.1 h0.2]
    simp only []
    rw [ih, foldl_range_succ]
    · simp only [Nat.cast_zero, add_zero, sub_zero]
      congr 1
      apply List.foldl_ext
      intro s j _
      have e1 : k - 1 - (j : Int) = k - ((j + 1 : Nat) : Int) := by push_cast; ring
      have e2 : m + 1 + (j : Int) = m + ((j + 1 : Nat) : Int) := by push_cast; ring
      rw [e1, e2]
    · intro j hj
      have := hb (j + 1) (Nat.succ_lt_succ hj)
      have e2 : m + 1 + (j : Int) = m + ((j + 1 : Nat) : Int) := by push_cast; ring
      rw [e2]
      exact this

theorem interior_loop_ordered (src : List R) (K : Kernel1D R) (count : Nat) (ss k : Int)
    (sum : R) (hb : ∀ j : Nat, j < count → 0 ≤ ss + j ∧ ss + j < src.length) :
    interior_loop src K count ss k sum =
      .ok ((List.range count).foldl
        (fun s (j : Nat) => s + K.coeff (k - (j : Int)) * src.getD (ss + (j : Int)).toNat 0) sum) := by
  induction count generalizing ss k sum with
  | zero => rfl
  | succ count ih =>
    have h0 := hb 0 (Nat.succ_pos _)
    simp only [Nat.cast_zero, add_zero] at h0
    rw [interior_loop, read_source_getD src _ h0.1 h0.2]
    simp only []
    rw [ih, foldl_range_succ]
    · simp only [Nat.cast_zero, add_zero, sub_zero]
      congr 1
      apply List.foldl_ext
      intro s j _
      have e1 : k - 1 - (j : Int) = k - ((j + 1 : Nat) : Int) := by push_cast; ring
      have e2 : ss + 1 + (j : Int) = ss + ((j + 1 : Nat) : Int) := by push_cast; ring
      rw [e1, e2]
    · intro j hj
      have := hb (j + 1) (Nat.succ_lt_succ hj)
      have e2 : ss + 1 + (j : Int) = ss + ((j + 1 : Nat) : Int) := by push_cast; ring
      rw [e2]
      exact this

/-- The value of the specification, folded over the iteration count. -/
theorem ordered_line_value_eq_range (src : List R) (K : Kernel1D R) (f : Int → Int)
    (i : Int) :
    Spec.ordered_line_value src K f i =
      (List.range ((f i - K.left) + 1 - (f i - K.right)).toNat).foldl
        (fun s (j : Nat) => s + K.coeff (K.right - (j : Int)) *
          src.getD (Spec.refl src.length ((f i - K.right) + (j : Int))).toNat 0) 0 := by
  unfold Spec.ordered_line_value Spec.support
  rw [List.foldl_map]
  apply List.foldl_ext
  intro s j _
  have e : f i - (f i - K.right + (j : Int)) = K.right - (j : Int) := by ring
  rw [e]

/-- When the kernel is not too large for the line, the body of the loop over
the targets returns the sum accumulated from zero in the order of the source
indices, in the border branch and in the interior branch alike. -/
theorem convolve_at_ordered (src : List R) (K : Kernel1D R) (f : Int → Int) (i : Int)
    (hf : ¬ Spec.too_large (src.length : Int) K (f i)) :
    convolve_at src K f i = .ok (Spec.ordered_line_value src K f i) := by
  unfold Spec.too_large at hf
  rw [ordered_line_value_eq_range]
  unfold convolve_at
  simp only []
  by_cases hb : f i - K.right < 0 ∨ f i - K.left ≥ (src.length : Int)
  · have hc : -(f i - K.right) < (src.length : Int) ∧
        2 * (src.length : Int) - 2 - (f i - K.left) ≥ 0 := by
      constructor
      · by_contra hn
        exact hf ⟨hb, Or.inl (by omega)⟩
      · by_contra hn
        exact hf ⟨hb, Or.inr (by omega)⟩
    rw [if_pos hb, if_pos hc, border_loop_ordered]
    · rfl
    · intro j hj
      apply mirror_index_bounds (src.length : Int) (f i - K.right) (f i - K.left) _ hc.1 hc.2
      · omega
      · omega
  · rw [if_neg hb, interior_loop_ordered]
    · congr 1
      apply List.foldl_ext
      intro s j hj
      rw [List.mem_range] at hj
      have e : Spec.refl (src.length : Int) (f i - K.right + j) = f i - K.right + j := by
        unfold Spec.refl
        rw [if_neg (by omega), if_neg (by omega)]
      rw [e]
    · intro j hj
      omega

theorem convolve_at_too_large (src : List R) (K : Kernel1D R) (f : Int → Int) (i : Int)
    (hf : Spec.too_large (src.length : Int) K (f i)) :
    convolve_at src K f i = .error (.precondition
      "resamplingConvolveLine(): kernel or offset larger than image.") := by
  unfold Spec.too_large at hf
  unfold convolve_at
  simp only []
  rw [if_pos hf.1, if_neg]
  intro hc
  omega

/-- The loop of `resamplingConvolveLine` from target `i` on, the kernel
iterator standing at the kernel of `i`: when no target from `i` on has a kernel
too large for the line, the values written are the ordered sums. -/
theorem line_loop_ordered (src : List R) (kernels : List (Kernel1D R)) (f : Int → Int)
    (hk : kernels ≠ []) (count i kv : Nat)
    (hkv : (if kv = kernels.length then 0 else kv) = i % kernels.length)
    (hok : ∀ j < count, ∀ K, Spec.kernel_of kernels (i + j) = some K →
      ¬ Spec.too_large (src.length : Int) K (f ((i + j : Nat) : Int))) :
    resamplingConvolveLine_loop src kernels f count (i : Int) kv =
      .ok ((List.range count).map fun j =>
        match Spec.kernel_of kernels (i + j) with
        | some K => Spec.ordered_line_value src K f ((i + j : Nat) : Int)
        | none => 0) := by
  have hn : 0 < kernels.length := List.length_pos.mpr hk
  induction count generalizing i kv with
  | zero => rfl
  | succ count ih =>
    have hlt : i % kernels.length < kernels.length := Nat.mod_lt _ hn
    obtain ⟨K, hK⟩ : ∃ K, kernels[i % kernels.length]? = some K :=
      ⟨_, List.getElem?_eq_getElem hlt⟩
    have hK0 : Spec.kernel_of kernels (i + 0) = some K := hK
    have h0 := hok 0 (Nat.succ_pos _) K hK0
    have hnext : (if i % kernels.length + 1 = kernels.length then 0
        else i % kernels.length + 1) = (i + 1) % kernels.length :=
      kernel_iterator_step kernels.length i hn
    have ih2 := ih (i + 1) (i % kernels.length + 1) hnext (by
      intro j hj K2 hK2
      have e : i + 1 + j = i + (j + 1) := by omega
      rw [e] at hK2 ⊢
      exact hok (j + 1) (Nat.succ_lt_succ hj) K2 hK2)
    rw [resamplingConvolveLine_loop]
    simp only [hkv, hK]
    rw [convolve_at_ordered src K f i h0]
    simp only []
    have ecast : ((i : Int) + 1) = ((i + 1 : Nat) : Int) := by push_cast; rfl
    rw [ecast, ih2, List.range_succ_eq_map, List.map_cons, List.map_map]
    have hhead : Spec.ordered_line_value src K f (i : Int) =
        (match Spec.kernel_of kernels (i + 0) with
          | some K => Spec.ordered_line_value src K f ((i + 0 : Nat) : Int)
          | none => 0) := by
      rw [hK0]
      rfl
    have htail : (List.range count).map (fun j =>
          match Spec.kernel_of kernels (i + 1 + j) with
          | some K => Spec.ordered_line_value src K f ((i + 1 + j : Nat) : Int)
          | none => 0) =
        (List.range count).map ((fun j =>
          match Spec.kernel_of kernels (i + j) with
          | some K => Spec.ordered_line_value src K f ((i + j : Nat) : Int)
          | none => 0) ∘ Nat.succ) := by
      apply List.map_congr_left
      intro j _
      have e : i + 1 + j = i + (j + 1) := by omega
      simp only [Function.comp, e, Nat.succ_eq_add_one]
    exact congrArg Except.ok (congrArg₂ List.cons hhead htail)

/-- C16: for a source line, an array of at least one kernel and a coordinate
map `f`, when for no target index the kernel is too large for the line (no
precondition fails), `resamplingConvolveLine` writes to every target index
`i < wn` the sum of the terms `K[f i - m] * src[refl m]` for `m` from
`f i - right` to `f i - left`, where `K` is the kernel at `i mod n` and `refl`
the mirror reflection that does not repeat the border sample.  The sum is the
one the code accumulates: from zero, in increasing order of `m`, with the `+`
and `*` of the sample type, of which nothing else is assumed.  The body of the
loop returns this value for every target whose kernel is not too large, in
the interior branch and in the border branch alike. -/
theorem resamplingConvolveLine_sum (src : List R) (wn : Nat) (kernels : List (Kernel1D R))
    (f : Int → Int) (hk : kernels ≠ [])
    (hpre : ∀ i < wn, ∀ K, kernels[i % kernels.length]? = some K →
      ¬ Spec.too_large (src.length : Int) K (f i)) :
    (∃ dest, resamplingConvolveLine src wn kernels f = .ok dest ∧ dest.length = wn ∧
      ∀ i < wn, ∃ K, kernels[i % kernels.length]? = some K ∧
        dest[i]? = some ((Spec.support (f i - K.right) (f i - K.left)).foldl
          (fun sum m => sum + K.coeff (f i - m) *
            src.getD (Spec.refl src.length m).toNat 0) 0)) ∧
    ∀ (K : Kernel1D R) (i : Int), ¬ Spec.too_large (src.length : Int) K (f i) →
      convolve_at src K f i = .ok ((Spec.support (f i - K.right) (f i - K.left)).foldl
        (fun sum m => sum + K.coeff (f i - m) *
          src.getD (Spec.refl src.length m).toNat 0) 0) ∧
      (¬ (f i - K.right < 0 ∨ f i - K.left ≥ (src.length : Int)) →
        ∀ m ∈ Spec.support (f i - K.right) (f i - K.left),
          Spec.refl src.length m = m) := by
  have hn : 0 < kernels.length := List.length_pos.mpr hk
  have hrun := line_loop_ordered src kernels f hk wn 0 0 (by
      rw [if_neg (by omega)]
      exact (Nat.zero_mod _).symm) (by
      intro j hj K hK
      rw [Nat.zero_add] at hK ⊢
      exact hpre j hj K hK)
  refine ⟨⟨_, hrun, ?_, ?_⟩, ?_⟩
  · rw [List.length_map, List.length_range]
  · intro i hi
    obtain ⟨K, hK⟩ : ∃ K, kernels[i % kernels.length]? = some K :=
      ⟨_, List.getElem?_eq_getElem (Nat.mod_lt _ hn)⟩
    refine ⟨K, hK, ?_⟩
    rw [List.getElem?_map, List.getElem?_range hi]
    have hK2 : Spec.kernel_of kernels i = some K := hK
    simp only [Option.map_some', Nat.zero_add, hK2]
    rfl
  · intro K i hf
    refine ⟨convolve_at_ordered src K f i hf, ?_⟩
    intro hin m hm
    unfold Spec.support at hm
    obtain ⟨j, hj, rfl⟩ := List.mem_map.mp hm
    rw [List.mem_range] at hj
    unfold Spec.refl
    rw [if_neg (by omega), if_neg (by omega)]

end ordered

/-- In a semiring the sum accumulated in the order of the code is the sum over
the interval of source indices. -/
theorem Spec.ordered_line_value_eq_sum {R : Type} [Semiring R] (src : List R)
    (K : Kernel1D R) (f : Int → Int) (i : Int) :
    Spec.ordered_line_value src K f i = Spec.line_value src K f i := by
  rw [ordered_line_value_eq_range, line_value_eq_range]
  have key : ∀ (g : Nat → R) (n : Nat) (a : R),
      (List.range n).foldl (fun s j => s + g j) a = a + ∑ j in Finset.range n, g j := by
    intro g n
    induction n with
    | zero => intro a; simp
    | succ n ih =>
      intro a
      rw [List.range_succ, List.foldl_append, ih, Finset.sum_range_succ]
      simp only [List.foldl_cons, List.foldl_nil, add_assoc]
  rw [key, zero_add]

theorem resamplingConvolveLine_sum_witness :
    ∃ dest, resamplingConvolveLine Example.line 7 [Example.kernel, Example.kernel2]
        (fun j => j) = .ok dest ∧ dest = [6, 3, 12, 7, 18, 9, 12] ∧
      dest[0]? = some ((Spec.support (0 - Example.kernel.right) (0 - Example.kernel.left)).foldl
        (fun sum m => sum + Example.kernel.coeff (0 - m) *
          Example.line.getD (Spec.refl Example.line.length m).toNat 0) 0) ∧
      Spec.support (0 - Example.kernel.right) (0 - Example.kernel.left) = [-1, 0, 1] := by
  obtain ⟨dest, hd, _, hval⟩ := (resamplingConvolveLine_sum Example.line 7
    [Example.kernel, Example.kernel2] (fun j => j) (by simp) Example.kernels_fit).1
  obtain ⟨K, hK, hv⟩ := hval 0 (by decide)
  have hK2 : K = Example.kernel := (Option.some.inj hK).symm
  subst hK2
  have e : dest = [6, 3, 12, 7, 18, 9, 12] := by
    have : resamplingConvolveLine Example.line 7 [Example.kernel, Example.kernel2]
        (fun j => j) = .ok [6, 3, 12, 7, 18, 9, 12] := rfl
    rw [this] at hd
    exact (Except.ok.inj hd).symm
  exact ⟨dest, hd, e, hv, by decide⟩

end vigra
